import Mathlib

/-!
# Verification of go-faster/yaml composer and decoder claims

Shallow embedding of the node data model, the composer (`parser.parse` and
friends in decode.go), the decoder (`decoder.unmarshal`, `decoder.mapping`,
`decoder.merge`, `decoder.scalar`), the key-equality relation
(`Node.equalKey`) and the error taxonomy (errors.go) of the go-faster/yaml
repository, together with proofs settling the frozen claims.

Machine integers: all counters in the source are Go `int` values that stay
far below 2^63 in every reachable scenario modelled here, so they are
embedded as `Nat`/`Int` without wrap-around.  The float64 alias-ratio
arithmetic of `allowedAliasRatio` is embedded over `ℚ` (exact rationals);
the constants 0.99, 0.89, 0.10 are written as the rationals they denote in
the source text.
-/

namespace Yaml

/-- Node kinds, from yaml.go (`DocumentNode` .. `AliasNode`); `zeroKind`
models the zero value of the Go `Kind` type. -/
inductive Kind where
  | zeroKind
  | documentNode
  | sequenceNode
  | mappingNode
  | scalarNode
  | aliasNode
deriving DecidableEq, Repr

/-- Style bit flags, from yaml.go.  Go declares `Style uint32` with
one bit per style; we keep the same bit layout in a `Nat` mask. -/
def TaggedStyle : Nat := 1
def DoubleQuotedStyle : Nat := 2
def SingleQuotedStyle : Nat := 4
def LiteralStyle : Nat := 8
def FoldedStyle : Nat := 16
def FlowStyle : Nat := 32

/-- The yaml.Node record (yaml.go), restricted to the fields the claims
under verification read: Kind, Style, Tag, Value, Anchor, Alias, Content,
Line, Column.  Comment fields are omitted (no claim mentions them).

Two extra points of the embedding:
* `aliasTarget` embeds the Go `Alias *Node` pointer as the value of the
  node it points to (post-composition the target is always a completed
  node, see `composeNode`).
* `id` embeds pointer identity: the composer assigns ids from a counter,
  so distinct allocations get distinct ids.  Code outside the composer
  never branches on `id`. -/
inductive Node where
  | mk (id : Nat) (kind : Kind) (style : Nat) (tag : String) (value : String)
      (anchor : String) (aliasTarget : Option Node) (content : List Node)
      (line : Nat) (column : Nat)
deriving Repr

namespace Node

def id : Node → Nat | .mk i _ _ _ _ _ _ _ _ _ => i
def kind : Node → Kind | .mk _ k _ _ _ _ _ _ _ _ => k
def style : Node → Nat | .mk _ _ s _ _ _ _ _ _ _ => s
def tag : Node → String | .mk _ _ _ t _ _ _ _ _ _ => t
def value : Node → String | .mk _ _ _ _ v _ _ _ _ _ => v
def anchor : Node → String | .mk _ _ _ _ _ a _ _ _ _ => a
def aliasTarget : Node → Option Node | .mk _ _ _ _ _ _ al _ _ _ => al
def content : Node → List Node | .mk _ _ _ _ _ _ _ c _ _ => c
def line : Node → Nat | .mk _ _ _ _ _ _ _ _ l _ => l
def column : Node → Nat | .mk _ _ _ _ _ _ _ _ _ c => c

end Node

/-- Long-form tag prefix, from resolve.go (`longTagPrefix`). -/
def longTagPrefix : String := "tag:yaml.org,2002:"

/-- Short tag constants, from yaml.go. -/
def nullTag : String := "!!null"
def boolTag : String := "!!bool"
def strTag : String := "!!str"
def intTag : String := "!!int"
def floatTag : String := "!!float"
def seqTag : String := "!!seq"
def mapTag : String := "!!map"
def binaryTag : String := "!!binary"
def mergeTag : String := "!!merge"

/-- Modelled from the spec: resolve.go is not under src/.  `shortTag`
rewrites a long-form `tag:yaml.org,2002:suffix` tag to its `!!suffix`
shorthand and leaves every other tag unchanged (spec §3: "A node's tag is
always in resolved (long) form after composition; the shortTag form is
computed on demand", §4.2 item 9: the secondary handle `!!` expands to
`tag:yaml.org,2002:`). -/
def shortTag (tag : String) : String :=
  if longTagPrefix.data.isPrefixOf tag.data then
    "!!" ++ tag.drop longTagPrefix.length
  else tag

/-- `Node.ShortTag` restricted to composed nodes, whose `Tag` field is
always populated (parser.node assigns a resolved or default tag to every
node it builds); for those the yaml.go method returns `shortTag n.Tag`. -/
def Node.ShortTag (n : Node) : String := shortTag n.tag

-- Structural size of a node tree; used only as the fuel bound that makes
-- the recursive source functions executable in the embedding (the Go
-- originals recurse on pointers; every recursive call below goes into a
-- strict subterm, so `nodeSize` steps of fuel always suffice).
mutual
def nodeSize : Node → Nat
  | .mk _ _ _ _ _ _ al c _ _ => 1 + optSize al + listSize c
def optSize : Option Node → Nat
  | none => 0
  | some n => 1 + nodeSize n
def listSize : List Node → Nat
  | [] => 0
  | n :: rest => 1 + nodeSize n + listSize rest
end

/-- The key/value pair view of a mapping node's flat content list
`[k0, v0, k1, v1, ...]`; the Go code indexes `Content[i]`, `Content[i+1]`
stepping `i` by 2 (a trailing odd element would panic in Go and is
dropped here; composed mappings always have even content). -/
def toPairs : List Node → List (Node × Node)
  | k :: v :: rest => (k, v) :: toPairs rest
  | _ => []

/-- The `nodeKey` index struct from `Node.equalKey`'s mapping case
(decode.go): kind, value and content length of a key node. -/
structure NodeKey where
  kind : Kind
  value : String
  contentLen : Nat
deriving DecidableEq, Repr

def nodeKeyOf (n : Node) : NodeKey := ⟨n.kind, n.value, n.content.length⟩

/-- `Node.equalKey` (decode.go), fuel-indexed.  Faithful points:
* different kinds are never equal; two nodes of an unhandled kind
  (document, zero) fall through to the final `return true`;
* scalars compare the raw `Value` text only (no canonicalization);
* sequences compare lengths, then content pairwise;
* mappings compare lengths, then for each key/value pair of `b` look up
  the pairs of `n` whose key has the same `nodeKey` (Go groups the pairs
  of `n` into a map indexed by `nodeKey`; the `filter` below yields
  exactly the group for `q`'s key, in the same order) and require every
  such pair to match the pair of `b`; a map miss returns false;
* aliases compare their targets; a nil target (Go pointer) makes
  `equalKey(nil, _)` return false. -/
def equalKeyF : Nat → Node → Node → Bool
  | 0, _, _ => false
  | fuel+1, n, b =>
    if n.kind ≠ b.kind then false
    else
      match n.kind with
      | .scalarNode => n.value == b.value
      | .sequenceNode =>
        (n.content.length == b.content.length) &&
          (n.content.zip b.content).all fun p => equalKeyF fuel p.1 p.2
      | .mappingNode =>
        (n.content.length == b.content.length) &&
          (toPairs b.content).all fun q =>
            let similar := (toPairs n.content).filter fun p =>
              nodeKeyOf p.1 == nodeKeyOf q.1
            !similar.isEmpty && similar.all fun p =>
              equalKeyF fuel p.1 q.1 && equalKeyF fuel p.2 q.2
      | .aliasNode =>
        match n.aliasTarget, b.aliasTarget with
        | some na, some ba => equalKeyF fuel na ba
        | _, _ => false
      | _ => true

/-- `Node.equalKey` at its natural fuel: all recursive calls of the Go
function go into strict subterms of the receiver, so `nodeSize n` steps
always suffice. -/
def equalKey (n b : Node) : Bool := equalKeyF (nodeSize n) n b

/-! ## Decoded values

The decoder's output domain: the Go `any` values the reflection-free
fragment of the decoder produces.  float64 is embedded as `ℚ` plus
explicit infinity/NaN constructors. -/

inductive DValue where
  | vnull
  | vbool (b : Bool)
  | vint (i : Int)
  | vfloat (q : ℚ)
  | vinf (neg : Bool)
  | vnan
  | vstr (s : String)
  | vseq (items : List DValue)
  | vmap (entries : List (DValue × DValue))
deriving Repr

/-- Go interface-value equality as used when indexing a `map[any]any`.
The decoder guards every map-key use with `isHashable`, so sequence and
mapping values never reach a comparison (Go would panic on them); they
compare unequal here.  Go's float64 NaN is not equal to itself. -/
def DValue.keyEq : DValue → DValue → Bool
  | .vnull, .vnull => true
  | .vbool a, .vbool b => a == b
  | .vint a, .vint b => a == b
  | .vfloat a, .vfloat b => a == b
  | .vinf a, .vinf b => a == b
  | .vstr a, .vstr b => a == b
  | _, _ => false

/-- `isHashable` (yaml.go; spec §4.6 hashability check): slice and map
values cannot be Go map keys. -/
def isHashable : DValue → Bool
  | .vmap _ => false
  | .vseq _ => false
  | _ => true

/-- Lookup in a decoded Go map, embedded as an association list with
unique keys. -/
def mapLookup (m : List (DValue × DValue)) (k : DValue) : Option DValue :=
  (m.find? fun e => DValue.keyEq e.1 k).map Prod.snd

/-- `out.SetMapIndex(k, v)`: replace the binding of `k`, or append it. -/
def mapSet (m : List (DValue × DValue)) (k v : DValue) : List (DValue × DValue) :=
  if (m.find? fun e => DValue.keyEq e.1 k).isSome then
    m.map fun e => if DValue.keyEq e.1 k then (e.1, v) else e
  else m ++ [(k, v)]

/-- Membership in the decoder's `mergedFields` set (Go `map[any]struct{}`). -/
def fieldsMem (fs : List DValue) (k : DValue) : Bool := fs.any fun f => DValue.keyEq f k

/-! ## Tag resolution (spec-modelled)

resolve.go is not under src/; the functions below are modelled from the
spec (§4.4 "Tag resolution", §8 "Tag resolution" bullets). -/

def digitVal (c : Char) : Nat :=
  if c.isDigit then c.toNat - 48
  else if 'a' ≤ c ∧ c ≤ 'f' then c.toNat - 87
  else if 'A' ≤ c ∧ c ≤ 'F' then c.toNat - 55
  else 16

def goodDigits (base : Nat) (ds : List Char) : Bool :=
  !ds.isEmpty && ds.all fun c => digitVal c < base

def digitsToNat (base : Nat) (ds : List Char) : Nat :=
  ds.foldl (fun acc c => acc * base + digitVal c) 0

/-- Modelled from the spec: the YAML core-schema integer forms (§4.4:
"int (decimal, `0o…`, `0x…`, binary `0b…`, with `_` separators
ignored)"), unsigned part. -/
def parsePlainNat (cs : List Char) : Option Nat :=
  let cs := cs.filter fun c => c ≠ '_'
  match cs with
  | '0' :: 'x' :: ds => if goodDigits 16 ds then some (digitsToNat 16 ds) else none
  | '0' :: 'o' :: ds => if goodDigits 8 ds then some (digitsToNat 8 ds) else none
  | '0' :: 'b' :: ds => if goodDigits 2 ds then some (digitsToNat 2 ds) else none
  | ds => if goodDigits 10 ds then some (digitsToNat 10 ds) else none

def parsePlainInt (s : String) : Option Int :=
  match s.toList with
  | '-' :: rest => (parsePlainNat rest).map fun v => -(v : Int)
  | '+' :: rest => (parsePlainNat rest).map fun v => (v : Int)
  | cs => (parsePlainNat cs).map fun v => (v : Int)

def isInfNanText (s : String) : Bool :=
  s ∈ [".inf", "+.inf", "-.inf", ".Inf", "+.Inf", "-.Inf", ".INF", "+.INF", "-.INF",
       ".nan", ".NaN", ".NAN"]

def expTailOk : List Char → Bool
  | [] => true
  | 'e' :: '+' :: ds => goodDigits 10 ds
  | 'e' :: '-' :: ds => goodDigits 10 ds
  | 'e' :: ds => goodDigits 10 ds
  | 'E' :: '+' :: ds => goodDigits 10 ds
  | 'E' :: '-' :: ds => goodDigits 10 ds
  | 'E' :: ds => goodDigits 10 ds
  | _ => false

/-- Modelled from the spec: finite-float recognizer for the core schema
(§4.4 "float (including `.inf`, `.nan`)"); sign, integer part, optional
fraction, optional exponent, at least one mantissa digit, not all-digits
(all-digit text is an int). -/
def isFloatText (s : String) : Bool :=
  let cs := match s.toList with
    | '-' :: rest => rest
    | '+' :: rest => rest
    | cs => cs
  let cs := cs.filter fun c => c ≠ '_'
  match cs.span Char.isDigit with
  | (intPart, '.' :: rest) =>
    let (fracPart, rest2) := rest.span Char.isDigit
    (!intPart.isEmpty || !fracPart.isEmpty) && expTailOk rest2
  | (intPart, rest) => !intPart.isEmpty && !rest.isEmpty && expTailOk rest

/-- Best-effort numeric value of a finite float text (mantissa times a
power of ten); no claim under verification depends on float values. -/
def floatValQ (s : String) : ℚ :=
  let (neg, cs) := match s.toList with
    | '-' :: rest => (true, rest)
    | '+' :: rest => (false, rest)
    | cs => (false, cs)
  let cs := cs.filter fun c => c ≠ '_'
  let (ipart, rest) := cs.span Char.isDigit
  let (fpart, rest2) := match rest with
    | '.' :: r => r.span Char.isDigit
    | r => ([], r)
  let (esign, eds) := match rest2 with
    | 'e' :: '+' :: ds => (1, ds)
    | 'e' :: '-' :: ds => (-1, ds)
    | 'e' :: ds => (1, ds)
    | 'E' :: '+' :: ds => (1, ds)
    | 'E' :: '-' :: ds => (-1, ds)
    | 'E' :: ds => (1, ds)
    | _ => (1, [])
  let mant : ℚ := (digitsToNat 10 ipart : ℚ) +
    (digitsToNat 10 fpart : ℚ) / ((10 : ℚ) ^ fpart.length)
  let q := mant * (10 : ℚ) ^ ((esign : ℤ) * (digitsToNat 10 eds : ℤ))
  if neg then -q else q

/-- Modelled from the spec: implicit resolution of a plain scalar with no
explicit tag, YAML core schema order (§4.4: null, bool, int, float, else
string; §8: null over `null|Null|NULL|~|empty`, bool over
`true|True|TRUE|false|False|FALSE`).  Timestamps are omitted and resolve
as strings here; no claim under verification touches them. -/
def implicitResolve (value : String) : String × DValue :=
  if value ∈ ["", "~", "null", "Null", "NULL"] then (nullTag, .vnull)
  else if value ∈ ["true", "True", "TRUE"] then (boolTag, .vbool true)
  else if value ∈ ["false", "False", "FALSE"] then (boolTag, .vbool false)
  else
    match parsePlainInt value with
    | some i => (intTag, .vint i)
    | none =>
      if isInfNanText value then
        (floatTag, if value.endsWith "f" ∨ value.endsWith "F" then
          .vinf (value.startsWith "-") else .vnan)
      else if isFloatText value then (floatTag, .vfloat (floatValQ value))
      else (strTag, .vstr value)

/-- Modelled from the spec: `resolve(tag, in)` of resolve.go.  With an
empty or non-specific tag the value resolves implicitly; with an explicit
tag the implicit resolution is kept when it agrees with the tag and the
raw string is kept otherwise (the decoder only ever passes tags the
composer produced, for which the two branches coincide on the claims
under verification). -/
def resolve (tag value : String) : String × DValue :=
  if tag = "" ∨ tag = "!" then implicitResolve value
  else
    let st := shortTag tag
    let r := implicitResolve value
    if st = r.1 then (st, r.2) else (st, .vstr value)

/-- Modelled from the spec: yaml.go's `Node.indicatedString` is not under
src/.  A scalar indicates a string when its tag resolves to `!!str`, or
when it is quoted / literal / folded and has no explicit tag (§4.4:
quoted scalars resolve as strings). -/
def Node.indicatedString (n : Node) : Bool :=
  n.kind = .scalarNode &&
    (shortTag n.tag = strTag ||
      ((n.tag = "" || n.tag = "!") &&
        n.style &&& (SingleQuotedStyle ||| DoubleQuotedStyle |||
          LiteralStyle ||| FoldedStyle) ≠ 0))

/-! ## Errors (errors.go) -/

/-- SyntaxError (errors.go): an error that occurs during parsing.  Its
fields are a line, a byte offset and a message. -/
structure SyntaxError where
  Line : Nat
  Offset : Nat
  Msg : String
deriving DecidableEq, Repr

def syntaxErr (line offset : Nat) (msg : String) : SyntaxError :=
  { Line := line, Offset := offset, Msg := msg }

/-- The `Err` payload of an UnmarshalError: a DuplicateKeyError (with the
two key nodes), an UnknownFieldError, or a plain formatted message
(errors.go). -/
inductive ErrPayload where
  | duplicateKey (first second : Option Node)
  | unknownField (field : String)
  | message (msg : String)
deriving Repr

/-- UnmarshalError (errors.go): an error that occurs during unmarshaling,
carrying the offending node, the target type (embedded as a type-name
string) and a payload. -/
structure UnmarshalError where
  node : Option Node
  typ : Option String
  err : ErrPayload
deriving Repr

/-- `duplicateKeyErr` (errors.go). -/
def duplicateKeyErr (f s : Option Node) (typ : Option String) : UnmarshalError :=
  { node := f, typ := typ, err := .duplicateKey f s }

/-- A hard failure raised through `fail`/`handleErr` (Go panic/recover);
`outOfFuel` is the embedding's fuel sentinel, never reached at the fuel
the wrappers supply. -/
inductive Failure where
  | unmarshalE (e : UnmarshalError)
  | syntaxE (e : SyntaxError)
  | readerE (msg : String)
  | internalE (msg : String)
  | outOfFuel
deriving Repr

def Failure.isSyntaxError : Failure → Bool
  | .syntaxE _ => true
  | _ => false

def Failure.isUnmarshalError : Failure → Bool
  | .unmarshalE _ => true
  | _ => false

/-- Go's `%q` verb on the plain anchor names appearing in the claims. -/
def quoteName (s : String) : String := "\"" ++ s ++ "\""

/-- `unmarshalErrf` (decode.go's error constructor; errors.go spells the
same shape `unmarshalErr`): a formatted message wrapped with the node and
target type. -/
def unmarshalErrf (n : Option Node) (typ : Option String) (msg : String) : Failure :=
  .unmarshalE { node := n, typ := typ, err := .message msg }

/-! ## parser.fail (decode.go:109-148) -/

/-- The `yaml_error_type_t` values `parser.fail` inspects. -/
inductive YamlErrorType where
  | noError
  | readerError
  | scannerError
  | parserError
deriving DecidableEq, Repr

/-- `yaml_mark_t`: position triple. -/
structure Mark where
  index : Nat
  line : Nat
  column : Nat
deriving DecidableEq, Repr

/-- The fields of `yaml_parser_t` that `parser.fail` reads. -/
structure ParserFailState where
  error : YamlErrorType
  problem : String
  problem_mark : Mark
  context_mark : Mark
  problem_offset : Nat
  read_error : Option String
deriving Repr

/-- `parser.fail` (decode.go:109-148).  A pending read error is re-raised
as is; otherwise the line and column are taken from the context mark when
its line is set, else from the problem mark (scanner errors add one to
the line), the offset from the problem offset (reader errors) or the
problem mark index (scanner/parser errors), and the message from
`problem` with a fallback.

The resulting error is the SyntaxError of errors.go, which has fields
Line, Offset and Msg only; the computed `column` has no field to live in
and is dropped (decode.go:147 passes it to `syntaxErr`, whose errors.go
definition takes no column — the two files disagree about the arity, and
the struct, which the claim is about, settles it). -/
def parserFail (p : ParserFailState) : Failure :=
  match p.read_error with
  | some e => .readerE e
  | none =>
    let lineColumn : Nat × Nat :=
      if p.context_mark.line ≠ 0 then
        (if p.error = .scannerError then p.context_mark.line + 1
         else p.context_mark.line, p.context_mark.column)
      else if p.problem_mark.line ≠ 0 then
        (if p.error = .scannerError then p.problem_mark.line + 1
         else p.problem_mark.line, p.problem_mark.column)
      else (0, 0)
    let offset : Nat :=
      match p.error with
      | .readerError => p.problem_offset
      | .scannerError => p.problem_mark.index
      | .parserError => p.problem_mark.index
      | .noError => 0
    let msg : String :=
      if p.problem.length > 0 then p.problem
      else "unknown problem parsing YAML content"
    .syntaxE (syntaxErr lineColumn.1 offset msg)

/-! ## Composer (parser.parse and friends, decode.go:150-339)

The composer is driven by the libyaml event stream; the events carried
by `yaml_event_t` that the node-level composition reads are embedded in
`Event`.  Document/stream events and comment events are outside the
claims under verification and are not modelled. -/

inductive Event where
  | scalar (anchor : Option String) (tag : String) (value : String)
      (style : Nat) (line column : Nat)
  | alias (anchor : String) (line column : Nat)
  | seqStart (anchor : Option String) (tag : String) (flow : Bool) (line column : Nat)
  | seqEnd
  | mapStart (anchor : Option String) (tag : String) (flow : Bool) (line column : Nat)
  | mapEnd
deriving DecidableEq, Repr

/-- Composer state: the parser's `anchors` map (anchor name to the
registered node; the embedding stores the node's id, with completed nodes
in `heap` — a Go map assignment overwrites, hence the cons-with-shadowing
association list), its `parentAnchors` set, and the allocation counter
backing node identity. -/
structure PState where
  anchors : List (String × Nat)
  parentAnchors : List String
  heap : List (Nat × Node)
  nextId : Nat
deriving Repr

def initPState : PState := { anchors := [], parentAnchors := [], heap := [], nextId := 0 }

/-- `p.anchors[name]` (most recent assignment wins). -/
def lookupAnchor (st : PState) (name : String) : Option Nat :=
  (st.anchors.find? fun e => e.1 == name).map Prod.snd

def heapLookup (st : PState) (i : Nat) : Option Node :=
  (st.heap.find? fun e => e.1 == i).map Prod.snd

/-- `p.parentAnchors[anchor] = struct{}{}`: idempotent set insertion. -/
def insertPA (s : List String) (a : String) : List String :=
  if a ∈ s then s else a :: s

/-- `delete(p.parentAnchors, anchor)`. -/
def removePA (s : List String) (a : String) : List String :=
  s.filter fun x => x ≠ a

namespace Node

def withStyle : Node → Nat → Node
  | .mk i k _ t v a al c l col, s => .mk i k s t v a al c l col

def withAnchor : Node → String → Node
  | .mk i k s t v _ al c l col, a => .mk i k s t v a al c l col

def withAliasTarget : Node → Option Node → Node
  | .mk i k s t v a _ c l col, al => .mk i k s t v a al c l col

def withContent : Node → List Node → Node
  | .mk i k s t v a al _ l col, c => .mk i k s t v a al c l col

end Node

/-- `parser.node` (decode.go:180-205): build a node with resolved tag and
style; positions are the event's start mark made 1-based.  The Go node is
allocated here; the fresh `id` embeds the allocation. -/
def pnode (st : PState) (kind : Kind) (defaultTag tag value : String)
    (line column : Nat) : Node × PState :=
  let tagStyle : String × Nat :=
    if tag ≠ "" ∧ tag ≠ "!" then (shortTag tag, TaggedStyle)
    else if defaultTag ≠ "" then (defaultTag, 0)
    else if kind = .scalarNode then ((resolve "" value).1, 0)
    else (tag, 0)
  (Node.mk st.nextId kind tagStyle.2 tagStyle.1 value "" none [] (line + 1) (column + 1),
   { st with nextId := st.nextId + 1 })

/-- `parser.anchor` (decode.go:150-155): when an anchor is present, set it
on the node and register the node in the anchor table. -/
def panchor (st : PState) (n : Node) (anchor : Option String) : Node × PState :=
  match anchor with
  | none => (n, st)
  | some a =>
    let n := n.withAnchor a
    (n, { st with anchors := (a, n.id) :: st.anchors })

mutual

/-- One composition step: `parser.parse` (decode.go:157-178) restricted to
the node-level events, dispatching to the scalar / alias / sequence /
mapping cases of decode.go:225-339.  Running off the stream or hitting an
end event at node position reproduces the Go `expect` failure / panic as
`internalE`.  Completed anchored nodes enter `heap`; for a sequence or
mapping the anchor is registered in `anchors` and `parentAnchors`
*before* the children are composed and removed from `parentAnchors` at
the matching end event (the Go `defer`). -/
def composeF : Nat → PState → List Event → Except Failure (Node × PState × List Event)
  | 0, _, _ => .error .outOfFuel
  | fuel+1, st, evs =>
    match evs with
    | [] => .error (.internalE "attempted to go past the end of stream")
    | .scalar anchor tag value style line column :: rest =>
      -- parser.scalar (decode.go:239-267)
      let nodeStyle : Nat :=
        if style &&& DoubleQuotedStyle ≠ 0 then DoubleQuotedStyle
        else if style &&& SingleQuotedStyle ≠ 0 then SingleQuotedStyle
        else if style &&& LiteralStyle ≠ 0 then LiteralStyle
        else if style &&& FoldedStyle ≠ 0 then FoldedStyle
        else 0
      let defaultTag :=
        if nodeStyle = 0 then (if value = "<<" then mergeTag else "") else strTag
      let built := pnode st .scalarNode defaultTag tag value line column
      let n := built.1.withStyle (built.1.style ||| nodeStyle)
      let reg := panchor built.2 n anchor
      let st2 :=
        if anchor.isSome then
          { reg.2 with heap := (reg.1.id, reg.1) :: reg.2.heap }
        else reg.2
      .ok (reg.1, st2, rest)
    | .alias name line column :: rest =>
      -- parser.alias (decode.go:225-237): n.Value is the anchor name;
      -- the parentAnchors check comes first, then the anchors lookup
      -- (a nil map entry is the unknown-anchor failure).
      let built := pnode st .aliasNode "" "" name line column
      let n := built.1
      let st1 := built.2
      if name ∈ st1.parentAnchors then
        .error (unmarshalErrf (some n) none
          ("anchor " ++ quoteName name ++ " value contains itself"))
      else
        match lookupAnchor st1 name with
        | none =>
          .error (unmarshalErrf (some n) none
            ("unknown anchor " ++ quoteName name ++ " referenced"))
        | some tid => .ok (n.withAliasTarget (heapLookup st1 tid), st1, rest)
    | .seqStart anchor tag flow line column :: rest =>
      -- parser.sequence (decode.go:269-291)
      let built := pnode st .sequenceNode seqTag tag "" line column
      let n0 := if flow then built.1.withStyle (built.1.style ||| FlowStyle) else built.1
      let reg := panchor built.2 n0 anchor
      let n1 := reg.1
      let st3 :=
        if n1.anchor ≠ "" then
          { reg.2 with parentAnchors := insertPA reg.2.parentAnchors n1.anchor }
        else reg.2
      match composeItemsF fuel st3 [] false rest with
      | .error e => .error e
      | .ok (children, st4, rest2) =>
        let n := n1.withContent children
        let st5 :=
          if n.anchor ≠ "" then
            { st4 with parentAnchors := removePA st4.parentAnchors n.anchor }
          else st4
        let st6 :=
          if n.anchor ≠ "" then { st5 with heap := (n.id, n) :: st5.heap } else st5
        .ok (n, st6, rest2)
    | .seqEnd :: _ => .error (.internalE "attempted to parse unknown event")
    | .mapStart anchor tag flow line column :: rest =>
      -- parser.mapping (decode.go:293-339)
      let built := pnode st .mappingNode mapTag tag "" line column
      let n0 := if flow then built.1.withStyle (built.1.style ||| FlowStyle) else built.1
      let reg := panchor built.2 n0 anchor
      let n1 := reg.1
      let st3 :=
        if n1.anchor ≠ "" then
          { reg.2 with parentAnchors := insertPA reg.2.parentAnchors n1.anchor }
        else reg.2
      match composeItemsF fuel st3 [] true rest with
      | .error e => .error e
      | .ok (children, st4, rest2) =>
        let n := n1.withContent children
        let st5 :=
          if n.anchor ≠ "" then
            { st4 with parentAnchors := removePA st4.parentAnchors n.anchor }
          else st4
        let st6 :=
          if n.anchor ≠ "" then { st5 with heap := (n.id, n) :: st5.heap } else st5
        .ok (n, st6, rest2)
    | .mapEnd :: _ => .error (.internalE "attempted to parse unknown event")

/-- The children loops of `parser.sequence` / `parser.mapping`: compose
children until the matching end event; a mapping takes a key and a value
per round (the comment reshuffling of decode.go:312-336 touches only
comment fields, which are not modelled). -/
def composeItemsF : Nat → PState → List Node → Bool → List Event →
    Except Failure (List Node × PState × List Event)
  | 0, _, _, _, _ => .error .outOfFuel
  | fuel+1, st, acc, isMap, evs =>
    match evs, isMap with
    | .seqEnd :: rest, false => .ok (acc, st, rest)
    | .mapEnd :: rest, true => .ok (acc, st, rest)
    | _, false =>
      match composeF fuel st evs with
      | .error e => .error e
      | .ok (c, st1, rest) => composeItemsF fuel st1 (acc ++ [c]) false rest
    | _, true =>
      match composeF fuel st evs with
      | .error e => .error e
      | .ok (k, st1, rest) =>
        match composeF fuel st1 rest with
        | .error e => .error e
        | .ok (v, st2, rest2) => composeItemsF fuel st2 (acc ++ [k, v]) true rest2

end

/-- Compose one node from an event stream.  Every recursive call consumes
an event or follows one that did, so `2 * length + 2` fuel steps always
suffice; the fuel sentinel is unreachable at this bound. -/
def compose (evs : List Event) : Except Failure (Node × PState × List Event) :=
  composeF (2 * evs.length + 2) initPState evs

/-! ## Decoder (decoder.unmarshal and friends, decode.go:344-1031)

The decoder is reflection-driven in Go; the embedding specializes it to
the target kinds the claims exercise: the empty interface, `bool`,
`string` (map keys of a `map[string]any`), and the two generic map types.
Struct targets (`mappingStruct`), the `Unmarshaler`/`TextUnmarshaler`
hooks and the `Node` targets are external to the claims and are not
modelled. -/

/-- The Go target type of an `unmarshal` call, restricted as above; a map
target carries its key kind (string or interface) and the current map. -/
inductive Target where
  | iface
  | tbool
  | tstr
  | tmap (stringKeys : Bool) (m : List (DValue × DValue))
deriving Repr

/-- The reflect.Type name of a target (error texts only). -/
def Target.typeName : Target → String
  | .iface => "interface {}"
  | .tbool => "bool"
  | .tstr => "string"
  | .tmap true _ => "map[string]interface {}"
  | .tmap false _ => "map[interface {}]interface {}"

/-- The decoder state (decode.go:344-358): collected soft type errors,
the two option flags, the alias accounting counters, and the merge-key
bookkeeping set. -/
structure DecState where
  terrors : List UnmarshalError
  knownFields : Bool
  uniqueKeys : Bool
  decodeCount : Nat
  aliasCount : Nat
  aliasDepth : Nat
  mergedFields : Option (List DValue)
deriving Repr

/-- `newDecoder` (decode.go:369-376): uniqueKeys defaults to on. -/
def newDecoderState : DecState :=
  { terrors := [], knownFields := false, uniqueKeys := true,
    decodeCount := 0, aliasCount := 0, aliasDepth := 0, mergedFields := none }

/-- decode.go:488-499. -/
def aliasRatioRangeLow : Nat := 400000

def aliasRatioRangeHigh : Nat := 4000000

def aliasRatioRange : ℚ := ((aliasRatioRangeHigh - aliasRatioRangeLow : Nat) : ℚ)

/-- `allowedAliasRatio` (decode.go:501-515); the float64 constants 0.99,
0.10, 0.89 are the exact rationals of the source text. -/
def allowedAliasRatio (decodeCount : Nat) : ℚ :=
  if decodeCount ≤ aliasRatioRangeLow then 99 / 100
  else if decodeCount ≥ aliasRatioRangeHigh then 1 / 10
  else 99 / 100 -
    89 / 100 * (((decodeCount - aliasRatioRangeLow : Nat) : ℚ) / aliasRatioRange)

/-- The alias-accounting head of `decoder.unmarshal` (decode.go:518-524):
every visit increments `decodeCount`; a visit inside an alias expansion
(`aliasDepth > 0`) also increments `aliasCount`; the visit fails with
"document contains excessive aliasing" when both counters pass their
floors and the alias/decode ratio exceeds the allowed threshold. -/
def aliasGuard (n : Node) (typ : Option String) (st : DecState) : Except Failure DecState :=
  let st := { st with decodeCount := st.decodeCount + 1 }
  let st := if st.aliasDepth > 0 then { st with aliasCount := st.aliasCount + 1 } else st
  if st.aliasCount > 100 ∧ st.decodeCount > 1000 ∧
      (st.aliasCount : ℚ) / (st.decodeCount : ℚ) > allowedAliasRatio st.decodeCount then
    .error (unmarshalErrf (some n) typ "document contains excessive aliasing")
  else .ok st

/-- `isMerge` (decode.go:1029-1031). -/
def isMerge (n : Node) : Bool :=
  n.kind = .scalarNode && n.value == "<<" &&
    (n.tag == "" || n.tag == "!" || shortTag n.tag == mergeTag)

/-- `isStringMap` (decode.go:888-900). -/
def isStringMap (n : Node) : Bool :=
  if n.kind ≠ .mappingNode then false
  else (toPairs n.content).all fun p =>
    p.1.ShortTag == strTag || p.1.ShortTag == mergeTag

/-- `Node.IsZero` (yaml.go; only its kind-0 use in decode.go:550-553 is
reached here): every modelled field at its zero value. -/
def Node.IsZero (n : Node) : Bool :=
  n.kind = .zeroKind && n.style = 0 && n.tag = "" && n.value = "" &&
    n.anchor = "" && n.aliasTarget.isNone && n.content.isEmpty &&
    n.line = 0 && n.column = 0

/-- `d.terror` (decode.go:378-395): append a "cannot unmarshal X into Y"
soft error (value text truncated past 10 bytes, elided for seq/map tags). -/
def dterror (n : Node) (tag : String) (t : Target) (st : DecState) : DecState :=
  let tag := if n.tag ≠ "" then n.tag else tag
  let value := n.value
  let value :=
    if tag ≠ seqTag ∧ tag ≠ mapTag then
      if value.length > 10 then " `" ++ value.take 7 ++ "...`"
      else " `" ++ value ++ "`"
    else value
  { st with terrors := st.terrors ++
      [{ node := some n, typ := some t.typeName,
         err := .message ("cannot unmarshal " ++ shortTag tag ++ value ++
           " into " ++ t.typeName) }] }

/-- `d.null` (decode.go:577-586): interface / map / slice (and pointer)
targets are zeroed successfully, other kinds report failure. -/
def dnull (t : Target) : Option DValue :=
  match t with
  | .iface => some .vnull
  | .tmap _ _ => some .vnull
  | .tbool => none
  | .tstr => none

/-- `failWantHashable` (decode.go:790-792); the `%#v` rendering of the
offending key is not modelled. -/
def failWantHashable (n : Node) (t : Target) : Failure :=
  unmarshalErrf (some n) (some t.typeName) "invalid map key"

/-- `failWantMap` (decode.go:982-984). -/
def failWantMap (mrg : Node) (typ : String) : Failure :=
  unmarshalErrf (some mrg) (some typ) "map merge requires map or sequence of maps as the value"

/-- The duplicate-key scan of `decoder.mapping` (decode.go:796-806): for
every pair of key positions i < j with `equalKey` on (earlier, later),
one DuplicateKeyError whose First is the later key and whose Second is
the earlier one. -/
def dupErrors (keys : List Node) (typ : Option String) : List UnmarshalError :=
  keys.enum.flatMap fun p =>
    keys.enum.filterMap fun q =>
      if p.1 < q.1 ∧ equalKey p.2 q.2 then
        some (duplicateKeyErr (some q.2) (some p.2) typ)
      else none

/-- The YAML 1.1 truthy strings a typed bool target accepts
(decode.go:710). -/
def boolTrueStrings : List String := ["y", "Y", "yes", "Yes", "YES", "on", "On", "ON"]

/-- The YAML 1.1 falsy strings a typed bool target accepts
(decode.go:713). -/
def boolFalseStrings : List String := ["n", "N", "no", "No", "NO", "off", "Off", "OFF"]

/-- `decoder.scalar` (decode.go:588-743), specialized to the modelled
targets.  A string-indicating scalar short-circuits to `(strTag, value)`;
otherwise the value resolves by tag (the !!binary base64 branch and the
TextUnmarshaler / numeric / duration target cases are outside the claims
and are not modelled).  A null resolution defers to `d.null`; a bool
target accepts a bool, or one of the YAML 1.1 truthy/falsy strings; a
string target stores the raw value text; anything else is a type error. -/
def dscalar (n : Node) (t : Target) (st : DecState) : Option DValue × DecState :=
  let tr : String × DValue :=
    if n.indicatedString then (strTag, .vstr n.value)
    else resolve n.tag n.value
  match tr.2 with
  | .vnull =>
    match dnull t with
    | some v => (some v, st)
    | none => (none, st)
  | resolved =>
    match t with
    | .iface => (some resolved, st)
    | .tstr => (some (.vstr n.value), st)
    | .tbool =>
      match resolved with
      | .vbool b => (some (.vbool b), st)
      | .vstr s =>
        if s ∈ boolTrueStrings then (some (.vbool true), st)
        else if s ∈ boolFalseStrings then (some (.vbool false), st)
        else (none, dterror n tr.1 t st)
      | _ => (none, dterror n tr.1 t st)
    | .tmap _ _ => (none, dterror n tr.1 t st)

mutual

/-- `decoder.unmarshal` (decode.go:517-559): alias accounting first, then
dispatch on the node kind (the Node/*Node target short-circuit and the
`prepare` unmarshaler hooks are outside the modelled targets).  The
`internalE` on a nil alias target embeds the Go nil dereference, which
composed trees never produce. -/
def unmF : Nat → Target → Node → DecState → Except Failure (Option DValue × DecState)
  | 0, _, _, _ => .error .outOfFuel
  | fuel+1, t, n, st =>
    match aliasGuard n (some t.typeName) st with
    | .error e => .error e
    | .ok st =>
      match n.kind with
      | .documentNode =>
        -- d.document (decode.go:561-568)
        match n.content with
        | [c] =>
          match unmF fuel t c st with
          | .error e => .error e
          | .ok (v, st) => .ok (v, st)
        | _ => .ok (none, st)
      | .aliasNode =>
        -- d.alias (decode.go:570-575)
        match n.aliasTarget with
        | none => .error (.internalE "nil alias target")
        | some a =>
          let st := { st with aliasDepth := st.aliasDepth + 1 }
          match unmF fuel t a st with
          | .error e => .error e
          | .ok (v, st) => .ok (v, { st with aliasDepth := st.aliasDepth - 1 })
      | .scalarNode => .ok (dscalar n t st)
      | .mappingNode => dmappingF fuel n t st
      | .sequenceNode => dsequenceF fuel n t st
      | .zeroKind =>
        if n.IsZero then .ok (dnull t, st)
        else .error (unmarshalErrf (some n) (some t.typeName)
          "cannot decode node with unknown kind 0")

/-- `decoder.sequence` (decode.go:752-788): an interface target collects
the successfully decoded elements (failed elements are dropped by the
`j` compaction); other modelled targets are a type error. -/
def dsequenceF : Nat → Node → Target → DecState → Except Failure (Option DValue × DecState)
  | 0, _, _, _ => .error .outOfFuel
  | fuel+1, n, t, st =>
    match t with
    | .iface =>
      match dseqItemsF fuel n.content st with
      | .error e => .error e
      | .ok (items, st) => .ok (some (.vseq items), st)
    | _ => .ok (none, dterror n seqTag t st)

/-- The element loop of `decoder.sequence`. -/
def dseqItemsF : Nat → List Node → DecState → Except Failure (List DValue × DecState)
  | 0, _, _ => .error .outOfFuel
  | _+1, [], st => .ok ([], st)
  | fuel+1, c :: rest, st =>
    match unmF fuel .iface c st with
    | .error e => .error e
    | .ok (v, st) =>
      match dseqItemsF fuel rest st with
      | .error e => .error e
      | .ok (items, st) =>
        match v with
        | some v => .ok (v :: items, st)
        | none => .ok (items, st)

/-- `decoder.mapping` (decode.go:794-886), modelled targets: the
duplicate-key scan runs first for every target; a bool/string target is
a type error; an interface target builds a fresh map whose key type
follows `isStringMap`; a map target continues filling the caller's map
(the merge path).  The pair loop runs with `d.mergedFields` cleared and
the local set is written back before `d.merge` runs on a pending merge
value. -/
def dmappingF : Nat → Node → Target → DecState → Except Failure (Option DValue × DecState)
  | 0, _, _, _ => .error .outOfFuel
  | fuel+1, n, t, st =>
    let dups := if st.uniqueKeys then
      dupErrors ((toPairs n.content).map Prod.fst) (some t.typeName) else []
    let st := { st with terrors := st.terrors ++ dups }
    if st.uniqueKeys ∧ !dups.isEmpty then .ok (none, st)
    else
      match t with
      | .tbool => .ok (none, dterror n mapTag t st)
      | .tstr => .ok (none, dterror n mapTag t st)
      | .iface => dmapCoreF fuel n (isStringMap n) [] true st
      | .tmap stringKeys m => dmapCoreF fuel n stringKeys m false st

/-- The body of `decoder.mapping` shared by the interface and map target
cases (decode.go:843-885): run the pair loop with `mergedFields`
stashed, write the grown set back, then run a pending merge. -/
def dmapCoreF : Nat → Node → Bool → List (DValue × DValue) → Bool → DecState →
    Except Failure (Option DValue × DecState)
  | 0, _, _, _, _, _ => .error .outOfFuel
  | fuel+1, n, stringKeys, m, mapIsNew, st =>
    let mf0 := st.mergedFields
    let st := { st with mergedFields := none }
    match dmapPairsF fuel (toPairs n.content) stringKeys m mapIsNew mf0 none st with
    | .error e => .error e
    | .ok (m, mfFinal, mergePending, st) =>
      let st := { st with mergedFields := mfFinal }
      match mergePending with
      | none => .ok (some (.vmap m), st)
      | some mrg =>
        match dmergeF fuel n mrg stringKeys m st with
        | .error e => .error e
        | .ok (m, st) => .ok (some (.vmap m), st)

/-- The key/value pair loop of `decoder.mapping` (decode.go:853-876):
a merge key parks its value (the last one wins) and is never bound; a
key that fails to decode skips its pair; an unhashable key is a hard
failure; inside a merge expansion (`mf` present) keys already seen are
skipped and new ones recorded *before* the value decodes; a decoded
value is stored, a failed one is stored as null only under the
null-tagged fresh-or-absent rule. -/
def dmapPairsF : Nat → List (Node × Node) → Bool → List (DValue × DValue) → Bool →
    Option (List DValue) → Option Node → DecState →
    Except Failure (List (DValue × DValue) × Option (List DValue) × Option Node × DecState)
  | 0, _, _, _, _, _, _, _ => .error .outOfFuel
  | _+1, [], _, m, _, mf, mergePending, st => .ok (m, mf, mergePending, st)
  | fuel+1, (kN, vN) :: rest, stringKeys, m, mapIsNew, mf, mergePending, st =>
    if isMerge kN then
      dmapPairsF fuel rest stringKeys m mapIsNew mf (some vN) st
    else
      let keyTarget : Target := if stringKeys then .tstr else .iface
      match unmF fuel keyTarget kN st with
      | .error e => .error e
      | .ok (none, st) => dmapPairsF fuel rest stringKeys m mapIsNew mf mergePending st
      | .ok (some k, st) =>
        if !isHashable k then .error (failWantHashable kN keyTarget)
        else
          match mf with
          | some fs =>
            if fieldsMem fs k then
              dmapPairsF fuel rest stringKeys m mapIsNew (some fs) mergePending st
            else
              dmapPairValueF fuel kN vN k rest stringKeys m mapIsNew
                (some (k :: fs)) mergePending st
          | none =>
            dmapPairValueF fuel kN vN k rest stringKeys m mapIsNew none mergePending st

/-- The value half of one pair-loop round (decode.go:871-875). -/
def dmapPairValueF : Nat → Node → Node → DValue → List (Node × Node) → Bool →
    List (DValue × DValue) → Bool → Option (List DValue) → Option Node → DecState →
    Except Failure (List (DValue × DValue) × Option (List DValue) × Option Node × DecState)
  | 0, _, _, _, _, _, _, _, _, _, _ => .error .outOfFuel
  | fuel+1, _, vN, k, rest, stringKeys, m, mapIsNew, mf, mergePending, st =>
    match unmF fuel .iface vN st with
    | .error e => .error e
    | .ok (v, st) =>
      let m :=
        match v with
        | some v => mapSet m k v
        | none =>
          if vN.ShortTag = nullTag ∧ (mapIsNew ∨ (mapLookup m k).isNone) then
            mapSet m k .vnull
          else m
      dmapPairsF fuel rest stringKeys m mapIsNew mf mergePending st

/-- `decoder.merge` (decode.go:986-1027): when no merge expansion is in
progress, seed `mergedFields` with every key of the enclosing mapping
(decoded as interface values; unhashable keys are a hard failure); then a
mapping value merges directly, an alias value must point at a mapping,
and a sequence value merges each element in order under the same shape
rule; anything else is the want-map failure.  The stashed `mergedFields`
is restored at the end. -/
def dmergeF : Nat → Node → Node → Bool → List (DValue × DValue) → DecState →
    Except Failure (List (DValue × DValue) × DecState)
  | 0, _, _, _, _, _ => .error .outOfFuel
  | fuel+1, parent, mrg, stringKeys, out, st =>
    let captured := st.mergedFields
    let seeded :=
      match captured with
      | some _ => Except.ok st
      | none =>
        let st := { st with mergedFields := some [] }
        dmergeSeedF fuel (toPairs parent.content) st
    match seeded with
    | .error e => .error e
    | .ok st =>
      let typ := (Target.tmap stringKeys out).typeName
      let afterKind :
          Except Failure (List (DValue × DValue) × DecState) :=
        match mrg.kind with
        | .mappingNode =>
          match unmF fuel (.tmap stringKeys out) mrg st with
          | .error e => .error e
          | .ok (v, st) =>
            match v with
            | some (.vmap o) => .ok (o, st)
            | _ => .ok (out, st)
        | .aliasNode =>
          match mrg.aliasTarget with
          | some a =>
            if a.kind ≠ .mappingNode then .error (failWantMap a typ)
            else
              match unmF fuel (.tmap stringKeys out) mrg st with
              | .error e => .error e
              | .ok (v, st) =>
                match v with
                | some (.vmap o) => .ok (o, st)
                | _ => .ok (out, st)
          | none =>
            match unmF fuel (.tmap stringKeys out) mrg st with
            | .error e => .error e
            | .ok (v, st) =>
              match v with
              | some (.vmap o) => .ok (o, st)
              | _ => .ok (out, st)
        | .sequenceNode => dmergeSeqF fuel mrg.content stringKeys out st
        | _ => .error (failWantMap mrg typ)
      match afterKind with
      | .error e => .error e
      | .ok (out, st) => .ok (out, { st with mergedFields := captured })

/-- The seeding loop of `decoder.merge` (decode.go:988-1000). -/
def dmergeSeedF : Nat → List (Node × Node) → DecState → Except Failure DecState
  | 0, _, _ => .error .outOfFuel
  | _+1, [], st => .ok st
  | fuel+1, (kN, _) :: rest, st =>
    match unmF fuel .iface kN st with
    | .error e => .error e
    | .ok (none, st) => dmergeSeedF fuel rest st
    | .ok (some k, st) =>
      if !isHashable k then .error (failWantHashable kN .iface)
      else
        let fs := k :: st.mergedFields.getD []
        let st := { st with mergedFields := some fs }
        dmergeSeedF fuel rest st

/-- The sequence loop of `decoder.merge` (decode.go:1010-1021): each
element is shape-checked (alias elements through their target), then
merged in order. -/
def dmergeSeqF : Nat → List Node → Bool → List (DValue × DValue) → DecState →
    Except Failure (List (DValue × DValue) × DecState)
  | 0, _, _, _, _ => .error .outOfFuel
  | _+1, [], _, out, st => .ok (out, st)
  | fuel+1, ni :: rest, stringKeys, out, st =>
    let typ := (Target.tmap stringKeys out).typeName
    let shapeBad : Option Node :=
      if ni.kind = .aliasNode then
        match ni.aliasTarget with
        | some a => if a.kind ≠ .mappingNode then some a else none
        | none => none
      else if ni.kind ≠ .mappingNode then some ni
      else none
    match shapeBad with
    | some bad => .error (failWantMap bad typ)
    | none =>
      match unmF fuel (.tmap stringKeys out) ni st with
      | .error e => .error e
      | .ok (v, st) =>
        let out :=
          match v with
          | some (.vmap o) => o
          | _ => out
        dmergeSeqF fuel rest stringKeys out st

end

/-- `decoder.unmarshal` at a generous fuel bound: every recursive call of
the family either descends into a strict subterm or walks a list whose
elements are strict subterms, so the call depth is below this bound and
the fuel sentinel is unreachable (witness theorems evaluate concretely). -/
def unmarshal (t : Target) (n : Node) (st : DecState) :
    Except Failure (Option DValue × DecState) :=
  unmF (10 * nodeSize n + 10) t n st

/-- The possible outcomes of a top-level Unmarshal call. -/
inductive UnmarshalOutcome where
  | ok (v : Option DValue)
  | typeError (group : List UnmarshalError)
  | fatal (e : Failure)
deriving Repr

/-- Modelled from the spec: the top-level Unmarshal driver (yaml.go) is
not under src/.  It runs the decoder on the composed node and, when soft
type errors were collected, returns them as one TypeError group; a hard
failure propagates (spec §7: UnmarshalError "May be collected into a
TypeErrorGroup ... recoverable—binding continues and returns the group
at the end"). -/
def unmarshalTop (n : Node) : UnmarshalOutcome :=
  match unmarshal .iface n newDecoderState with
  | .error e => .fatal e
  | .ok (v, st) => if st.terrors.isEmpty then .ok v else .typeError st.terrors

/-! ## Statement-level predicates -/

/-- No alias node in the tree has itself or one of its ancestors as its
target, where `banned` carries the ids of the ancestors of `n` (node
identity is the composer-assigned allocation id). -/
inductive AliasFree : List Nat → Node → Prop where
  | intro (banned : List Nat) (n : Node)
      (htgt : ∀ tgt, n.kind = .aliasNode → n.aliasTarget = some tgt →
        tgt.id ∉ banned ∧ tgt.id ≠ n.id)
      (hchild : ∀ c, c ∈ n.content → AliasFree (n.id :: banned) c) :
      AliasFree banned n

/-- The composer-state invariant: every anchor-table entry visible to a
lookup resolves to a completed node in the heap unless its name is in the
active-path set (an open node), node ids are assigned from the allocation
counter, and every active-path name has an anchor-table entry. -/
structure ComposerInv (st : PState) : Prop where
  anchorsResolve : ∀ b tid, lookupAnchor st b = some tid →
    (heapLookup st tid).isSome = true ∨ b ∈ st.parentAnchors
  heapIds : ∀ p ∈ st.heap, p.2.id = p.1 ∧ p.1 < st.nextId
  idsBound : ∀ p ∈ st.anchors, p.2 < st.nextId
  paSub : ∀ a ∈ st.parentAnchors, (lookupAnchor st a).isSome = true

/-- How one composition step may change the state: the allocation counter
grows, the heap and the anchor table are extended with fresh ids (new
anchor entries resolving in the heap), and a name that leaves the
active-path set leaves behind a shadowing anchor entry that resolves to a
completed node. -/
def ComposerExtends (st stq : PState) : Prop :=
  st.nextId ≤ stq.nextId ∧
  (∃ preh, stq.heap = preh ++ st.heap ∧ ∀ p ∈ preh, st.nextId ≤ p.1) ∧
  (∃ prea, stq.anchors = prea ++ st.anchors ∧ ∀ p ∈ prea, st.nextId ≤ p.2 ∧
    (heapLookup stq p.2).isSome = true) ∧
  (∀ b ∈ st.parentAnchors, b ∈ stq.parentAnchors ∨
    ∀ j, lookupAnchor stq b = some j → (heapLookup stq j).isSome = true)

/-- Ancestor ids an alias target may not take: they are open, hence
allocated but not yet completed into the heap. -/
def BannedOpen (banned : List Nat) (st : PState) : Prop :=
  ∀ i ∈ banned, i < st.nextId ∧ i ∉ st.heap.map Prod.fst

/-- What `decoder.scalar` yields for an interface target: the resolved
value (string-indicating scalars resolve to their raw text). -/
def scalarIfaceVal (n : Node) : DValue :=
  if n.indicatedString then .vstr n.value else (resolve n.tag n.value).2

/-- Flat content list of a pair list (inverse of `toPairs` on even
content). -/
def flattenPairs : List (Node × Node) → List Node
  | [] => []
  | (k, v) :: rest => k :: v :: flattenPairs rest

/-- The union semantics the spec assigns to merge keys (§4.4): a key kept
directly in the mapping wins; otherwise the first mapping in merge list
order that binds the key supplies the value.  Keys and values here are
scalar nodes, looked up by key text. -/
def mergeSpec (direct : List (Node × Node)) (ws : List Node) (k : String) : Option DValue :=
  match direct.find? fun p => p.1.value == k with
  | some p => some (scalarIfaceVal p.2)
  | none =>
    ws.findSome? fun w =>
      ((toPairs w.content).find? fun p => p.1.value == k).map fun p => scalarIfaceVal p.2

/-- The merge-value shapes `decoder.merge` accepts (the claim's "a
mapping node, an alias whose target is a mapping node, or a sequence
whose elements are all such"). -/
def mergeShapeOk (n : Node) : Prop :=
  n.kind = .mappingNode ∨
    (n.kind = .aliasNode ∧ ∃ a, n.aliasTarget = some a ∧ a.kind = .mappingNode) ∨
    (n.kind = .sequenceNode ∧ ∀ c ∈ n.content,
      c.kind = .mappingNode ∨
        (c.kind = .aliasNode ∧ ∃ a, c.aliasTarget = some a ∧ a.kind = .mappingNode))

/-- A "simple" mapping entry for the merge-semantics theorems: a
non-merge scalar key resolving as a string, with a scalar value. -/
def SimplePair (p : Node × Node) : Prop :=
  p.1.kind = .scalarNode ∧ p.1.ShortTag = strTag ∧ isMerge p.1 = false ∧
    p.2.kind = .scalarNode

/-- Decoder-state fields untouched by the merge-semantics fragment
(everything but the decode counter and the merged-fields set). -/
def StableDec (st stq : DecState) : Prop :=
  stq.terrors = st.terrors ∧ stq.knownFields = st.knownFields ∧
    stq.uniqueKeys = st.uniqueKeys ∧ stq.aliasCount = st.aliasCount ∧
    stq.aliasDepth = st.aliasDepth

/-- Effect of the direct pair loop on the map in the simple fragment. -/
def bindSimplePairs (m : List (DValue × DValue)) : List (Node × Node) → List (DValue × DValue)
  | [] => m
  | (k, v) :: rest => bindSimplePairs (mapSet m (.vstr k.value) (scalarIfaceVal v)) rest

/-- The pending merge value after a pair list (the last merge key wins). -/
def lastMerge (mp : Option Node) : List (Node × Node) → Option Node
  | [] => mp
  | (k, v) :: rest => lastMerge (if isMerge k then some v else mp) rest

/-- The non-merge entries of a pair list. -/
def directEntries (ps : List (Node × Node)) : List (Node × Node) :=
  ps.filter fun p => !isMerge p.1

/-- Effect of merging one mapping's pairs into map `out` under the
already-bound key set `fs`: keys already bound are skipped, new keys are
recorded and bound (decode.go:864-875 with `mergedFields` present). -/
def mergeStepPairs (out : List (DValue × DValue)) (fs : List DValue) :
    List (Node × Node) → List (DValue × DValue) × List DValue
  | [] => (out, fs)
  | (k, v) :: rest =>
    if fieldsMem fs (.vstr k.value) then mergeStepPairs out fs rest
    else mergeStepPairs (mapSet out (.vstr k.value) (scalarIfaceVal v))
      (DValue.vstr k.value :: fs) rest

/-- Effect of merging a sequence of mappings in order. -/
def mergeSeqFold (out : List (DValue × DValue)) (fs : List DValue) :
    List Node → List (DValue × DValue) × List DValue
  | [] => (out, fs)
  | w :: rest => mergeSeqFold (mergeStepPairs out fs (toPairs w.content)).1
      (mergeStepPairs out fs (toPairs w.content)).2 rest

/-- The mergedFields seeding over the enclosing mapping's keys
(decode.go:988-1000 in the simple fragment). -/
def seedFold (fs : List DValue) : List (Node × Node) → List DValue
  | [] => fs
  | (k, _) :: rest => seedFold (scalarIfaceVal k :: fs) rest

/-- The failure of a composition / decode result, when it failed. -/
def failureOf {α : Type} : Except Failure α → Option Failure
  | .error e => some e
  | .ok _ => none

/-- The message text a failure carries. -/
def Failure.message? : Failure → Option String
  | .unmarshalE e =>
    match e.err with
    | .message m => some m
    | _ => none
  | .syntaxE e => some e.Msg
  | .readerE m => some m
  | .internalE m => some m
  | .outOfFuel => none

/-- The SyntaxError a failure carries, when it is one. -/
def Failure.syntaxPayload : Failure → Option SyntaxError
  | .syntaxE e => some e
  | _ => none

/-! ## Concrete inputs used by counterexamples and witnesses -/

/-- A plain `!!str`-tagged scalar as composition produces it. -/
def strScalar (v : String) : Node := Node.mk 0 .scalarNode 0 strTag v "" none [] 1 1

/-- A plain `!!int`-tagged scalar as composition produces it. -/
def intScalar (v : String) : Node := Node.mk 0 .scalarNode 0 intTag v "" none [] 1 1

/-- A block mapping node over the given flat content. -/
def mapNode (c : List Node) : Node := Node.mk 0 .mappingNode 0 mapTag "" "" none c 1 1

/-- A block sequence node over the given content. -/
def seqNode (c : List Node) : Node := Node.mk 0 .sequenceNode 0 seqTag "" "" none c 1 1

/-- The composed form of the plain merge key `<<`. -/
def mergeKeyNode : Node := Node.mk 0 .scalarNode 0 mergeTag "<<" "" none [] 1 1

/-- The mapping `{a: 1, b: 1}`. -/
def c8NodeA : Node :=
  mapNode [strScalar "a", intScalar "1", strScalar "b", intScalar "1"]

/-- The mapping `{a: 1, a: 1}` (YAML allows duplicate keys at node level). -/
def c8NodeB : Node :=
  mapNode [strScalar "a", intScalar "1", strScalar "a", intScalar "1"]

/-- A parser failure state: a parser error at line 3, column 5, index 12,
no context mark, no pending read error. -/
def c9state1 : ParserFailState :=
  { error := .parserError, problem := "did not find expected node content",
    problem_mark := { index := 12, line := 3, column := 5 },
    context_mark := { index := 0, line := 0, column := 0 },
    problem_offset := 0, read_error := none }

/-- The same failure state at column 9. -/
def c9state2 : ParserFailState :=
  { c9state1 with problem_mark := { index := 12, line := 3, column := 9 } }

/-! # Theorems settling the claims -/

instance SimplePair.instDec (p : Node × Node) : Decidable (SimplePair p) :=
  decidable_of_iff (p.1.kind = .scalarNode ∧ p.1.ShortTag = strTag ∧
    isMerge p.1 = false ∧ p.2.kind = .scalarNode) Iff.rfl

/-- The merged mapping `{a: 9, x: 10}`. -/
def c5w1 : Node :=
  mapNode [strScalar "a", intScalar "9", strScalar "x", intScalar "10"]

/-- The merged mapping `{x: 20, y: 30}`. -/
def c5w2 : Node :=
  mapNode [strScalar "x", intScalar "20", strScalar "y", intScalar "30"]

/-- The merge value `[{a: 9, x: 10}, {x: 20, y: 30}]`. -/
def c5mv : Node := seqNode [c5w1, c5w2]

/-- The direct entries of the C5 witness mapping. -/
def c5A : List (Node × Node) := [(strScalar "a", intScalar "1")]

/-- The mapping `{a: 1, <<: [{a: 9, x: 10}, {x: 20, y: 30}]}`. -/
def c5parent : Node :=
  mapNode [strScalar "a", intScalar "1", mergeKeyNode, c5mv]

/-- The merged mapping `{a: 9, x: 20}` of the C4 witness. -/
def c4w : Node :=
  mapNode [strScalar "a", intScalar "9", strScalar "x", intScalar "20"]

/-- The direct entries of the C4 witness mapping. -/
def c4A : List (Node × Node) := [(strScalar "a", intScalar "1")]

/-- The mapping `{a: 1, <<: {a: 9, x: 20}}`. -/
def c4parent : Node :=
  mapNode [strScalar "a", intScalar "1", mergeKeyNode, c4w]

/-- Decoder-state fields untouched by a decode that runs inside an alias
expansion (the alias counter moves there, unlike `StableDec`). -/
def StableDecD (st stq : DecState) : Prop :=
  stq.terrors = st.terrors ∧ stq.knownFields = st.knownFields ∧
    stq.uniqueKeys = st.uniqueKeys ∧ stq.aliasDepth = st.aliasDepth

/-- A merge-sequence element of the C6 fragment: when it is a mapping it
is simple with distinct keys, and when it is an alias it has a target
(composed trees always do) that, when a mapping, is simple with distinct
keys.  Elements of any other kind, and aliases to non-mappings, are the
bad shapes. -/
def MergeElem (c : Node) : Prop :=
  (c.kind = .mappingNode → (∀ p ∈ toPairs c.content, SimplePair p) ∧
    ((toPairs c.content).map Prod.fst).Pairwise fun a b => a.value ≠ b.value) ∧
  (c.kind = .aliasNode → ∃ w, c.aliasTarget = some w ∧
    (w.kind = .mappingNode → (∀ p ∈ toPairs w.content, SimplePair p) ∧
      ((toPairs w.content).map Prod.fst).Pairwise fun a b => a.value ≠ b.value))

/-- Alias-counter budget a merge-sequence element list may consume: every
node visited while decoding through an alias bumps the alias counter
once, so an alias element spends at most one per target pair node plus
the alias and target themselves. -/
def aliasBudget : List Node → Nat
  | [] => 0
  | c :: rest =>
    (match c.aliasTarget with
     | some w => 2 * (toPairs w.content).length + 2
     | none => 0) + aliasBudget rest

/-- Fuel one merge-sequence element consumes. -/
def elemFuel (c : Node) : Nat :=
  2 * (toPairs c.content).length +
    (match c.aliasTarget with
     | some w => 2 * (toPairs w.content).length + 2
     | none => 0) + 5

/-- An alias element whose target is the simple mapping `{a: 9, x: 20}`. -/
def c6good : Node := Node.mk 3 .aliasNode 0 "" "m" "" (some c4w) [] 1 1

/-- An alias element whose target is the plain scalar `x`. -/
def c6bad : Node := Node.mk 4 .aliasNode 0 "" "s" "" (some (strScalar "x")) [] 1 1

/-- The merge value `[*m, *s]`: a good alias element followed by an alias
to a non-mapping. -/
def c6mrg : Node := seqNode [c6good, c6bad]

-- Go anchors are non-nil byte strings, hence nonempty when present.
def eventAnchorOK : Event → Prop
  | .scalar a _ _ _ _ _ => a ≠ some ""
  | .seqStart a _ _ _ _ => a ≠ some ""
  | .mapStart a _ _ _ _ => a ≠ some ""
  | _ => True

def EventsWF (evs : List Event) : Prop := ∀ e ∈ evs, eventAnchorOK e

instance eventAnchorOK.instDec (e : Event) : Decidable (eventAnchorOK e) :=
  match e with
  | .scalar a _ _ _ _ _ => inferInstanceAs (Decidable (a ≠ some ""))
  | .alias _ _ _ => inferInstanceAs (Decidable True)
  | .seqStart a _ _ _ _ => inferInstanceAs (Decidable (a ≠ some ""))
  | .seqEnd => inferInstanceAs (Decidable True)
  | .mapStart a _ _ _ _ => inferInstanceAs (Decidable (a ≠ some ""))
  | .mapEnd => inferInstanceAs (Decidable True)

instance EventsWF.instDec (evs : List Event) : Decidable (EventsWF evs) :=
  List.decidableBAll _ _

/-- The scalar child of the C3 witness sequence. -/
def c3child : Node := Node.mk 1 .scalarNode 0 "!!str" "x" "" none [] 2 3

/-- The composed sequence `&a [x]`. -/
def c3outer : Node := Node.mk 0 .sequenceNode 0 "!!seq" "" "a" none [c3child] 1 1

/-- The composer state after `&a [x]` closes. -/
def c3endState : PState :=
  { anchors := [("a", 0)], parentAnchors := [], heap := [(0, c3outer)], nextId := 2 }

/-- A composer state whose active-path set holds `a`. -/
def c3paState : PState :=
  { anchors := [("a", 0)], parentAnchors := ["a"], heap := [], nextId := 1 }

/-- C1: every node visit increments the decode counter, a visit inside
an alias expansion also the alias counter, and the visit is rejected
with "document contains excessive aliasing" exactly when the updated
counters satisfy alias > 100, decode > 1000, and alias/decode exceeding
`allowedAliasRatio`, whose threshold is 0.99 up to 400000 decodes, 0.10
from 4000000 on, and linearly (strictly) decreasing in between;
`decoder.unmarshal` consults this guard on every visit. -/
theorem C1_alias_accounting_and_ratio_limit (st : DecState) (n : Node) (typ : Option String) :
    (aliasGuard n typ st =
        .error (unmarshalErrf (some n) typ "document contains excessive aliasing") ↔
      (100 < st.aliasCount + (if 0 < st.aliasDepth then 1 else 0) ∧
        1000 < st.decodeCount + 1 ∧
        allowedAliasRatio (st.decodeCount + 1) <
          ((st.aliasCount + (if 0 < st.aliasDepth then 1 else 0) : Nat) : ℚ) /
            ((st.decodeCount + 1 : Nat) : ℚ))) ∧
    (¬ (100 < st.aliasCount + (if 0 < st.aliasDepth then 1 else 0) ∧
        1000 < st.decodeCount + 1 ∧
        allowedAliasRatio (st.decodeCount + 1) <
          ((st.aliasCount + (if 0 < st.aliasDepth then 1 else 0) : Nat) : ℚ) /
            ((st.decodeCount + 1 : Nat) : ℚ)) →
      aliasGuard n typ st = .ok { st with decodeCount := st.decodeCount + 1, aliasCount := st.aliasCount + (if 0 < st.aliasDepth then 1 else 0) }) ∧
    (∀ fuel t e, aliasGuard n (some (Target.typeName t)) st = .error e →
      unmF (fuel+1) t n st = .error e) ∧
    (∀ c, c ≤ 400000 → allowedAliasRatio c = 99 / 100) ∧
    (∀ c, 4000000 ≤ c → allowedAliasRatio c = 1 / 10) ∧
    (∀ c, 400000 < c → c < 4000000 →
      allowedAliasRatio c = 99 / 100 - 89 / 100 * (((c : ℚ) - 400000) / 3600000)) ∧
    (∀ c1 c2, 400000 ≤ c1 → c1 < c2 → c2 ≤ 4000000 →
      allowedAliasRatio c2 < allowedAliasRatio c1) := by
  have hmid : ∀ c, 400000 < c → c < 4000000 →
      allowedAliasRatio c = 99 / 100 - 89 / 100 * (((c : ℚ) - 400000) / 3600000) := by
    intro c h1 h2
    unfold allowedAliasRatio aliasRatioRange aliasRatioRangeLow aliasRatioRangeHigh
    rw [if_neg (by omega), if_neg (by omega)]
    have hcast : ((c - 400000 : Nat) : ℚ) = (c : ℚ) - 400000 := by
      rw [Nat.cast_sub (by omega)]
      norm_num
    rw [hcast]
    norm_num
  refine ⟨?_, ?_, ?_, ?_, ?_, hmid, ?_⟩
  · simp only [aliasGuard, gt_iff_lt]
    by_cases hd : 0 < st.aliasDepth <;>
      simp only [hd, if_true, if_false] <;>
      by_cases hc : 100 < st.aliasCount + 1 ∧ 1000 < st.decodeCount + 1 ∧
        allowedAliasRatio (st.decodeCount + 1) <
          ((st.aliasCount + 1 : Nat) : ℚ) / ((st.decodeCount + 1 : Nat) : ℚ) <;>
      by_cases hc0 : 100 < st.aliasCount ∧ 1000 < st.decodeCount + 1 ∧
        allowedAliasRatio (st.decodeCount + 1) <
          ((st.aliasCount : Nat) : ℚ) / ((st.decodeCount + 1 : Nat) : ℚ) <;>
      simp_all
  · intro hnot
    simp only [aliasGuard, gt_iff_lt]
    by_cases hd : 0 < st.aliasDepth
    · simp only [hd, if_true, if_false] at hnot ⊢
      split_ifs
      rfl
    · simp only [hd, if_true, if_false, add_zero] at hnot ⊢
      split_ifs
      rfl
  · intro fuel t e he
    simp only [unmF, he]
  · intro c hc
    unfold allowedAliasRatio aliasRatioRangeLow
    rw [if_pos hc]
  · intro c hc
    unfold allowedAliasRatio aliasRatioRangeLow aliasRatioRangeHigh
    rw [if_neg (by omega), if_pos (by omega)]
  · have heq : ∀ c, 400000 ≤ c → c ≤ 4000000 →
        allowedAliasRatio c = 99 / 100 - 89 / 100 * (((c : ℚ) - 400000) / 3600000) := by
      intro c hl hr
      rcases Nat.lt_or_ge 400000 c with h | h
      · rcases Nat.lt_or_ge c 4000000 with h2 | h2
        · exact hmid c h h2
        · have hc4 : c = 4000000 := le_antisymm hr h2
          subst hc4
          unfold allowedAliasRatio aliasRatioRangeLow aliasRatioRangeHigh
          norm_num
      · have hc4 : c = 400000 := le_antisymm h hl
        subst hc4
        unfold allowedAliasRatio aliasRatioRangeLow
        norm_num
    intro c1 c2 h1 h2 h3
    rw [heq c1 h1 (le_of_lt (lt_of_lt_of_le h2 h3)), heq c2 (le_trans h1 (le_of_lt h2)) h3]
    have hx : ((c1 : ℚ) - 400000) / 3600000 < ((c2 : ℚ) - 400000) / 3600000 := by
      rw [div_lt_div_iff_of_pos_right (by norm_num : (0:ℚ) < 3600000)]
      have hcast : (c1 : ℚ) < c2 := by exact_mod_cast h2
      linarith
    have hy := mul_lt_mul_of_pos_left hx (by norm_num : (0:ℚ) < 89/100)
    linarith

/-- C1 witness: a visit at alias count 2000, decode count 2000, inside
an alias expansion, is rejected. -/
theorem C1_alias_accounting_and_ratio_limit_witness :
    aliasGuard (strScalar "w") none
        { newDecoderState with aliasCount := 2000, decodeCount := 2000, aliasDepth := 1 } =
      .error (unmarshalErrf (some (strScalar "w")) none
        "document contains excessive aliasing") :=
  (C1_alias_accounting_and_ratio_limit
      { newDecoderState with aliasCount := 2000, decodeCount := 2000, aliasDepth := 1 }
      (strScalar "w") none).1.mpr
    (by refine ⟨?_, ?_, ?_⟩ <;>
      norm_num [newDecoderState, allowedAliasRatio, aliasRatioRangeLow])

/-- C2, counterexample: an alias to an anchor absent from the anchor
table does fail with the "unknown anchor" message, but the failure is an
UnmarshalError, not a failure of the SyntaxError class as claimed. -/
theorem C2_counterexample_unknown_anchor_class :
    (failureOf (compose [.alias "x" 0 0])).map Failure.isSyntaxError = some false ∧
      (failureOf (compose [.alias "x" 0 0])).bind Failure.message? =
        some "unknown anchor \"x\" referenced" :=
  ⟨rfl, rfl⟩

/-- C2, amended: for every alias event whose anchor name is absent from
the document's anchor table, composition fails with the "unknown anchor"
failure, and that failure is of the UnmarshalError class (not
SyntaxError).  The side condition that names in the active-path set all
have anchor-table entries holds of every reachable composer state
(`ComposerInv.paSub`). -/
theorem C2_amended_unknown_anchor_unmarshal_error (fuel : Nat) (st : PState) (name : String)
    (line col : Nat) (rest : List Event)
    (hlook : lookupAnchor st name = none)
    (hpa : ∀ a ∈ st.parentAnchors, (lookupAnchor st a).isSome) :
    composeF (fuel+1) st (.alias name line col :: rest) =
      .error (unmarshalErrf
        (some (Node.mk st.nextId .aliasNode 0 "" name "" none [] (line+1) (col+1))) none
        ("unknown anchor " ++ quoteName name ++ " referenced")) ∧
    ∀ e, composeF (fuel+1) st (.alias name line col :: rest) = .error e →
      e.isUnmarshalError = true ∧ e.isSyntaxError = false := by
  have hnotpa : name ∉ st.parentAnchors := by
    intro hmem
    have h2 := hpa name hmem
    rw [hlook] at h2
    simp at h2
  have hmain : composeF (fuel+1) st (.alias name line col :: rest) =
      .error (unmarshalErrf
        (some (Node.mk st.nextId .aliasNode 0 "" name "" none [] (line+1) (col+1))) none
        ("unknown anchor " ++ quoteName name ++ " referenced")) := by
    simp only [composeF, pnode]
    rw [if_neg hnotpa]
    have hl2 : lookupAnchor { st with nextId := st.nextId + 1 } name = none := hlook
    rw [hl2]
    simp
  refine ⟨hmain, ?_⟩
  intro e he
  rw [hmain] at he
  injection he with h3
  subst h3
  exact ⟨rfl, rfl⟩

/-- C2 witness: the unknown-anchor failure from the initial state. -/
theorem C2_amended_unknown_anchor_unmarshal_error_witness :
    lookupAnchor initPState "x" = none ∧
      composeF 1 initPState [.alias "x" 0 0] =
        .error (unmarshalErrf
          (some (Node.mk initPState.nextId .aliasNode 0 "" "x" "" none [] 1 1)) none
          ("unknown anchor " ++ quoteName "x" ++ " referenced")) :=
  ⟨rfl, (C2_amended_unknown_anchor_unmarshal_error 0 initPState "x" 0 0 [] rfl
    (by intro a ha; simp [initPState] at ha)).1⟩

/-- C7: with unique_keys on, a mapping holding two keys at positions
i < j that are equal under `equalKey` is reported softly: one
DuplicateKeyError per such pair (first = later key, second = earlier) is
appended to the collected type errors, the mapping returns without a
hard failure, and the top-level Unmarshal returns the collected group as
a TypeError at the end. -/
theorem C7_duplicate_keys_soft_errors (fuel : Nat) (n : Node) (t : Target) (st : DecState)
    (hkind : n.kind = .mappingNode)
    (huq : st.uniqueKeys = true)
    (hpair : ∃ (i j : Nat) (ki kj : Node), i < j ∧
      ((toPairs n.content).map Prod.fst)[i]? = some ki ∧
      ((toPairs n.content).map Prod.fst)[j]? = some kj ∧ equalKey ki kj = true)
    (hdepth : st.aliasDepth = 0) (hcnt : st.aliasCount ≤ 100) :
    unmF (fuel+2) t n st = .ok (none, { st with decodeCount := st.decodeCount + 1, terrors := st.terrors ++ dupErrors ((toPairs n.content).map Prod.fst) (some t.typeName) }) ∧
    (∀ (i j : Nat) (ki kj : Node), i < j →
      ((toPairs n.content).map Prod.fst)[i]? = some ki →
      ((toPairs n.content).map Prod.fst)[j]? = some kj →
      equalKey ki kj = true →
      duplicateKeyErr (some kj) (some ki) (some t.typeName) ∈
        st.terrors ++ dupErrors ((toPairs n.content).map Prod.fst) (some t.typeName)) ∧
    unmarshalTop n =
      .typeError (dupErrors ((toPairs n.content).map Prod.fst) (some "interface {}")) := by
  have hmem : ∀ (typ : Option String) (i j : Nat) (ki kj : Node), i < j →
      ((toPairs n.content).map Prod.fst)[i]? = some ki →
      ((toPairs n.content).map Prod.fst)[j]? = some kj →
      equalKey ki kj = true →
      duplicateKeyErr (some kj) (some ki) typ ∈
        dupErrors ((toPairs n.content).map Prod.fst) typ := by
    intro typ i j ki kj hij hi hj heq
    unfold dupErrors
    apply List.mem_flatMap.2
    refine ⟨(i, ki), List.mk_mem_enum_iff_getElem?.2 hi, ?_⟩
    apply List.mem_filterMap.2
    refine ⟨(j, kj), List.mk_mem_enum_iff_getElem?.2 hj, ?_⟩
    rw [if_pos ⟨hij, heq⟩]
  have hne : ∀ typ : Option String,
      dupErrors ((toPairs n.content).map Prod.fst) typ ≠ [] := by
    intro typ
    obtain ⟨i, j, ki, kj, hij, hi, hj, heq⟩ := hpair
    exact List.ne_nil_of_mem (hmem typ i j ki kj hij hi hj heq)
  have hmain : ∀ (f : Nat) (tq : Target) (s : DecState), s.uniqueKeys = true →
      s.aliasDepth = 0 → s.aliasCount ≤ 100 →
      unmF (f+2) tq n s = .ok (none, { s with decodeCount := s.decodeCount + 1, terrors := s.terrors ++ dupErrors ((toPairs n.content).map Prod.fst) (some tq.typeName) }) := by
    intro f tq s huq2 hd2 hc2
    have hguard : aliasGuard n (some (Target.typeName tq)) s =
        .ok { s with decodeCount := s.decodeCount + 1 } := by
      simp only [aliasGuard, gt_iff_lt, hd2]
      norm_num
      omega
    have hmap : dmappingF (f+1) n tq { s with decodeCount := s.decodeCount + 1 } =
        .ok (none, { s with decodeCount := s.decodeCount + 1, terrors := s.terrors ++ dupErrors ((toPairs n.content).map Prod.fst) (some tq.typeName) }) := by
      simp only [dmappingF, huq2, if_true]
      rw [if_pos ⟨trivial, by simp [List.isEmpty_iff, hne]⟩]
    simp only [unmF, hguard, hkind, hmap]
  refine ⟨hmain fuel t st huq hdepth hcnt, ?_, ?_⟩
  · intro i j ki kj hij hi hj heq
    exact List.mem_append_right _ (hmem _ i j ki kj hij hi hj heq)
  · have harith : 10 * nodeSize n + 10 = 10 * nodeSize n + 8 + 2 := by omega
    unfold unmarshalTop unmarshal
    rw [harith, hmain (10 * nodeSize n + 8) .iface newDecoderState rfl rfl (by decide)]
    simp [newDecoderState, hne, Target.typeName]

/-- C7 witness: the mapping `{a: 0, a: 1}` reports its duplicate pair
and the top-level Unmarshal returns the group. -/
theorem C7_duplicate_keys_soft_errors_witness :
    unmarshalTop (mapNode [strScalar "a", intScalar "0", strScalar "a", intScalar "1"]) =
      .typeError (dupErrors
        ((toPairs (mapNode [strScalar "a", intScalar "0", strScalar "a", intScalar "1"]).content).map
          Prod.fst) (some "interface {}")) :=
  (C7_duplicate_keys_soft_errors 0
      (mapNode [strScalar "a", intScalar "0", strScalar "a", intScalar "1"]) .iface
      newDecoderState rfl rfl
      ⟨0, 1, strScalar "a", strScalar "a", by decide, rfl, rfl, by decide⟩
      rfl (by decide)).2.2

/-- C8: the code at the failing input.  `equalKey` holds of the mappings
`{a: 1, b: 1}` and `{a: 1, a: 1}` (in that order) although their
contents are not pairwise equal under the relation itself, and the
reversed application returns false — the relation is not symmetric
there, contradicting the spec's recursive-content rule and the symmetry
the repository's own test asserts ("Ensure that equality is symmetric
relation"). -/
theorem C8_equalKey_duplicate_key_mapping_bug :
    equalKey c8NodeA c8NodeB = true ∧
      equalKey c8NodeB c8NodeA = false ∧
      c8NodeA.kind = c8NodeB.kind ∧
      c8NodeA.content.length = c8NodeB.content.length ∧
      ((c8NodeA.content.zip c8NodeB.content).all fun p => equalKey p.1 p.2) = false := by
  refine ⟨?_, ?_, ?_, ?_, ?_⟩ <;> decide

/-- C9, counterexample: two parser failure states that differ only in
the column of the problem mark produce the same SyntaxError — the error
carries no column (and a fortiori no context mark). -/
theorem C9_counterexample_column_not_carried :
    parserFail c9state1 = parserFail c9state2 ∧
      c9state1.problem_mark.column ≠ c9state2.problem_mark.column :=
  ⟨rfl, by decide⟩

/-- C9, amended: a scanner/parser failure (no pending read error)
produces an error of the SyntaxError class carrying a message (the
problem text, with a fallback), a byte offset (the problem offset for
reader errors, the problem mark index for scanner/parser errors) and a
line (from the context mark when set, else the problem mark, plus one
for scanner errors); the column and the context mark are consumed in
that computation but not carried in the error. -/
theorem C9_amended_syntax_error_payload (p : ParserFailState) (h : p.read_error = none) :
    (parserFail p).isSyntaxError = true ∧
    (Failure.syntaxPayload (parserFail p)).map SyntaxError.Msg =
      some (if p.problem.length > 0 then p.problem
            else "unknown problem parsing YAML content") ∧
    (Failure.syntaxPayload (parserFail p)).map SyntaxError.Offset =
      some (match p.error with
            | .readerError => p.problem_offset
            | .scannerError => p.problem_mark.index
            | .parserError => p.problem_mark.index
            | .noError => 0) ∧
    (p.context_mark.line ≠ 0 →
      (Failure.syntaxPayload (parserFail p)).map SyntaxError.Line =
        some (if p.error = .scannerError then p.context_mark.line + 1
              else p.context_mark.line)) ∧
    (p.context_mark.line = 0 → p.problem_mark.line ≠ 0 →
      (Failure.syntaxPayload (parserFail p)).map SyntaxError.Line =
        some (if p.error = .scannerError then p.problem_mark.line + 1
              else p.problem_mark.line)) := by
  unfold parserFail
  rw [h]
  refine ⟨rfl, rfl, rfl, ?_, ?_⟩
  · intro hc
    simp [if_pos hc, Failure.syntaxPayload, syntaxErr]
  · intro hc hp
    rw [hc]
    simp [Failure.syntaxPayload, syntaxErr, hp]

/-- C9 witness. -/
theorem C9_amended_syntax_error_payload_witness :
    c9state1.read_error = none ∧ (parserFail c9state1).isSyntaxError = true :=
  ⟨rfl, (C9_amended_syntax_error_payload c9state1 rfl).1⟩

/-- C10: a scalar that resolves (as a plain scalar) to one of the YAML
1.1 truthy strings decodes into a Go bool target as true, one of the
falsy strings as false, even though the string resolves as `!!str`, not
as a bool. -/
theorem C10_yaml11_bool_strings (s : String) (b : Bool)
    (hmem : (s, b) ∈ (boolTrueStrings.map fun x => (x, true)) ++
      (boolFalseStrings.map fun x => (x, false)))
    (n : Node) (st : DecState) (fuel : Nat)
    (hkind : n.kind = .scalarNode)
    (hres : scalarIfaceVal n = .vstr s)
    (hdepth : st.aliasDepth = 0) (hcnt : st.aliasCount ≤ 100) :
    implicitResolve s = (strTag, .vstr s) ∧
    unmF (fuel+1) .tbool n st =
      .ok (some (.vbool b), { st with decodeCount := st.decodeCount + 1 }) := by
  have hx : (b = true ∧ s ∈ boolTrueStrings) ∨
      (b = false ∧ s ∉ boolTrueStrings ∧ s ∈ boolFalseStrings) := by
    fin_cases hmem <;> simp [boolTrueStrings, boolFalseStrings]
  have h1 : implicitResolve s = (strTag, .vstr s) := by
    fin_cases hmem <;> rfl
  refine ⟨h1, ?_⟩
  have hguard : aliasGuard n (some (Target.typeName .tbool)) st =
      .ok { st with decodeCount := st.decodeCount + 1 } := by
    unfold aliasGuard
    simp only [hdepth]
    norm_num
    omega
  have htr : (if n.indicatedString then (strTag, DValue.vstr n.value)
      else resolve n.tag n.value).2 = DValue.vstr s := by
    rw [← hres]
    unfold scalarIfaceVal
    cases hi : n.indicatedString <;> simp [hi]
  have hsc : dscalar n .tbool { st with decodeCount := st.decodeCount + 1 } =
      (some (.vbool b), { st with decodeCount := st.decodeCount + 1 }) := by
    simp only [dscalar]
    rw [htr]
    rcases hx with ⟨hb, hs⟩ | ⟨hb, hs1, hs2⟩ <;> subst hb
    · simp [hs]
    · simp [hs1, hs2]
  simp only [unmF, hguard, hkind, hsc]

/-- C10 witness: the plain scalar `y` (composed with tag `!!str`)
decodes into bool as true. -/
theorem C10_yaml11_bool_strings_witness :
    implicitResolve "y" = (strTag, .vstr "y") ∧
      unmF 1 .tbool (strScalar "y") newDecoderState =
        .ok (some (.vbool true), { newDecoderState with decodeCount := newDecoderState.decodeCount + 1 }) :=
  C10_yaml11_bool_strings "y" true (by decide) (strScalar "y") newDecoderState 0
    rfl rfl rfl (by decide)


/-- The alias guard passes at alias depth 0 with at most 100 alias
decodes, only bumping the decode counter. -/
theorem aliasGuard_calm (n : Node) (typ : Option String) (st : DecState)
    (hd : st.aliasDepth = 0) (hc : st.aliasCount ≤ 100) :
    aliasGuard n typ st = .ok { st with decodeCount := st.decodeCount + 1 } := by
  simp only [aliasGuard, gt_iff_lt, hd]
  norm_num
  omega

theorem nodeSize_pos (n : Node) : 0 < nodeSize n := by
  cases n
  simp [nodeSize]

/-- `equalKey` on two scalar nodes is raw value-text equality. -/
theorem equalKey_scalar (n b : Node) (hn : n.kind = .scalarNode)
    (hb : b.kind = .scalarNode) : equalKey n b = (n.value == b.value) := by
  obtain ⟨m, hm⟩ : ∃ m, nodeSize n = m + 1 :=
    ⟨nodeSize n - 1, by have := nodeSize_pos n; omega⟩
  rw [equalKey, hm]
  simp [equalKeyF, hn, hb]

/-- Scalar keys with pairwise distinct value texts produce no duplicate
errors. -/
theorem dupErrors_nil (keys : List Node) (typ : Option String)
    (hk : ∀ k ∈ keys, k.kind = .scalarNode)
    (hd : keys.Pairwise fun a b => a.value ≠ b.value) :
    dupErrors keys typ = [] := by
  unfold dupErrors
  rw [List.flatMap_eq_nil_iff]
  intro p hp
  rw [List.filterMap_eq_nil_iff]
  intro q hq
  rw [List.mk_mem_enum_iff_getElem?] at hp hq
  by_cases hij : p.1 < q.1 ∧ equalKey p.2 q.2 = true
  · exfalso
    obtain ⟨hlt, heq⟩ := hij
    obtain ⟨hpi, hgp⟩ := List.getElem?_eq_some_iff.1 hp
    obtain ⟨hqi, hgq⟩ := List.getElem?_eq_some_iff.1 hq
    have hne : p.2.value ≠ q.2.value := by
      have := List.pairwise_iff_getElem.1 hd p.1 q.1 hpi hqi hlt
      rw [hgp, hgq] at this
      exact this
    have h2 := equalKey_scalar p.2 q.2
      (hk _ (by rw [← hgp]; exact keys.getElem_mem hpi))
      (hk _ (by rw [← hgq]; exact keys.getElem_mem hqi))
    rw [h2] at heq
    exact hne (by simpa using heq)
  · rw [if_neg hij]

/-- A scalar whose short tag is `!!str` indicates a string. -/
theorem indicatedString_strTag (n : Node) (hn : n.kind = .scalarNode)
    (ht : n.ShortTag = strTag) : n.indicatedString = true := by
  simp [Node.indicatedString, hn, ht, Node.ShortTag] at ht ⊢
  exact Or.inl ht

theorem scalarIfaceVal_strTag (n : Node) (hn : n.kind = .scalarNode)
    (ht : n.ShortTag = strTag) : scalarIfaceVal n = .vstr n.value := by
  rw [scalarIfaceVal, if_pos (indicatedString_strTag n hn ht)]

/-- A merge key is a scalar `<<` that decodes (as an interface value) to
the string `<<`. -/
theorem isMerge_scalarIfaceVal (n : Node) (h : isMerge n = true) :
    n.kind = .scalarNode ∧ n.value = "<<" ∧ scalarIfaceVal n = .vstr "<<" := by
  simp only [isMerge, Bool.and_eq_true, decide_eq_true_eq, Bool.or_eq_true,
    beq_iff_eq] at h
  obtain ⟨⟨hk, hv⟩, htag⟩ := h
  have himp : implicitResolve "<<" = (strTag, .vstr "<<") := rfl
  refine ⟨hk, hv, ?_⟩
  unfold scalarIfaceVal
  by_cases hi : n.indicatedString = true
  · rw [if_pos hi, hv]
  · rw [if_neg hi]
    simp only [resolve, hv, himp]
    split
    · rfl
    · split <;> rfl

/-- An interface-target decode of a scalar yields its resolved value and
bumps the decode counter. -/
theorem unm_scalar_iface (fuel : Nat) (n : Node) (st : DecState)
    (hn : n.kind = .scalarNode) (hd : st.aliasDepth = 0) (hc : st.aliasCount ≤ 100) :
    unmF (fuel+1) .iface n st =
      .ok (some (scalarIfaceVal n), { st with decodeCount := st.decodeCount + 1 }) := by
  have hguard := aliasGuard_calm n (some (Target.typeName .iface)) st hd hc
  have hsc : dscalar n .iface { st with decodeCount := st.decodeCount + 1 } =
      (some (scalarIfaceVal n), { st with decodeCount := st.decodeCount + 1 }) := by
    simp only [dscalar]
    have htr : (if n.indicatedString then (strTag, DValue.vstr n.value)
        else resolve n.tag n.value).2 = scalarIfaceVal n := by
      unfold scalarIfaceVal
      cases hi : n.indicatedString <;> simp [hi]
    rw [htr]
    cases hv : scalarIfaceVal n <;> rfl
  simp only [unmF, hguard, hn, hsc]

/-- A string-target decode of a `!!str` scalar yields its raw text. -/
theorem unm_scalar_tstr (fuel : Nat) (n : Node) (st : DecState)
    (hn : n.kind = .scalarNode) (ht : n.ShortTag = strTag)
    (hd : st.aliasDepth = 0) (hc : st.aliasCount ≤ 100) :
    unmF (fuel+1) .tstr n st =
      .ok (some (.vstr n.value), { st with decodeCount := st.decodeCount + 1 }) := by
  have hguard := aliasGuard_calm n (some (Target.typeName .tstr)) st hd hc
  have hsc : dscalar n .tstr { st with decodeCount := st.decodeCount + 1 } =
      (some (.vstr n.value), { st with decodeCount := st.decodeCount + 1 }) := by
    simp only [dscalar]
    rw [if_pos (indicatedString_strTag n hn ht)]
  simp only [unmF, hguard, hn, hsc]

theorem StableDec.mtrans {s1 s2 s3 : DecState} (h1 : StableDec s1 s2)
    (h2 : StableDec s2 s3) : StableDec s1 s3 := by
  obtain ⟨a1, b1, c1, d1, e1⟩ := h1
  obtain ⟨a2, b2, c2, d2, e2⟩ := h2
  exact ⟨a2.trans a1, b2.trans b1, c2.trans c1, d2.trans d1, e2.trans e1⟩

theorem StableDec.bump (st : DecState) :
    StableDec st { st with decodeCount := st.decodeCount + 1 } :=
  ⟨rfl, rfl, rfl, rfl, rfl⟩

/-- The decoded key of a simple pair, under either key target. -/
theorem key_decode_simple (fuel : Nat) (k : Node) (sk : Bool) (st : DecState)
    (hk : k.kind = .scalarNode) (ht : k.ShortTag = strTag)
    (hd : st.aliasDepth = 0) (hc : st.aliasCount ≤ 100) :
    unmF (fuel+1) (if sk then .tstr else .iface) k st =
      .ok (some (.vstr k.value), { st with decodeCount := st.decodeCount + 1 }) := by
  cases sk
  · simp only [if_false, Bool.false_eq_true]
    rw [unm_scalar_iface fuel k st hk hd hc, scalarIfaceVal_strTag k hk ht]
  · simp only [if_true]
    exact unm_scalar_tstr fuel k st hk ht hd hc

/-- The pair loop with no merge expansion in progress: simple entries
bind in order, merge keys park their value (the last one wins), and only
the decode counter changes. -/
theorem dmapPairs_mixed : ∀ (ps : List (Node × Node)) (fuel : Nat), 2 * ps.length < fuel →
    ∀ (sk new : Bool) (m : List (DValue × DValue)) (mp : Option Node) (st : DecState),
    (∀ p ∈ ps, isMerge p.1 = true ∨ SimplePair p) →
    st.aliasDepth = 0 → st.aliasCount ≤ 100 →
    ∃ stq, dmapPairsF fuel ps sk m new none mp st =
        .ok (bindSimplePairs m (directEntries ps), none, lastMerge mp ps, stq) ∧
      StableDec st stq ∧ stq.mergedFields = st.mergedFields := by
  intro ps
  induction ps with
  | nil =>
    intro fuel hf sk new m mp st hps hd hc
    obtain ⟨f, rfl⟩ : ∃ f, fuel = f + 1 := ⟨fuel - 1, by omega⟩
    exact ⟨st, rfl, ⟨rfl, rfl, rfl, rfl, rfl⟩, rfl⟩
  | cons p rest ih =>
    obtain ⟨k, v⟩ := p
    intro fuel hf sk new m mp st hps hd hc
    simp only [List.length_cons] at hf
    obtain ⟨f1, rfl⟩ : ∃ f1, fuel = f1 + 2 := ⟨fuel - 2, by omega⟩
    rcases hps (k, v) (by simp) with hm | hsimple
    · -- merge key: parked, not bound
      have heq : dmapPairsF (f1 + 2) ((k, v) :: rest) sk m new none mp st =
          dmapPairsF (f1 + 1) rest sk m new none (some v) st := by
        simp only [dmapPairsF, hm, if_true]
      obtain ⟨stq, h1, h2, h3⟩ := ih (f1 + 1) (by omega) sk new m (some v) st
        (fun p hp => hps p (by simp [hp])) hd hc
      refine ⟨stq, ?_, h2, h3⟩
      rw [heq, h1]
      simp [directEntries, lastMerge, hm]
    · obtain ⟨hk, ht, hnm, hv⟩ := hsimple
      obtain ⟨f2, rfl⟩ : ∃ f2, f1 = f2 + 1 := ⟨f1 - 1, by omega⟩
      have hkey := key_decode_simple (f2 + 1) k sk st hk ht hd hc
      have hval := unm_scalar_iface f2 v { st with decodeCount := st.decodeCount + 1 }
        hv hd hc
      have heq : dmapPairsF (f2 + 3) ((k, v) :: rest) sk m new none mp st =
          dmapPairsF (f2 + 1) rest sk (mapSet m (.vstr k.value) (scalarIfaceVal v)) new
            none mp { st with decodeCount := st.decodeCount + 2 } := by
        simp only [dmapPairsF, hnm, Bool.false_eq_true, if_false, hkey]
        simp only [isHashable, Bool.not_true, Bool.false_eq_true, if_false,
          dmapPairValueF, hval]
      obtain ⟨stq, h1, h2, h3⟩ := ih (f2 + 1) (by omega) sk new
        (mapSet m (.vstr k.value) (scalarIfaceVal v)) mp
        { st with decodeCount := st.decodeCount + 2 }
        (fun p hp => hps p (by simp [hp])) hd hc
      refine ⟨stq, ?_, StableDec.mtrans ⟨rfl, rfl, rfl, rfl, rfl⟩ h2, h3⟩
      rw [heq, h1]
      simp [directEntries, bindSimplePairs, lastMerge, hnm]

/-- The pair loop inside a merge expansion: keys already in the merged
set are skipped, new keys are recorded and bound. -/
theorem dmapPairs_merged : ∀ (ps : List (Node × Node)) (fuel : Nat), 2 * ps.length < fuel →
    ∀ (sk new : Bool) (out : List (DValue × DValue)) (fs : List DValue)
      (mp : Option Node) (st : DecState),
    (∀ p ∈ ps, SimplePair p) →
    st.aliasDepth = 0 → st.aliasCount ≤ 100 →
    ∃ stq, dmapPairsF fuel ps sk out new (some fs) mp st =
        .ok ((mergeStepPairs out fs ps).1, some (mergeStepPairs out fs ps).2, mp, stq) ∧
      StableDec st stq ∧ stq.mergedFields = st.mergedFields := by
  intro ps
  induction ps with
  | nil =>
    intro fuel hf sk new out fs mp st hps hd hc
    obtain ⟨f, rfl⟩ : ∃ f, fuel = f + 1 := ⟨fuel - 1, by omega⟩
    exact ⟨st, rfl, ⟨rfl, rfl, rfl, rfl, rfl⟩, rfl⟩
  | cons p rest ih =>
    obtain ⟨k, v⟩ := p
    intro fuel hf sk new out fs mp st hps hd hc
    simp only [List.length_cons] at hf
    obtain ⟨f2, rfl⟩ : ∃ f2, fuel = f2 + 3 := ⟨fuel - 3, by omega⟩
    obtain ⟨hk, ht, hnm, hv⟩ := hps (k, v) (by simp)
    have hkey := key_decode_simple (f2 + 1) k sk st hk ht hd hc
    by_cases hmem : fieldsMem fs (.vstr k.value) = true
    · have heq : dmapPairsF (f2 + 3) ((k, v) :: rest) sk out new (some fs) mp st =
          dmapPairsF (f2 + 2) rest sk out new (some fs) mp
            { st with decodeCount := st.decodeCount + 1 } := by
        simp only [dmapPairsF, hnm, Bool.false_eq_true, if_false, hkey]
        simp only [isHashable, Bool.not_true, Bool.false_eq_true, if_false, hmem, if_true]
      obtain ⟨stq, h1, h2, h3⟩ := ih (f2 + 2) (by omega) sk new out fs mp
        { st with decodeCount := st.decodeCount + 1 }
        (fun p hp => hps p (by simp [hp])) hd hc
      refine ⟨stq, ?_, StableDec.mtrans (StableDec.bump st) h2, h3⟩
      rw [heq, h1]
      simp [mergeStepPairs, hmem]
    · have hval := unm_scalar_iface f2 v { st with decodeCount := st.decodeCount + 1 }
        hv hd hc
      have heq : dmapPairsF (f2 + 3) ((k, v) :: rest) sk out new (some fs) mp st =
          dmapPairsF (f2 + 1) rest sk
            (mapSet out (.vstr k.value) (scalarIfaceVal v)) new
            (some (DValue.vstr k.value :: fs)) mp
            { st with decodeCount := st.decodeCount + 2 } := by
        simp only [dmapPairsF, hnm, Bool.false_eq_true, if_false, hkey]
        simp only [isHashable, Bool.not_true, Bool.false_eq_true, if_false, hmem,
          dmapPairValueF, hval]
      obtain ⟨stq, h1, h2, h3⟩ := ih (f2 + 1) (by omega) sk new
        (mapSet out (.vstr k.value) (scalarIfaceVal v)) (DValue.vstr k.value :: fs) mp
        { st with decodeCount := st.decodeCount + 2 }
        (fun p hp => hps p (by simp [hp])) hd hc
      refine ⟨stq, ?_, StableDec.mtrans ⟨rfl, rfl, rfl, rfl, rfl⟩ h2, h3⟩
      rw [heq, h1]
      simp [mergeStepPairs, hmem]

/-- The mergedFields seeding loop decodes every key of the enclosing
mapping and records it. -/
theorem dmergeSeed_lemma : ∀ (ps : List (Node × Node)) (fuel : Nat), ps.length + 1 < fuel →
    ∀ (st : DecState) (fs0 : List DValue), st.mergedFields = some fs0 →
    (∀ p ∈ ps, isMerge p.1 = true ∨ SimplePair p) →
    st.aliasDepth = 0 → st.aliasCount ≤ 100 →
    ∃ stq, dmergeSeedF fuel ps st = .ok stq ∧ StableDec st stq ∧
      stq.mergedFields = some (seedFold fs0 ps) := by
  intro ps
  induction ps with
  | nil =>
    intro fuel hf st fs0 hmf hps hd hc
    obtain ⟨f, rfl⟩ : ∃ f, fuel = f + 1 := ⟨fuel - 1, by omega⟩
    exact ⟨st, rfl, ⟨rfl, rfl, rfl, rfl, rfl⟩, by simp [seedFold, hmf]⟩
  | cons p rest ih =>
    obtain ⟨k, v⟩ := p
    intro fuel hf st fs0 hmf hps hd hc
    simp only [List.length_cons] at hf
    obtain ⟨f2, rfl⟩ : ∃ f2, fuel = f2 + 2 := ⟨fuel - 2, by omega⟩
    have hsv : scalarIfaceVal k = .vstr k.value ∧ k.kind = .scalarNode := by
      rcases hps (k, v) (by simp) with hm | ⟨hk, ht, _, _⟩
      · obtain ⟨h1, h2, h3⟩ := isMerge_scalarIfaceVal k hm
        exact ⟨by rw [h3, h2], h1⟩
      · exact ⟨scalarIfaceVal_strTag k hk ht, hk⟩
    have hkey := unm_scalar_iface (f2) k st hsv.2 hd hc
    have heq : dmergeSeedF (f2 + 2) ((k, v) :: rest) st =
        dmergeSeedF (f2 + 1) rest { st with decodeCount := st.decodeCount + 1, mergedFields := some (scalarIfaceVal k :: st.mergedFields.getD []) } := by
      simp only [dmergeSeedF, hkey, hsv.1]
      simp [isHashable]
    obtain ⟨stq, h1, h2, h3⟩ := ih (f2 + 1) (by omega)
      { st with decodeCount := st.decodeCount + 1, mergedFields := some (scalarIfaceVal k :: st.mergedFields.getD []) }
      (scalarIfaceVal k :: fs0) (by simp [hmf])
      (fun p hp => hps p (by simp [hp])) hd hc
    refine ⟨stq, ?_, StableDec.mtrans ⟨rfl, rfl, rfl, rfl, rfl⟩ h2, ?_⟩
    · rw [heq, h1]
    · rw [h3]
      simp [seedFold, hsv.1, hmf]

/-- Decoding a simple mapping into a map target merges its pairs under
`mergedFields`. -/
theorem unm_w_tmap (fuel : Nat) (w : Node) (sk : Bool)
    (out : List (DValue × DValue)) (fs : List DValue) (st : DecState)
    (hw : w.kind = .mappingNode)
    (hps : ∀ p ∈ toPairs w.content, SimplePair p)
    (hdist : ((toPairs w.content).map Prod.fst).Pairwise fun a b => a.value ≠ b.value)
    (hmf : st.mergedFields = some fs)
    (hd : st.aliasDepth = 0) (hc : st.aliasCount ≤ 100)
    (hf : 2 * (toPairs w.content).length + 3 < fuel) :
    ∃ stq, unmF fuel (.tmap sk out) w st =
        .ok (some (.vmap (mergeStepPairs out fs (toPairs w.content)).1), stq) ∧
      StableDec st stq ∧
      stq.mergedFields = some (mergeStepPairs out fs (toPairs w.content)).2 := by
  obtain ⟨f3, rfl⟩ : ∃ f3, fuel = f3 + 3 := ⟨fuel - 3, by omega⟩
  have hguard := aliasGuard_calm w (some (Target.typeName (.tmap sk out))) st hd hc
  have hkeysc : ∀ k ∈ (toPairs w.content).map Prod.fst, k.kind = .scalarNode := by
    intro k hk
    obtain ⟨p, hp, rfl⟩ := List.mem_map.1 hk
    exact (hps p hp).1
  have hdups := dupErrors_nil ((toPairs w.content).map Prod.fst)
    (some (Target.typeName (.tmap sk out))) hkeysc hdist
  obtain ⟨stq, h1, h2, h3⟩ := dmapPairs_merged (toPairs w.content) f3
    (by omega) sk false out fs none
    { st with decodeCount := st.decodeCount + 1, mergedFields := none }
    hps hd hc
  have hcore : dmapCoreF (f3 + 1) w sk out false
      { st with decodeCount := st.decodeCount + 1 } =
      .ok (some (.vmap (mergeStepPairs out fs (toPairs w.content)).1),
        { stq with mergedFields := some (mergeStepPairs out fs (toPairs w.content)).2 }) := by
    simp only [dmapCoreF, hmf]
    rw [h1]
  have hmap : dmappingF (f3 + 2) w (.tmap sk out)
      { st with decodeCount := st.decodeCount + 1 } =
      .ok (some (.vmap (mergeStepPairs out fs (toPairs w.content)).1),
        { stq with mergedFields := some (mergeStepPairs out fs (toPairs w.content)).2 }) := by
    simp only [dmappingF, hdups, ite_self, List.append_nil]
    rw [if_neg (by simp)]
    exact hcore
  refine ⟨{ stq with mergedFields := some (mergeStepPairs out fs (toPairs w.content)).2 }, ?_, ?_, rfl⟩
  · simp only [unmF, hguard, hw]
    exact hmap
  · obtain ⟨a, b, c, d, e⟩ := h2
    exact ⟨a, b, c, d, e⟩

/-- Merging a sequence of simple mappings folds `mergeStepPairs` over the
elements in order. -/
theorem dmergeSeq_lemma : ∀ (ws : List Node) (fuel : Nat),
    (∀ w ∈ ws, 2 * (toPairs w.content).length + 3 + ws.length < fuel) →
    ∀ (sk : Bool) (out : List (DValue × DValue)) (fs : List DValue) (st : DecState),
    (∀ w ∈ ws, w.kind = .mappingNode ∧ (∀ p ∈ toPairs w.content, SimplePair p) ∧
      ((toPairs w.content).map Prod.fst).Pairwise fun a b => a.value ≠ b.value) →
    st.mergedFields = some fs →
    st.aliasDepth = 0 → st.aliasCount ≤ 100 → 0 < fuel →
    ∃ stq, dmergeSeqF fuel ws sk out st =
        .ok ((mergeSeqFold out fs ws).1, stq) ∧ StableDec st stq ∧
      stq.mergedFields = some (mergeSeqFold out fs ws).2 := by
  intro ws
  induction ws with
  | nil =>
    intro fuel hfw sk out fs st hws hmf hd hc hpos
    obtain ⟨f, rfl⟩ : ∃ f, fuel = f + 1 := ⟨fuel - 1, by omega⟩
    exact ⟨st, rfl, ⟨rfl, rfl, rfl, rfl, rfl⟩, by simp [mergeSeqFold, hmf]⟩
  | cons w rest ih =>
    intro fuel hfw sk out fs st hws hmf hd hc hpos
    have hfw0 := hfw w (by simp)
    simp only [List.length_cons] at hfw0
    obtain ⟨f, rfl⟩ : ∃ f, fuel = f + 1 := ⟨fuel - 1, by omega⟩
    obtain ⟨hwk, hwp, hwd⟩ := hws w (by simp)
    obtain ⟨st1, h1, h2, h3⟩ := unm_w_tmap f w sk out fs st hwk hwp hwd hmf hd hc (by omega)
    have hstep : dmergeSeqF (f + 1) (w :: rest) sk out st =
        dmergeSeqF f rest sk (mergeStepPairs out fs (toPairs w.content)).1 st1 := by
      simp only [dmergeSeqF, hwk]
      rw [h1]
      simp
    obtain ⟨stq, q1, q2, q3⟩ := ih f
      (fun w' hw' => by have := hfw w' (by simp [hw']); simp only [List.length_cons] at this; omega)
      sk (mergeStepPairs out fs (toPairs w.content)).1 (mergeStepPairs out fs (toPairs w.content)).2
      st1 (fun w' hw' => hws w' (by simp [hw'])) h3
      (h2.2.2.2.2.trans hd) (h2.2.2.2.1 ▸ hc) (by omega)
    refine ⟨stq, ?_, StableDec.mtrans h2 q2, ?_⟩
    · rw [hstep, q1]
      simp [mergeSeqFold]
    · rw [q3]
      simp [mergeSeqFold]

/-- `decoder.merge` on a sequence of simple mappings: seed `mergedFields`
from the parent mapping, then fold the merge step over the elements. -/
theorem dmerge_seq_top (fuel : Nat) (parent mrg : Node) (sk : Bool)
    (out : List (DValue × DValue)) (st : DecState)
    (hkind : mrg.kind = .sequenceNode)
    (hseed : ∀ p ∈ toPairs parent.content, isMerge p.1 = true ∨ SimplePair p)
    (hws : ∀ w ∈ mrg.content, w.kind = .mappingNode ∧
      (∀ p ∈ toPairs w.content, SimplePair p) ∧
      ((toPairs w.content).map Prod.fst).Pairwise fun a b => a.value ≠ b.value)
    (hmf : st.mergedFields = none)
    (hd : st.aliasDepth = 0) (hc : st.aliasCount ≤ 100)
    (hf1 : (toPairs parent.content).length + 2 < fuel)
    (hf2 : ∀ w ∈ mrg.content, 2 * (toPairs w.content).length + 4 + mrg.content.length < fuel) :
    ∃ stq, dmergeF fuel parent mrg sk out st =
        .ok ((mergeSeqFold out (seedFold [] (toPairs parent.content)) mrg.content).1, stq) ∧
      StableDec st stq ∧ stq.mergedFields = none := by
  obtain ⟨f, rfl⟩ : ∃ f, fuel = f + 1 := ⟨fuel - 1, by omega⟩
  obtain ⟨st1, s1, s2, s3⟩ := dmergeSeed_lemma (toPairs parent.content) f (by omega)
    { st with mergedFields := some [] } [] rfl hseed hd hc
  obtain ⟨st2, q1, q2, q3⟩ := dmergeSeq_lemma mrg.content f
    (fun w hw => by have := hf2 w hw; omega)
    sk out (seedFold [] (toPairs parent.content)) st1 hws s3
    (s2.2.2.2.2.trans hd) (s2.2.2.2.1 ▸ hc) (by omega)
  have hA : dmergeF (f + 1) parent mrg sk out st =
      (match dmergeSeqF f mrg.content sk out st1 with
        | .error e => .error e
        | .ok (o, s) => .ok (o, { s with mergedFields := none })) := by
    simp only [dmergeF, hmf]
    rw [s1]
    simp only [hkind]
  refine ⟨{ st2 with mergedFields := none }, ?_, ?_, rfl⟩
  · rw [hA, q1]
  · obtain ⟨a, b, c, d, e⟩ := StableDec.mtrans s2 q2
    exact ⟨a, b, c, d, e⟩

theorem option_map_or {α β : Type} (f : α → β) (a b : Option α) :
    (a.or b).map f = (a.map f).or (b.map f) := by
  cases a <;> simp

theorem findSome_cons_or {α β : Type} (f : α → Option β) (a : α) (l : List α) :
    List.findSome? f (a :: l) = (f a).or (List.findSome? f l) := by
  cases h : f a <;> simp [List.findSome?_cons, h]

theorem mapLookup_append (m1 m2 : List (DValue × DValue)) (k : DValue) :
    mapLookup (m1 ++ m2) k = (mapLookup m1 k).or (mapLookup m2 k) := by
  simp only [mapLookup, List.find?_append, option_map_or]

theorem mapSet_fresh (m : List (DValue × DValue)) (k v : DValue)
    (h : mapLookup m k = none) : mapSet m k v = m ++ [(k, v)] := by
  unfold mapSet
  cases hf : m.find? fun e => DValue.keyEq e.1 k with
  | none => simp [hf]
  | some p => rw [mapLookup, hf] at h; simp at h

theorem mapLookup_single (k v b : DValue) :
    mapLookup [(k, v)] b = if DValue.keyEq k b then some v else none := by
  by_cases h : DValue.keyEq k b <;> simp [mapLookup, List.find?_cons, h]

theorem lastMerge_append : ∀ (xs ys : List (Node × Node)) (mp : Option Node),
    lastMerge mp (xs ++ ys) = lastMerge (lastMerge mp xs) ys := by
  intro xs
  induction xs with
  | nil => intro ys mp; rfl
  | cons p rest ih =>
    obtain ⟨k, v⟩ := p
    intro ys mp
    rw [List.cons_append]
    simp only [lastMerge]
    exact ih ys _

theorem lastMerge_nomerge : ∀ (xs : List (Node × Node)) (mp : Option Node),
    (∀ p ∈ xs, isMerge p.1 = false) → lastMerge mp xs = mp := by
  intro xs
  induction xs with
  | nil => intro mp _; rfl
  | cons p rest ih =>
    obtain ⟨k, v⟩ := p
    intro mp hx
    simp only [lastMerge]
    rw [hx (k, v) (by simp), if_neg Bool.false_ne_true]
    exact ih mp fun q hq => hx q (by simp [hq])

theorem seedFold_mem : ∀ (ps : List (Node × Node)) (fs : List DValue) (x : DValue),
    fieldsMem (seedFold fs ps) x =
      ((ps.any fun p => DValue.keyEq (scalarIfaceVal p.1) x) || fieldsMem fs x) := by
  intro ps
  induction ps with
  | nil => intro fs x; simp [seedFold]
  | cons p rest ih =>
    obtain ⟨k, v⟩ := p
    intro fs x
    simp only [seedFold]
    rw [ih]
    simp only [fieldsMem, List.any_cons]
    cases DValue.keyEq (scalarIfaceVal k) x <;>
      cases rest.any fun p => DValue.keyEq (scalarIfaceVal p.1) x <;>
      cases fs.any fun f => DValue.keyEq f x <;> rfl

theorem mergeSpec_or (direct : List (Node × Node)) (ws : List Node) (k : String) :
    mergeSpec direct ws k =
      ((direct.find? fun p => p.1.value == k).map fun p => scalarIfaceVal p.2).or
        (ws.findSome? fun w =>
          ((toPairs w.content).find? fun p => p.1.value == k).map fun p =>
            scalarIfaceVal p.2) := by
  cases h : direct.find? fun p => p.1.value == k <;> simp [mergeSpec, h]

theorem bindSimplePairs_lookup : ∀ (ds : List (Node × Node)) (m : List (DValue × DValue)),
    (∀ p ∈ ds, mapLookup m (.vstr p.1.value) = none) →
    ((ds.map Prod.fst).Pairwise fun a b => a.value ≠ b.value) →
    ∀ t : String, mapLookup (bindSimplePairs m ds) (.vstr t) =
      (mapLookup m (.vstr t)).or
        ((ds.find? fun p => p.1.value == t).map fun p => scalarIfaceVal p.2) := by
  intro ds
  induction ds with
  | nil => intro m hfresh hdist t; simp [bindSimplePairs]
  | cons p rest ih =>
    obtain ⟨k, v⟩ := p
    intro m hfresh hdist t
    simp only [List.map_cons, List.pairwise_cons] at hdist
    have hk0 : mapLookup m (.vstr k.value) = none := hfresh (k, v) (by simp)
    have hset := mapSet_fresh m (.vstr k.value) (scalarIfaceVal v) hk0
    have hfresh2 : ∀ p ∈ rest, mapLookup (m ++ [(.vstr k.value, scalarIfaceVal v)])
        (.vstr p.1.value) = none := by
      intro q hq
      rw [mapLookup_append, hfresh q (by simp [hq]), mapLookup_single]
      have hne : k.value ≠ q.1.value := hdist.1 q.1 (List.mem_map_of_mem Prod.fst hq)
      simp [DValue.keyEq, hne]
    simp only [bindSimplePairs, hset]
    have hih := ih (m ++ [(DValue.vstr k.value, scalarIfaceVal v)]) hfresh2 hdist.2 t
    rw [hih]
    rw [mapLookup_append, mapLookup_single, Option.or_assoc]
    by_cases hkt : k.value = t
    · rw [List.find?_cons_of_pos _ (by simp [hkt])]
      simp [DValue.keyEq, hkt]
    · rw [List.find?_cons_of_neg _ (by simp [hkt])]
      simp [DValue.keyEq, hkt]

theorem or_of_isSome {α : Type} (a : Option α) (b : Option α)
    (h : a.isSome = true) : a.or b = a := by
  cases a with
  | none => simp at h
  | some x => rfl

theorem mergeStep_lookup : ∀ (qs : List (Node × Node)) (m : List (DValue × DValue))
    (fs : List DValue),
    (∀ t : String, t ≠ "<<" → fieldsMem fs (.vstr t) = (mapLookup m (.vstr t)).isSome) →
    (∀ p ∈ qs, p.1.value ≠ "<<") →
    (∀ t : String, t ≠ "<<" →
      mapLookup (mergeStepPairs m fs qs).1 (.vstr t) =
        (mapLookup m (.vstr t)).or
          ((qs.find? fun p => p.1.value == t).map fun p => scalarIfaceVal p.2)) ∧
    (∀ t : String, t ≠ "<<" →
      fieldsMem (mergeStepPairs m fs qs).2 (.vstr t) =
        (mapLookup (mergeStepPairs m fs qs).1 (.vstr t)).isSome) := by
  intro qs
  induction qs with
  | nil =>
    intro m fs hsync hnm
    refine ⟨fun t ht => ?_, fun t ht => ?_⟩
    · simp [mergeStepPairs]
    · simpa [mergeStepPairs] using hsync t ht
  | cons p rest ih =>
    obtain ⟨k, v⟩ := p
    intro m fs hsync hnm
    have hknm : k.value ≠ "<<" := hnm (k, v) (by simp)
    by_cases hmem : fieldsMem fs (.vstr k.value) = true
    · have hsome : (mapLookup m (.vstr k.value)).isSome = true :=
        (hsync k.value hknm).symm.trans hmem
      have hstep : mergeStepPairs m fs ((k, v) :: rest) = mergeStepPairs m fs rest := by
        simp only [mergeStepPairs, hmem, if_true]
      obtain ⟨ih1, ih2⟩ := ih m fs hsync (fun q hq => hnm q (by simp [hq]))
      refine ⟨fun t ht => ?_, fun t ht => ?_⟩
      · rw [hstep, ih1 t ht]
        by_cases hkt : k.value = t
        · rw [List.find?_cons_of_pos _ (by simp [hkt])]
          rw [← hkt]
          rw [or_of_isSome _ _ hsome, or_of_isSome _ _ hsome]
        · rw [List.find?_cons_of_neg _ (by simp [hkt])]
      · rw [hstep]; exact ih2 t ht
    · have hnone : mapLookup m (.vstr k.value) = none := by
        have := (hsync k.value hknm).symm
        rw [Bool.not_eq_true] at hmem
        rw [hmem] at this
        exact Option.not_isSome_iff_eq_none.1 (by simp [this])
      have hset := mapSet_fresh m (.vstr k.value) (scalarIfaceVal v) hnone
      have hstep : mergeStepPairs m fs ((k, v) :: rest) =
          mergeStepPairs (m ++ [(DValue.vstr k.value, scalarIfaceVal v)])
            (DValue.vstr k.value :: fs) rest := by
        simp only [mergeStepPairs, hmem, if_false, Bool.false_eq_true, hset]
      have hsync2 : ∀ t : String, t ≠ "<<" →
          fieldsMem (DValue.vstr k.value :: fs) (.vstr t) =
            (mapLookup (m ++ [(DValue.vstr k.value, scalarIfaceVal v)]) (.vstr t)).isSome := by
        intro t ht
        rw [mapLookup_append, mapLookup_single]
        simp only [fieldsMem, List.any_cons]
        rw [← fieldsMem, hsync t ht]
        by_cases hkt : k.value = t
        · simp [DValue.keyEq, hkt, hkt ▸ hnone]
        · simp [DValue.keyEq, hkt]
      obtain ⟨ih1, ih2⟩ := ih (m ++ [(DValue.vstr k.value, scalarIfaceVal v)])
        (DValue.vstr k.value :: fs) hsync2 (fun q hq => hnm q (by simp [hq]))
      refine ⟨fun t ht => ?_, fun t ht => ?_⟩
      · rw [hstep, ih1 t ht, mapLookup_append, mapLookup_single, Option.or_assoc]
        by_cases hkt : k.value = t
        · rw [List.find?_cons_of_pos _ (by simp [hkt])]
          simp only [DValue.keyEq, hkt]
          have : mapLookup m (.vstr t) = none := hkt ▸ hnone
          simp [this]
        · rw [List.find?_cons_of_neg _ (by simp [hkt])]
          simp [DValue.keyEq, hkt]
      · rw [hstep]; exact ih2 t ht

theorem mergeSeqFold_lookup : ∀ (ws : List Node) (m : List (DValue × DValue))
    (fs : List DValue),
    (∀ t : String, t ≠ "<<" → fieldsMem fs (.vstr t) = (mapLookup m (.vstr t)).isSome) →
    (∀ w ∈ ws, ∀ p ∈ toPairs w.content, p.1.value ≠ "<<") →
    ∀ t : String, t ≠ "<<" →
      mapLookup (mergeSeqFold m fs ws).1 (.vstr t) =
        (mapLookup m (.vstr t)).or
          (ws.findSome? fun w =>
            ((toPairs w.content).find? fun p => p.1.value == t).map fun p =>
              scalarIfaceVal p.2) := by
  intro ws
  induction ws with
  | nil => intro m fs hsync hnm t ht; simp [mergeSeqFold]
  | cons w rest ih =>
    intro m fs hsync hnm t ht
    obtain ⟨s1, s2⟩ := mergeStep_lookup (toPairs w.content) m fs hsync
      (fun q hq => hnm w (by simp) q hq)
    have hrec := ih (mergeStepPairs m fs (toPairs w.content)).1
      (mergeStepPairs m fs (toPairs w.content)).2 s2
      (fun w' hw' => hnm w' (by simp [hw'])) t ht
    simp only [mergeSeqFold]
    rw [hrec, s1 t ht, findSome_cons_or, Option.or_assoc]

-- Decoding (into interface) a mapping whose pairs are simple entries around a
-- single merge key whose value is a sequence of simple mappings: the pair
-- loop binds the direct entries and parks the merge value, the merge seeds
-- `mergedFields` from the parent keys and folds the sequence elements.
theorem unm_merge_top (fuel : Nat) (parent mk mv : Node)
    (A B : List (Node × Node)) (st : DecState)
    (hparent : parent.kind = .mappingNode)
    (htp : toPairs parent.content = A ++ [(mk, mv)] ++ B)
    (hA : ∀ p ∈ A, SimplePair p) (hB : ∀ p ∈ B, SimplePair p)
    (hmk : isMerge mk = true)
    (hmv : mv.kind = .sequenceNode)
    (hws : ∀ w ∈ mv.content, w.kind = .mappingNode ∧
      (∀ p ∈ toPairs w.content, SimplePair p) ∧
      ((toPairs w.content).map Prod.fst).Pairwise fun a b => a.value ≠ b.value)
    (hdk : ((toPairs parent.content).map Prod.fst).Pairwise fun a b => a.value ≠ b.value)
    (hmf : st.mergedFields = none)
    (hd : st.aliasDepth = 0) (hc : st.aliasCount ≤ 100)
    (hf1 : 2 * (toPairs parent.content).length + 6 < fuel)
    (hf2 : ∀ w ∈ mv.content, 2 * (toPairs w.content).length + 7 + mv.content.length < fuel) :
    ∃ stq, unmF fuel .iface parent st =
      .ok (some (.vmap (mergeSeqFold (bindSimplePairs [] (A ++ B))
          (seedFold [] (toPairs parent.content)) mv.content).1), stq) ∧
      StableDec st stq ∧ stq.mergedFields = none := by
  obtain ⟨f3, rfl⟩ : ∃ f3, fuel = f3 + 3 := ⟨fuel - 3, by omega⟩
  have hguard := aliasGuard_calm parent (some (Target.typeName .iface)) st hd hc
  have hseed : ∀ p ∈ toPairs parent.content, isMerge p.1 = true ∨ SimplePair p := by
    intro p hp
    rw [htp] at hp
    rcases List.mem_append.1 hp with hp1 | hp2
    · rcases List.mem_append.1 hp1 with hpa | hpm
      · exact .inr (hA p hpa)
      · simp only [List.mem_singleton] at hpm
        exact .inl (by rw [hpm]; exact hmk)
    · exact .inr (hB p hp2)
  have hkeysc : ∀ k ∈ (toPairs parent.content).map Prod.fst, k.kind = .scalarNode := by
    intro k hk
    obtain ⟨p, hp, rfl⟩ := List.mem_map.1 hk
    rcases hseed p hp with hm | hs
    · exact (isMerge_scalarIfaceVal p.1 hm).1
    · exact hs.1
  have hdups := dupErrors_nil ((toPairs parent.content).map Prod.fst)
    (some (Target.typeName .iface)) hkeysc hdk
  obtain ⟨st3, h1, h2, h3⟩ := dmapPairs_mixed (toPairs parent.content) f3
    (by omega) (isStringMap parent) true [] none
    { st with decodeCount := st.decodeCount + 1, mergedFields := none }
    hseed hd hc
  have hdir : directEntries (toPairs parent.content) = A ++ B := by
    rw [htp]
    simp only [directEntries, List.filter_append]
    have hmid : List.filter (fun p => !isMerge p.1) [(mk, mv)] = [] := by simp [hmk]
    rw [hmid, List.append_nil]
    rw [List.filter_eq_self.2 (fun p hp => by rw [(hA p hp).2.2.1]; rfl)]
    rw [List.filter_eq_self.2 (fun p hp => by rw [(hB p hp).2.2.1]; rfl)]
  have hlast : lastMerge none (toPairs parent.content) = some mv := by
    rw [htp, lastMerge_append, lastMerge_append]
    rw [lastMerge_nomerge A none (fun p hp => (hA p hp).2.2.1)]
    have hmid : lastMerge none [(mk, mv)] = some mv := by
      simp [lastMerge, hmk]
    rw [hmid, lastMerge_nomerge B (some mv) (fun p hp => (hB p hp).2.2.1)]
  rw [hdir, hlast] at h1
  have hd3 : ({ st3 with mergedFields := none } : DecState).aliasDepth = 0 :=
    h2.2.2.2.2.trans hd
  have hc3 : ({ st3 with mergedFields := none } : DecState).aliasCount ≤ 100 :=
    h2.2.2.2.1 ▸ hc
  obtain ⟨stq, hm1, hm2, hm3⟩ := dmerge_seq_top f3 parent mv (isStringMap parent)
    (bindSimplePairs [] (A ++ B)) { st3 with mergedFields := none }
    hmv hseed hws rfl hd3 hc3 (by omega)
    (fun w hw => by have := hf2 w hw; omega)
  have hcore : dmapCoreF (f3 + 1) parent (isStringMap parent) [] true
      { st with decodeCount := st.decodeCount + 1 } =
      (match dmergeF f3 parent mv (isStringMap parent) (bindSimplePairs [] (A ++ B))
          { st3 with mergedFields := none } with
        | .error e => .error e
        | .ok (mm, s) => .ok (some (.vmap mm), s)) := by
    simp only [dmapCoreF, hmf]
    rw [h1]
  have hmap : dmappingF (f3 + 2) parent .iface
      { st with decodeCount := st.decodeCount + 1 } =
      .ok (some (.vmap (mergeSeqFold (bindSimplePairs [] (A ++ B))
          (seedFold [] (toPairs parent.content)) mv.content).1), stq) := by
    simp only [dmappingF, hdups, ite_self, List.append_nil]
    rw [if_neg (by simp)]
    rw [hcore, hm1]
  refine ⟨stq, ?_, ?_, hm3⟩
  · simp only [unmF, hguard, hparent]
    exact hmap
  · have hb : StableDec st { st with decodeCount := st.decodeCount + 1, mergedFields := none } :=
      ⟨rfl, rfl, rfl, rfl, rfl⟩
    have hmid2 : StableDec st3 ({ st3 with mergedFields := none } : DecState) :=
      ⟨rfl, rfl, rfl, rfl, rfl⟩
    exact StableDec.mtrans (StableDec.mtrans (StableDec.mtrans hb h2) hmid2) hm2

theorem anyCongr {α : Type} (l : List α) (p q : α → Bool)
    (h : ∀ a ∈ l, p a = q a) : l.any p = l.any q := by
  induction l with
  | nil => rfl
  | cons a t ih =>
    simp only [List.any_cons]
    rw [h a (by simp), ih fun b hb => h b (by simp [hb])]

theorem isSomeMap {α β : Type} (f : α → β) (o : Option α) :
    (o.map f).isSome = o.isSome := by
  cases o <;> rfl

theorem find_isSome_any {α : Type} (l : List α) (p : α → Bool) :
    (l.find? p).isSome = l.any p := by
  induction l with
  | nil => rfl
  | cons a t ih => by_cases h : p a <;> simp [List.find?_cons, h, ih]

-- The initial `mergedFields` seeding over the parent's keys marks exactly
-- the direct keys (plus the merge key text) as bound, in sync with the map
-- the direct pair loop produced.
theorem seed_sync (parent mk mv : Node) (A B : List (Node × Node))
    (htp : toPairs parent.content = A ++ [(mk, mv)] ++ B)
    (hA : ∀ p ∈ A, SimplePair p) (hB : ∀ p ∈ B, SimplePair p)
    (hmk : isMerge mk = true)
    (hdkAB : ((A ++ B).map Prod.fst).Pairwise fun a b => a.value ≠ b.value) :
    ∀ t : String, t ≠ "<<" →
      fieldsMem (seedFold [] (toPairs parent.content)) (.vstr t) =
        (mapLookup (bindSimplePairs [] (A ++ B)) (.vstr t)).isSome := by
  intro t ht
  have hbind := bindSimplePairs_lookup (A ++ B) []
    (fun p _ => rfl) hdkAB t
  rw [hbind]
  have hnil : mapLookup [] (DValue.vstr t) = none := rfl
  rw [hnil, Option.none_or, isSomeMap, find_isSome_any]
  rw [seedFold_mem, htp]
  have hmem : fieldsMem [] (DValue.vstr t) = false := rfl
  rw [hmem, Bool.or_false]
  simp only [List.any_append]
  have hone : [(mk, mv)].any (fun p => DValue.keyEq (scalarIfaceVal p.1) (.vstr t)) = false := by
    obtain ⟨_, _, hsv⟩ := isMerge_scalarIfaceVal mk hmk
    simp [hsv, DValue.keyEq, Ne.symm ht]
  rw [hone, Bool.or_false]
  rw [anyCongr A _ (fun p => p.1.value == t) ?hA2, anyCongr B _ (fun p => p.1.value == t) ?hB2]
  case hA2 =>
    intro p hp
    rw [scalarIfaceVal_strTag p.1 (hA p hp).1 (hA p hp).2.1]
    simp [DValue.keyEq]
  case hB2 =>
    intro p hp
    rw [scalarIfaceVal_strTag p.1 (hB p hp).1 (hB p hp).2.1]
    simp [DValue.keyEq]

/-- C5: when a mapping containing a merge key is unmarshaled (simple
scalar entries, merge value a sequence of simple mappings), every key
that appears directly in the mapping keeps its direct value — merged
values never overwrite it — and when several merged mappings supply the
same key, the mapping occurring earliest in list order wins: the decoded
map agrees at every key text with the spec's union semantics
`mergeSpec`, which tries the direct entries first and then the merged
mappings in list order. -/
theorem C5_merge_precedence (fuel : Nat) (parent mk mv : Node)
    (A B : List (Node × Node)) (st : DecState)
    (hparent : parent.kind = .mappingNode)
    (htp : toPairs parent.content = A ++ [(mk, mv)] ++ B)
    (hA : ∀ p ∈ A, SimplePair p) (hB : ∀ p ∈ B, SimplePair p)
    (hmk : isMerge mk = true)
    (hmv : mv.kind = .sequenceNode)
    (hws : ∀ w ∈ mv.content, w.kind = .mappingNode ∧
      (∀ p ∈ toPairs w.content, SimplePair p) ∧
      ((toPairs w.content).map Prod.fst).Pairwise fun a b => a.value ≠ b.value)
    (hnm : ∀ w ∈ mv.content, ∀ p ∈ toPairs w.content, p.1.value ≠ "<<")
    (hdk : ((toPairs parent.content).map Prod.fst).Pairwise fun a b => a.value ≠ b.value)
    (hmf : st.mergedFields = none)
    (hd : st.aliasDepth = 0) (hc : st.aliasCount ≤ 100)
    (hf1 : 2 * (toPairs parent.content).length + 6 < fuel)
    (hf2 : ∀ w ∈ mv.content, 2 * (toPairs w.content).length + 7 + mv.content.length < fuel) :
    ∃ out stq, unmF fuel .iface parent st = .ok (some (.vmap out), stq) ∧
      ∀ t : String, t ≠ "<<" →
        mapLookup out (.vstr t) = mergeSpec (A ++ B) mv.content t := by
  obtain ⟨stq, h1, _, _⟩ := unm_merge_top fuel parent mk mv A B st hparent htp
    hA hB hmk hmv hws hdk hmf hd hc hf1 hf2
  refine ⟨_, stq, h1, ?_⟩
  intro t ht
  have hdkAB : ((A ++ B).map Prod.fst).Pairwise fun a b => a.value ≠ b.value := by
    have hsub : List.Sublist ((A ++ B).map Prod.fst) ((A ++ [(mk, mv)] ++ B).map Prod.fst) :=
      List.Sublist.map Prod.fst
        (List.Sublist.append (List.sublist_append_left A [(mk, mv)]) (List.Sublist.refl B))
    exact (htp ▸ hdk).sublist hsub
  have hsync := seed_sync parent mk mv A B htp hA hB hmk hdkAB
  rw [mergeSeqFold_lookup mv.content _ _ hsync hnm t ht]
  have hbind := bindSimplePairs_lookup (A ++ B) [] (fun p _ => rfl) hdkAB t
  rw [hbind]
  have hnil : mapLookup [] (DValue.vstr t) = none := rfl
  rw [hnil, Option.none_or, mergeSpec_or]

/-- C5 witness: decoding `{a: 1, <<: [{a: 9, x: 10}, {x: 20, y: 30}]}`
yields a map agreeing with the spec union semantics (direct `a: 1` wins,
`x` comes from the earlier merged mapping, `y` from the later). -/
theorem C5_merge_precedence_witness :
    ∃ out stq, unmF 40 .iface c5parent newDecoderState = .ok (some (.vmap out), stq) ∧
      ∀ t : String, t ≠ "<<" →
        mapLookup out (.vstr t) = mergeSpec (c5A ++ []) c5mv.content t :=
  C5_merge_precedence 40 c5parent mergeKeyNode c5mv c5A [] newDecoderState
    rfl rfl (by decide) (by simp) rfl rfl (by decide) (by decide) (by decide)
    rfl rfl (by decide) (by decide) (by decide)

-- `decoder.merge` on a single simple mapping value: seed `mergedFields`
-- from the parent mapping, then run one merge step over the value's pairs.
theorem dmerge_map_top (fuel : Nat) (parent mrg : Node) (sk : Bool)
    (out : List (DValue × DValue)) (st : DecState)
    (hkind : mrg.kind = .mappingNode)
    (hseed : ∀ p ∈ toPairs parent.content, isMerge p.1 = true ∨ SimplePair p)
    (hwp : ∀ p ∈ toPairs mrg.content, SimplePair p)
    (hwd : ((toPairs mrg.content).map Prod.fst).Pairwise fun a b => a.value ≠ b.value)
    (hmf : st.mergedFields = none)
    (hd : st.aliasDepth = 0) (hc : st.aliasCount ≤ 100)
    (hf1 : (toPairs parent.content).length + 2 < fuel)
    (hf2 : 2 * (toPairs mrg.content).length + 4 < fuel) :
    ∃ stq, dmergeF fuel parent mrg sk out st =
        .ok ((mergeStepPairs out (seedFold [] (toPairs parent.content))
          (toPairs mrg.content)).1, stq) ∧
      StableDec st stq ∧ stq.mergedFields = none := by
  obtain ⟨f, rfl⟩ : ∃ f, fuel = f + 1 := ⟨fuel - 1, by omega⟩
  obtain ⟨st1, s1, s2, s3⟩ := dmergeSeed_lemma (toPairs parent.content) f (by omega)
    { st with mergedFields := some [] } [] rfl hseed hd hc
  obtain ⟨st2, q1, q2, q3⟩ := unm_w_tmap f mrg sk out
    (seedFold [] (toPairs parent.content)) st1
    hkind hwp hwd s3 (s2.2.2.2.2.trans hd) (s2.2.2.2.1 ▸ hc) (by omega)
  have hA : dmergeF (f + 1) parent mrg sk out st =
      (match
          ((match unmF f (.tmap sk out) mrg st1 with
            | Except.error e => Except.error e
            | Except.ok (v, s) =>
              match v with
              | some (.vmap o) => Except.ok (o, s)
              | _ => Except.ok (out, s)) :
            Except Failure (List (DValue × DValue) × DecState)) with
        | Except.error e => Except.error e
        | Except.ok (o, s) => Except.ok (o, { s with mergedFields := none })) := by
    simp only [dmergeF, hmf]
    rw [s1]
    simp only [hkind]
  refine ⟨{ st2 with mergedFields := none }, ?_, ?_, rfl⟩
  · rw [hA, q1]
  · obtain ⟨a, b, c, d, e⟩ :=
      StableDec.mtrans (StableDec.mtrans (⟨rfl, rfl, rfl, rfl, rfl⟩ :
        StableDec st { st with mergedFields := some [] }) s2) q2
    exact ⟨a, b, c, d, e⟩

-- Decoding (into interface) a mapping whose pairs are simple entries around
-- a single merge key whose value is itself a simple mapping.
theorem unm_merge_map_top (fuel : Nat) (parent mk mv : Node)
    (A B : List (Node × Node)) (st : DecState)
    (hparent : parent.kind = .mappingNode)
    (htp : toPairs parent.content = A ++ [(mk, mv)] ++ B)
    (hA : ∀ p ∈ A, SimplePair p) (hB : ∀ p ∈ B, SimplePair p)
    (hmk : isMerge mk = true)
    (hmv : mv.kind = .mappingNode)
    (hwp : ∀ p ∈ toPairs mv.content, SimplePair p)
    (hwd : ((toPairs mv.content).map Prod.fst).Pairwise fun a b => a.value ≠ b.value)
    (hdk : ((toPairs parent.content).map Prod.fst).Pairwise fun a b => a.value ≠ b.value)
    (hmf : st.mergedFields = none)
    (hd : st.aliasDepth = 0) (hc : st.aliasCount ≤ 100)
    (hf1 : 2 * (toPairs parent.content).length + 6 < fuel)
    (hf2 : 2 * (toPairs mv.content).length + 7 < fuel) :
    ∃ stq, unmF fuel .iface parent st =
      .ok (some (.vmap (mergeStepPairs (bindSimplePairs [] (A ++ B))
          (seedFold [] (toPairs parent.content)) (toPairs mv.content)).1), stq) ∧
      StableDec st stq ∧ stq.mergedFields = none := by
  obtain ⟨f3, rfl⟩ : ∃ f3, fuel = f3 + 3 := ⟨fuel - 3, by omega⟩
  have hguard := aliasGuard_calm parent (some (Target.typeName .iface)) st hd hc
  have hseed : ∀ p ∈ toPairs parent.content, isMerge p.1 = true ∨ SimplePair p := by
    intro p hp
    rw [htp] at hp
    rcases List.mem_append.1 hp with hp1 | hp2
    · rcases List.mem_append.1 hp1 with hpa | hpm
      · exact .inr (hA p hpa)
      · simp only [List.mem_singleton] at hpm
        exact .inl (by rw [hpm]; exact hmk)
    · exact .inr (hB p hp2)
  have hkeysc : ∀ k ∈ (toPairs parent.content).map Prod.fst, k.kind = .scalarNode := by
    intro k hk
    obtain ⟨p, hp, rfl⟩ := List.mem_map.1 hk
    rcases hseed p hp with hm | hs
    · exact (isMerge_scalarIfaceVal p.1 hm).1
    · exact hs.1
  have hdups := dupErrors_nil ((toPairs parent.content).map Prod.fst)
    (some (Target.typeName .iface)) hkeysc hdk
  obtain ⟨st3, h1, h2, h3⟩ := dmapPairs_mixed (toPairs parent.content) f3
    (by omega) (isStringMap parent) true [] none
    { st with decodeCount := st.decodeCount + 1, mergedFields := none }
    hseed hd hc
  have hdir : directEntries (toPairs parent.content) = A ++ B := by
    rw [htp]
    simp only [directEntries, List.filter_append]
    have hmid : List.filter (fun p => !isMerge p.1) [(mk, mv)] = [] := by simp [hmk]
    rw [hmid, List.append_nil]
    rw [List.filter_eq_self.2 (fun p hp => by rw [(hA p hp).2.2.1]; rfl)]
    rw [List.filter_eq_self.2 (fun p hp => by rw [(hB p hp).2.2.1]; rfl)]
  have hlast : lastMerge none (toPairs parent.content) = some mv := by
    rw [htp, lastMerge_append, lastMerge_append]
    rw [lastMerge_nomerge A none (fun p hp => (hA p hp).2.2.1)]
    have hmid : lastMerge none [(mk, mv)] = some mv := by
      simp [lastMerge, hmk]
    rw [hmid, lastMerge_nomerge B (some mv) (fun p hp => (hB p hp).2.2.1)]
  rw [hdir, hlast] at h1
  have hd3 : ({ st3 with mergedFields := none } : DecState).aliasDepth = 0 :=
    h2.2.2.2.2.trans hd
  have hc3 : ({ st3 with mergedFields := none } : DecState).aliasCount ≤ 100 :=
    h2.2.2.2.1 ▸ hc
  obtain ⟨stq, hm1, hm2, hm3⟩ := dmerge_map_top f3 parent mv (isStringMap parent)
    (bindSimplePairs [] (A ++ B)) { st3 with mergedFields := none }
    hmv hseed hwp hwd rfl hd3 hc3 (by omega) (by omega)
  have hcore : dmapCoreF (f3 + 1) parent (isStringMap parent) [] true
      { st with decodeCount := st.decodeCount + 1 } =
      (match dmergeF f3 parent mv (isStringMap parent) (bindSimplePairs [] (A ++ B))
          { st3 with mergedFields := none } with
        | .error e => .error e
        | .ok (mm, s) => .ok (some (.vmap mm), s)) := by
    simp only [dmapCoreF, hmf]
    rw [h1]
  have hmap : dmappingF (f3 + 2) parent .iface
      { st with decodeCount := st.decodeCount + 1 } =
      .ok (some (.vmap (mergeStepPairs (bindSimplePairs [] (A ++ B))
          (seedFold [] (toPairs parent.content)) (toPairs mv.content)).1), stq) := by
    simp only [dmappingF, hdups, ite_self, List.append_nil]
    rw [if_neg (by simp)]
    rw [hcore, hm1]
  refine ⟨stq, ?_, ?_, hm3⟩
  · simp only [unmF, hguard, hparent]
    exact hmap
  · have hb : StableDec st { st with decodeCount := st.decodeCount + 1, mergedFields := none } :=
      ⟨rfl, rfl, rfl, rfl, rfl⟩
    have hmid2 : StableDec st3 ({ st3 with mergedFields := none } : DecState) :=
      ⟨rfl, rfl, rfl, rfl, rfl⟩
    exact StableDec.mtrans (StableDec.mtrans (StableDec.mtrans hb h2) hmid2) hm2

/-- C4: a mapping key triggers merge-key semantics exactly when it is a
scalar node whose value is `<<` and whose tag is empty, `!`, or resolves
to the merge tag `tag:yaml.org,2002:merge` (whose short form is
`!!merge`); such a key's value is parked by the pair loop — the map is
left untouched, the pending merge value is overridden — instead of being
bound as an ordinary entry, and after the pair loop the parked value's
entries are merged into the enclosing mapping (direct keys kept, merged
keys added, per the spec union semantics `mergeSpec`). -/
theorem C4_merge_key_trigger :
    (∀ n : Node, isMerge n = true ↔
      (n.kind = .scalarNode ∧ n.value = "<<" ∧
        (n.tag = "" ∨ n.tag = "!" ∨ shortTag n.tag = mergeTag))) ∧
    shortTag "tag:yaml.org,2002:merge" = mergeTag ∧
    (∀ (fuel : Nat) (kN vN : Node) (rest : List (Node × Node)) (sk new : Bool)
        (m : List (DValue × DValue)) (mf : Option (List DValue)) (mp : Option Node)
        (st : DecState), isMerge kN = true →
      dmapPairsF (fuel + 1) ((kN, vN) :: rest) sk m new mf mp st =
        dmapPairsF fuel rest sk m new mf (some vN) st) ∧
    (∀ (fuel : Nat) (parent mk mv : Node) (A B : List (Node × Node)) (st : DecState),
      parent.kind = .mappingNode →
      toPairs parent.content = A ++ [(mk, mv)] ++ B →
      (∀ p ∈ A, SimplePair p) → (∀ p ∈ B, SimplePair p) →
      isMerge mk = true →
      mv.kind = .mappingNode →
      (∀ p ∈ toPairs mv.content, SimplePair p) →
      (∀ p ∈ toPairs mv.content, p.1.value ≠ "<<") →
      ((toPairs mv.content).map Prod.fst).Pairwise (fun a b => a.value ≠ b.value) →
      ((toPairs parent.content).map Prod.fst).Pairwise (fun a b => a.value ≠ b.value) →
      st.mergedFields = none → st.aliasDepth = 0 → st.aliasCount ≤ 100 →
      2 * (toPairs parent.content).length + 6 < fuel →
      2 * (toPairs mv.content).length + 7 < fuel →
      ∃ out stq, unmF fuel .iface parent st = .ok (some (.vmap out), stq) ∧
        ∀ t : String, t ≠ "<<" →
          mapLookup out (.vstr t) = mergeSpec (A ++ B) [mv] t) := by
  refine ⟨?_, by decide, ?_, ?_⟩
  · intro n
    simp [isMerge, and_assoc, or_assoc]
  · intro fuel kN vN rest sk new m mf mp st h
    simp [dmapPairsF, h]
  · intro fuel parent mk mv A B st hparent htp hA hB hmk hmv hwp hnm hwd hdk
      hmf hd hc hf1 hf2
    obtain ⟨stq, h1, _, _⟩ := unm_merge_map_top fuel parent mk mv A B st hparent htp
      hA hB hmk hmv hwp hwd hdk hmf hd hc hf1 hf2
    refine ⟨_, stq, h1, ?_⟩
    intro t ht
    have hdkAB : ((A ++ B).map Prod.fst).Pairwise fun a b => a.value ≠ b.value := by
      have hsub : List.Sublist ((A ++ B).map Prod.fst) ((A ++ [(mk, mv)] ++ B).map Prod.fst) :=
        List.Sublist.map Prod.fst
          (List.Sublist.append (List.sublist_append_left A [(mk, mv)]) (List.Sublist.refl B))
      exact (htp ▸ hdk).sublist hsub
    have hsync := seed_sync parent mk mv A B htp hA hB hmk hdkAB
    have hnm1 : ∀ w ∈ [mv], ∀ p ∈ toPairs w.content, p.1.value ≠ "<<" := by
      intro w hw
      simp only [List.mem_singleton] at hw
      rw [hw]
      exact hnm
    have hone : (mergeStepPairs (bindSimplePairs [] (A ++ B))
        (seedFold [] (toPairs parent.content)) (toPairs mv.content)).1 =
        (mergeSeqFold (bindSimplePairs [] (A ++ B))
          (seedFold [] (toPairs parent.content)) [mv]).1 := rfl
    rw [hone, mergeSeqFold_lookup [mv] _ _ hsync hnm1 t ht]
    have hbind := bindSimplePairs_lookup (A ++ B) [] (fun p _ => rfl) hdkAB t
    rw [hbind]
    have hnil : mapLookup [] (DValue.vstr t) = none := rfl
    rw [hnil, Option.none_or, mergeSpec_or]

/-- C4 witness: the composed merge key `<<` satisfies the trigger
condition, its pair is parked rather than bound, and decoding
`{a: 1, <<: {a: 9, x: 20}}` merges the value's entries under the direct
ones. -/
theorem C4_merge_key_trigger_witness :
    (isMerge mergeKeyNode = true ↔
      (mergeKeyNode.kind = .scalarNode ∧ mergeKeyNode.value = "<<" ∧
        (mergeKeyNode.tag = "" ∨ mergeKeyNode.tag = "!" ∨
          shortTag mergeKeyNode.tag = mergeTag))) ∧
    (dmapPairsF 1 [(mergeKeyNode, c4w)] false [] true none none newDecoderState =
      dmapPairsF 0 [] false [] true none (some c4w) newDecoderState) ∧
    (∃ out stq, unmF 40 .iface c4parent newDecoderState = .ok (some (.vmap out), stq) ∧
      ∀ t : String, t ≠ "<<" →
        mapLookup out (.vstr t) = mergeSpec (c4A ++ []) [c4w] t) :=
  ⟨C4_merge_key_trigger.1 mergeKeyNode,
   C4_merge_key_trigger.2.2.1 0 mergeKeyNode c4w [] false true [] none none
     newDecoderState (by decide),
   C4_merge_key_trigger.2.2.2 40 c4parent mergeKeyNode c4w c4A [] newDecoderState
     rfl rfl (by decide) (by simp) (by decide) rfl (by decide) (by decide) (by decide)
     (by decide) rfl rfl (by decide) (by decide) (by decide)⟩

theorem typeName_tmap_indep (sk : Bool) (o1 o2 : List (DValue × DValue)) :
    (Target.tmap sk o1).typeName = (Target.tmap sk o2).typeName := by
  cases sk <;> rfl

/-- The alias guard inside an alias expansion: both counters bump, and
the excessive-aliasing check passes while the alias counter stays within
budget. -/
theorem aliasGuard_inAlias (n : Node) (typ : Option String) (st : DecState)
    (hd : st.aliasDepth = 1) (hc : st.aliasCount < 100) :
    aliasGuard n typ st =
      .ok { st with decodeCount := st.decodeCount + 1, aliasCount := st.aliasCount + 1 } := by
  simp only [aliasGuard, gt_iff_lt, hd]
  norm_num
  omega

/-- An interface-target decode of a scalar inside an alias expansion. -/
theorem unm_scalar_iface_inAlias (fuel : Nat) (n : Node) (st : DecState)
    (hn : n.kind = .scalarNode) (hd : st.aliasDepth = 1) (hc : st.aliasCount < 100) :
    unmF (fuel+1) .iface n st =
      .ok (some (scalarIfaceVal n),
        { st with decodeCount := st.decodeCount + 1, aliasCount := st.aliasCount + 1 }) := by
  have hguard := aliasGuard_inAlias n (some (Target.typeName .iface)) st hd hc
  have hsc : dscalar n .iface
      { st with decodeCount := st.decodeCount + 1, aliasCount := st.aliasCount + 1 } =
      (some (scalarIfaceVal n),
        { st with decodeCount := st.decodeCount + 1, aliasCount := st.aliasCount + 1 }) := by
    simp only [dscalar]
    have htr : (if n.indicatedString then (strTag, DValue.vstr n.value)
        else resolve n.tag n.value).2 = scalarIfaceVal n := by
      unfold scalarIfaceVal
      cases hi : n.indicatedString <;> simp [hi]
    rw [htr]
    cases hv : scalarIfaceVal n <;> rfl
  simp only [unmF, hguard, hn, hsc]

/-- A string-target decode of a `!!str` scalar inside an alias expansion. -/
theorem unm_scalar_tstr_inAlias (fuel : Nat) (n : Node) (st : DecState)
    (hn : n.kind = .scalarNode) (ht : n.ShortTag = strTag)
    (hd : st.aliasDepth = 1) (hc : st.aliasCount < 100) :
    unmF (fuel+1) .tstr n st =
      .ok (some (.vstr n.value),
        { st with decodeCount := st.decodeCount + 1, aliasCount := st.aliasCount + 1 }) := by
  have hguard := aliasGuard_inAlias n (some (Target.typeName .tstr)) st hd hc
  have hsc : dscalar n .tstr
      { st with decodeCount := st.decodeCount + 1, aliasCount := st.aliasCount + 1 } =
      (some (.vstr n.value),
        { st with decodeCount := st.decodeCount + 1, aliasCount := st.aliasCount + 1 }) := by
    simp only [dscalar]
    rw [if_pos (indicatedString_strTag n hn ht)]
  simp only [unmF, hguard, hn, hsc]

/-- Key decode inside an alias expansion. -/
theorem key_decode_simple_inAlias (fuel : Nat) (k : Node) (sk : Bool) (st : DecState)
    (hk : k.kind = .scalarNode) (ht : k.ShortTag = strTag)
    (hd : st.aliasDepth = 1) (hc : st.aliasCount < 100) :
    unmF (fuel+1) (if sk then .tstr else .iface) k st =
      .ok (some (.vstr k.value),
        { st with decodeCount := st.decodeCount + 1, aliasCount := st.aliasCount + 1 }) := by
  cases sk
  · simp only [if_false, Bool.false_eq_true]
    rw [unm_scalar_iface_inAlias fuel k st hk hd hc, scalarIfaceVal_strTag k hk ht]
  · simp only [if_true]
    exact unm_scalar_tstr_inAlias fuel k st hk ht hd hc

theorem StableDecD.dtrans {s1 s2 s3 : DecState} (h1 : StableDecD s1 s2)
    (h2 : StableDecD s2 s3) : StableDecD s1 s3 := by
  obtain ⟨a1, b1, c1, d1⟩ := h1
  obtain ⟨a2, b2, c2, d2⟩ := h2
  exact ⟨a2.trans a1, b2.trans b1, c2.trans c1, d2.trans d1⟩

/-- The pair loop inside an alias expansion (`mergedFields` present):
the same folds as `dmapPairs_merged`, the alias counter advancing once
per decoded node. -/
theorem dmapPairs_merged_inAlias : ∀ (ps : List (Node × Node)) (fuel : Nat),
    2 * ps.length < fuel →
    ∀ (sk new : Bool) (out : List (DValue × DValue)) (fs : List DValue)
      (mp : Option Node) (st : DecState),
    (∀ p ∈ ps, SimplePair p) →
    st.aliasDepth = 1 → st.aliasCount + 2 * ps.length ≤ 100 →
    ∃ stq, dmapPairsF fuel ps sk out new (some fs) mp st =
        .ok ((mergeStepPairs out fs ps).1, some (mergeStepPairs out fs ps).2, mp, stq) ∧
      StableDecD st stq ∧ stq.mergedFields = st.mergedFields ∧
      stq.aliasCount ≤ st.aliasCount + 2 * ps.length := by
  intro ps
  induction ps with
  | nil =>
    intro fuel hf sk new out fs mp st hps hd hc
    obtain ⟨f, rfl⟩ : ∃ f, fuel = f + 1 := ⟨fuel - 1, by omega⟩
    exact ⟨st, rfl, ⟨rfl, rfl, rfl, rfl⟩, rfl, by omega⟩
  | cons p rest ih =>
    obtain ⟨k, v⟩ := p
    intro fuel hf sk new out fs mp st hps hd hc
    simp only [List.length_cons] at hf
    simp only [List.length_cons] at hc
    obtain ⟨f2, rfl⟩ : ∃ f2, fuel = f2 + 3 := ⟨fuel - 3, by omega⟩
    obtain ⟨hk, ht, hnm, hv⟩ := hps (k, v) (by simp)
    have hkey := key_decode_simple_inAlias (f2 + 1) k sk st hk ht hd (by omega)
    by_cases hmem : fieldsMem fs (.vstr k.value) = true
    · have heq : dmapPairsF (f2 + 3) ((k, v) :: rest) sk out new (some fs) mp st =
          dmapPairsF (f2 + 2) rest sk out new (some fs) mp
            { st with decodeCount := st.decodeCount + 1, aliasCount := st.aliasCount + 1 } := by
        simp only [dmapPairsF, hnm, Bool.false_eq_true, if_false, hkey]
        simp only [isHashable, Bool.not_true, Bool.false_eq_true, if_false, hmem, if_true]
      obtain ⟨stq, h1, h2, h3, h4⟩ := ih (f2 + 2) (by omega) sk new out fs mp
        { st with decodeCount := st.decodeCount + 1, aliasCount := st.aliasCount + 1 }
        (fun p hp => hps p (by simp [hp])) hd (by simp; omega)
      refine ⟨stq, ?_, StableDecD.dtrans ⟨rfl, rfl, rfl, rfl⟩ h2, h3,
        by simp at h4; simp only [List.length_cons]; omega⟩
      rw [heq, h1]
      simp [mergeStepPairs, hmem]
    · have hval := unm_scalar_iface_inAlias f2 v
        { st with decodeCount := st.decodeCount + 1, aliasCount := st.aliasCount + 1 }
        hv hd (by simp; omega)
      have heq : dmapPairsF (f2 + 3) ((k, v) :: rest) sk out new (some fs) mp st =
          dmapPairsF (f2 + 1) rest sk
            (mapSet out (.vstr k.value) (scalarIfaceVal v)) new
            (some (DValue.vstr k.value :: fs)) mp
            { st with decodeCount := st.decodeCount + 2, aliasCount := st.aliasCount + 2 } := by
        simp only [dmapPairsF, hnm, Bool.false_eq_true, if_false, hkey]
        simp only [isHashable, Bool.not_true, Bool.false_eq_true, if_false, hmem,
          dmapPairValueF, hval]
      obtain ⟨stq, h1, h2, h3, h4⟩ := ih (f2 + 1) (by omega) sk new
        (mapSet out (.vstr k.value) (scalarIfaceVal v)) (DValue.vstr k.value :: fs) mp
        { st with decodeCount := st.decodeCount + 2, aliasCount := st.aliasCount + 2 }
        (fun p hp => hps p (by simp [hp])) hd (by simp; omega)
      refine ⟨stq, ?_, StableDecD.dtrans ⟨rfl, rfl, rfl, rfl⟩ h2, h3,
        by simp at h4; simp only [List.length_cons]; omega⟩
      rw [heq, h1]
      simp [mergeStepPairs, hmem]

/-- Decoding a simple mapping into a map target inside an alias
expansion. -/
theorem unm_w_tmap_inAlias (fuel : Nat) (w : Node) (sk : Bool)
    (out : List (DValue × DValue)) (fs : List DValue) (st : DecState)
    (hw : w.kind = .mappingNode)
    (hps : ∀ p ∈ toPairs w.content, SimplePair p)
    (hdist : ((toPairs w.content).map Prod.fst).Pairwise fun a b => a.value ≠ b.value)
    (hmf : st.mergedFields = some fs)
    (hd : st.aliasDepth = 1)
    (hc : st.aliasCount + 2 * (toPairs w.content).length + 1 ≤ 100)
    (hf : 2 * (toPairs w.content).length + 3 < fuel) :
    ∃ stq, unmF fuel (.tmap sk out) w st =
        .ok (some (.vmap (mergeStepPairs out fs (toPairs w.content)).1), stq) ∧
      StableDecD st stq ∧
      stq.mergedFields = some (mergeStepPairs out fs (toPairs w.content)).2 ∧
      stq.aliasCount ≤ st.aliasCount + 2 * (toPairs w.content).length + 1 := by
  obtain ⟨f3, rfl⟩ : ∃ f3, fuel = f3 + 3 := ⟨fuel - 3, by omega⟩
  have hguard := aliasGuard_inAlias w (some (Target.typeName (.tmap sk out))) st hd (by omega)
  have hkeysc : ∀ k ∈ (toPairs w.content).map Prod.fst, k.kind = .scalarNode := by
    intro k hk
    obtain ⟨p, hp, rfl⟩ := List.mem_map.1 hk
    exact (hps p hp).1
  have hdups := dupErrors_nil ((toPairs w.content).map Prod.fst)
    (some (Target.typeName (.tmap sk out))) hkeysc hdist
  obtain ⟨stq, h1, h2, h3, h4⟩ := dmapPairs_merged_inAlias (toPairs w.content) f3
    (by omega) sk false out fs none
    { st with decodeCount := st.decodeCount + 1, aliasCount := st.aliasCount + 1, mergedFields := none }
    hps hd (by simp; omega)
  have hcore : dmapCoreF (f3 + 1) w sk out false
      { st with decodeCount := st.decodeCount + 1, aliasCount := st.aliasCount + 1 } =
      .ok (some (.vmap (mergeStepPairs out fs (toPairs w.content)).1),
        { stq with mergedFields := some (mergeStepPairs out fs (toPairs w.content)).2 }) := by
    simp only [dmapCoreF, hmf]
    rw [h1]
  have hmap : dmappingF (f3 + 2) w (.tmap sk out)
      { st with decodeCount := st.decodeCount + 1, aliasCount := st.aliasCount + 1 } =
      .ok (some (.vmap (mergeStepPairs out fs (toPairs w.content)).1),
        { stq with mergedFields := some (mergeStepPairs out fs (toPairs w.content)).2 }) := by
    simp only [dmappingF, hdups, ite_self, List.append_nil]
    rw [if_neg (by simp)]
    exact hcore
  refine ⟨{ stq with mergedFields := some (mergeStepPairs out fs (toPairs w.content)).2 },
    ?_, ?_, rfl, by have := h4; simp at this ⊢; omega⟩
  · simp only [unmF, hguard, hw]
    exact hmap
  · obtain ⟨a, b, c, d⟩ := h2
    exact ⟨a, b, c, d⟩

/-- Decoding an alias to a simple mapping into a map target: the alias
depth is pushed and popped around the target decode, and the alias
counter pays for every node visited inside. -/
theorem unm_alias_w_tmap (fuel : Nat) (n w : Node) (sk : Bool)
    (out : List (DValue × DValue)) (fs : List DValue) (st : DecState)
    (hn : n.kind = .aliasNode) (hw : n.aliasTarget = some w)
    (hwk : w.kind = .mappingNode)
    (hps : ∀ p ∈ toPairs w.content, SimplePair p)
    (hdist : ((toPairs w.content).map Prod.fst).Pairwise fun a b => a.value ≠ b.value)
    (hmf : st.mergedFields = some fs)
    (hd : st.aliasDepth = 0)
    (hc : st.aliasCount + 2 * (toPairs w.content).length + 2 ≤ 100)
    (hf : 2 * (toPairs w.content).length + 4 < fuel) :
    ∃ stq, unmF fuel (.tmap sk out) n st =
        .ok (some (.vmap (mergeStepPairs out fs (toPairs w.content)).1), stq) ∧
      StableDecD st stq ∧
      stq.mergedFields = some (mergeStepPairs out fs (toPairs w.content)).2 ∧
      stq.aliasCount ≤ st.aliasCount + 2 * (toPairs w.content).length + 2 := by
  obtain ⟨f, rfl⟩ : ∃ f, fuel = f + 1 := ⟨fuel - 1, by omega⟩
  have hguard := aliasGuard_calm n (some (Target.typeName (.tmap sk out))) st hd (by omega)
  obtain ⟨stq, h1, h2, h3, h4⟩ := unm_w_tmap_inAlias f w sk out fs
    { st with decodeCount := st.decodeCount + 1, aliasDepth := st.aliasDepth + 1 }
    hwk hps hdist hmf (by simp [hd]) (by simp; omega) (by omega)
  refine ⟨{ stq with aliasDepth := stq.aliasDepth - 1 }, ?_, ?_, h3, by simp at h4 ⊢; omega⟩
  · simp only [unmF, hguard, hn, hw]
    rw [h1]
  · obtain ⟨a, b, c, d⟩ := h2
    refine ⟨a, b, c, ?_⟩
    simp only at d
    simp [d, hd]

-- The merge sequence loop raises `failWantMap` at the first bad-shaped
-- element: a non-mapping non-alias element, or an alias whose target is
-- not a mapping (rejected before any decode, decode.go:1012-1016); the
-- well-shaped elements before it — simple mappings, directly or through
-- an alias — decode and merge.
theorem dmergeSeq_first_bad : ∀ (cs : List Node) (fuel : Nat) (sk : Bool)
    (out : List (DValue × DValue)) (fs : List DValue) (st : DecState),
    (∀ c ∈ cs, MergeElem c) →
    st.mergedFields = some fs → st.aliasDepth = 0 →
    st.aliasCount + aliasBudget cs ≤ 100 →
    (∀ c ∈ cs, elemFuel c + cs.length < fuel) →
    ¬ (∀ c ∈ cs, c.kind = .mappingNode ∨
        (c.kind = .aliasNode ∧ ∃ a, c.aliasTarget = some a ∧ a.kind = .mappingNode)) →
    ∃ bad, dmergeSeqF fuel cs sk out st =
        .error (failWantMap bad (Target.tmap sk out).typeName) ∧
      bad.kind ≠ .mappingNode := by
  intro cs
  induction cs with
  | nil =>
    intro fuel sk out fs st hel hmf hd hc hf hbad
    exact absurd (by simp) hbad
  | cons c rest ih =>
    intro fuel sk out fs st hel hmf hd hc hf hbad
    obtain ⟨f, rfl⟩ : ∃ f, fuel = f + 1 :=
      ⟨fuel - 1, by have := hf c (by simp); omega⟩
    have hbudget : aliasBudget (c :: rest) =
        (match c.aliasTarget with
         | some w => 2 * (toPairs w.content).length + 2
         | none => 0) + aliasBudget rest := rfl
    by_cases hcm : c.kind = .mappingNode
    · obtain ⟨hcs, hcd⟩ := (hel c (by simp)).1 hcm
      obtain ⟨st1, h1, h2, h3⟩ := unm_w_tmap f c sk out fs st hcm hcs hcd hmf hd
        (by omega) (by have := hf c (by simp); simp only [List.length_cons] at this
                       simp only [elemFuel] at this; omega)
      have hstep : dmergeSeqF (f + 1) (c :: rest) sk out st =
          dmergeSeqF f rest sk (mergeStepPairs out fs (toPairs c.content)).1 st1 := by
        simp only [dmergeSeqF, hcm]
        rw [h1]
        simp
      have hbad2 : ¬ ∀ x ∈ rest, x.kind = .mappingNode ∨
          (x.kind = .aliasNode ∧ ∃ a, x.aliasTarget = some a ∧ a.kind = .mappingNode) := by
        intro hall
        refine hbad ?_
        intro x hx
        rcases List.mem_cons.1 hx with h | h
        · rw [h]; exact .inl hcm
        · exact hall x h
      obtain ⟨bad, hb1, hb2⟩ := ih f sk (mergeStepPairs out fs (toPairs c.content)).1
        (mergeStepPairs out fs (toPairs c.content)).2 st1
        (fun x hx => hel x (by simp [hx])) h3
        (h2.2.2.2.2.trans hd)
        (by rw [h2.2.2.2.1]; omega)
        (fun x hx => by have := hf x (by simp [hx])
                        simp only [List.length_cons] at this; omega)
        hbad2
      refine ⟨bad, ?_, hb2⟩
      rw [hstep, hb1,
        typeName_tmap_indep sk (mergeStepPairs out fs (toPairs c.content)).1 out]
    · by_cases hca : c.kind = .aliasNode
      · obtain ⟨w, hwt, hwm⟩ := (hel c (by simp)).2 hca
        by_cases hwk : w.kind = .mappingNode
        · obtain ⟨hcs, hcd⟩ := hwm hwk
          obtain ⟨st1, h1, h2, h3, h4⟩ := unm_alias_w_tmap f c w sk out fs st hca hwt hwk
            hcs hcd hmf hd
            (by rw [hbudget, hwt] at hc; simp at hc; omega)
            (by have := hf c (by simp); simp only [List.length_cons] at this
                simp only [elemFuel, hwt] at this; omega)
          have hstep : dmergeSeqF (f + 1) (c :: rest) sk out st =
              dmergeSeqF f rest sk (mergeStepPairs out fs (toPairs w.content)).1 st1 := by
            simp only [dmergeSeqF]
            rw [if_pos hca]
            simp only [hwt]
            rw [if_neg (by simp [hwk])]
            rw [h1]
          have hbad2 : ¬ ∀ x ∈ rest, x.kind = .mappingNode ∨
              (x.kind = .aliasNode ∧ ∃ a, x.aliasTarget = some a ∧ a.kind = .mappingNode) := by
            intro hall
            refine hbad ?_
            intro x hx
            rcases List.mem_cons.1 hx with h | h
            · rw [h]; exact .inr ⟨hca, w, hwt, hwk⟩
            · exact hall x h
          obtain ⟨bad, hb1, hb2⟩ := ih f sk (mergeStepPairs out fs (toPairs w.content)).1
            (mergeStepPairs out fs (toPairs w.content)).2 st1
            (fun x hx => hel x (by simp [hx])) h3
            (h2.2.2.2.trans hd)
            (by rw [hbudget, hwt] at hc; simp at hc; omega)
            (fun x hx => by have := hf x (by simp [hx])
                            simp only [List.length_cons] at this; omega)
            hbad2
          refine ⟨bad, ?_, hb2⟩
          rw [hstep, hb1,
            typeName_tmap_indep sk (mergeStepPairs out fs (toPairs w.content)).1 out]
        · refine ⟨w, ?_, hwk⟩
          simp only [dmergeSeqF]
          rw [if_pos hca]
          simp only [hwt]
          rw [if_pos hwk]
      · refine ⟨c, ?_, hcm⟩
        simp only [dmergeSeqF]
        rw [if_neg hca, if_pos hcm]

/-- C6: for a merge key whose value has a bad shape — not a mapping node,
not an alias whose target is a mapping node, and not a sequence of such
(here a non-collection scalar, an alias to a non-mapping, or a sequence
holding such an element after well-shaped ones: simple mappings, directly
or through aliases) — `decoder.merge` fails with `failWantMap`, the
error "map merge requires map or sequence of maps as the value",
attached to the offending non-mapping node. -/
theorem C6_merge_wants_map (fuel : Nat) (parent mrg : Node) (sk : Bool)
    (out : List (DValue × DValue)) (fs : List DValue) (st : DecState)
    (hmf : st.mergedFields = some fs)
    (hbad : ¬ mergeShapeOk mrg)
    (halias : mrg.kind = .aliasNode → ∃ a, mrg.aliasTarget = some a)
    (hseq : mrg.kind = .sequenceNode → ∀ c ∈ mrg.content, MergeElem c)
    (hd : st.aliasDepth = 0)
    (hc : st.aliasCount + aliasBudget mrg.content ≤ 100)
    (hf : ∀ c ∈ mrg.content, elemFuel c + mrg.content.length + 1 < fuel)
    (hpos : 1 < fuel) :
    ∃ bad, dmergeF fuel parent mrg sk out st =
        .error (failWantMap bad (Target.tmap sk out).typeName) ∧
      bad.kind ≠ .mappingNode := by
  obtain ⟨f, rfl⟩ : ∃ f, fuel = f + 1 := ⟨fuel - 1, by omega⟩
  cases hk : mrg.kind with
  | mappingNode => exact absurd (Or.inl hk) hbad
  | aliasNode =>
    obtain ⟨a, ha⟩ := halias hk
    have hak : a.kind ≠ .mappingNode := by
      intro h
      exact hbad (Or.inr (Or.inl ⟨hk, a, ha, h⟩))
    refine ⟨a, ?_, hak⟩
    simp only [dmergeF, hmf, hk, ha]
    rw [if_pos hak]
  | sequenceNode =>
    have hnall : ¬ ∀ c ∈ mrg.content, c.kind = .mappingNode ∨
        (c.kind = .aliasNode ∧ ∃ a, c.aliasTarget = some a ∧ a.kind = .mappingNode) := by
      intro hall
      exact hbad (Or.inr (Or.inr ⟨hk, hall⟩))
    obtain ⟨bad, hb1, hb2⟩ := dmergeSeq_first_bad mrg.content f sk out fs st
      (hseq hk) hmf hd hc
      (fun c hc2 => by have := hf c hc2; omega) hnall
    refine ⟨bad, ?_, hb2⟩
    simp only [dmergeF, hmf, hk]
    rw [hb1]
  | scalarNode =>
    refine ⟨mrg, ?_, by rw [hk]; decide⟩
    simp only [dmergeF, hmf, hk]
  | zeroKind =>
    refine ⟨mrg, ?_, by rw [hk]; decide⟩
    simp only [dmergeF, hmf, hk]
  | documentNode =>
    refine ⟨mrg, ?_, by rw [hk]; decide⟩
    simp only [dmergeF, hmf, hk]

/-- C6 witness: merging `[*m, *s]`, where `*m` targets the simple mapping
`{a: 9, x: 20}` and `*s` targets the plain scalar `x`, fails with the
want-map error attached to the scalar target. -/
theorem C6_merge_wants_map_witness :
    ∃ bad, dmergeF 40 (mapNode []) c6mrg false []
        { newDecoderState with mergedFields := some [] } =
      .error (failWantMap bad (Target.tmap false []).typeName) ∧
      bad.kind ≠ .mappingNode :=
  C6_merge_wants_map 40 (mapNode []) c6mrg false [] []
    { newDecoderState with mergedFields := some [] } rfl
    (by rintro (h | ⟨h, -⟩ | ⟨-, hall⟩)
        · exact absurd h (by decide)
        · exact absurd h (by decide)
        · rcases hall c6bad (List.mem_cons_of_mem _ (List.mem_cons_self _ _)) with
            h | ⟨-, a, ha, hak⟩
          · exact absurd h (by decide)
          · rw [show a = strScalar "x" from (Option.some.inj ha).symm] at hak
            exact absurd hak (by decide))
    (by intro h; exact absurd h (by decide))
    (by intro hk0 c hc2
        rcases List.mem_cons.1 hc2 with h | h
        · rw [h]
          exact ⟨fun h2 => absurd h2 (by decide),
            fun _ => ⟨c4w, rfl, fun _ => ⟨by decide, by decide⟩⟩⟩
        · rcases List.mem_cons.1 h with h2 | h2
          · rw [h2]
            exact ⟨fun h3 => absurd h3 (by decide),
              fun _ => ⟨strScalar "x", rfl, fun h3 => absurd h3 (by decide)⟩⟩
          · cases h2)
    rfl (by decide) (by decide) (by decide)

theorem Node.withStyle_id (n : Node) (s : Nat) : (n.withStyle s).id = n.id := by
  cases n; rfl

theorem Node.withStyle_kind (n : Node) (s : Nat) : (n.withStyle s).kind = n.kind := by
  cases n; rfl

theorem Node.withStyle_content (n : Node) (s : Nat) : (n.withStyle s).content = n.content := by
  cases n; rfl

theorem Node.withStyle_anchor (n : Node) (s : Nat) : (n.withStyle s).anchor = n.anchor := by
  cases n; rfl

theorem Node.withStyle_aliasTarget (n : Node) (s : Nat) :
    (n.withStyle s).aliasTarget = n.aliasTarget := by
  cases n; rfl

theorem Node.withAnchor_id (n : Node) (a : String) : (n.withAnchor a).id = n.id := by
  cases n; rfl

theorem Node.withAnchor_kind (n : Node) (a : String) : (n.withAnchor a).kind = n.kind := by
  cases n; rfl

theorem Node.withAnchor_content (n : Node) (a : String) :
    (n.withAnchor a).content = n.content := by
  cases n; rfl

theorem Node.withAnchor_anchor (n : Node) (a : String) : (n.withAnchor a).anchor = a := by
  cases n; rfl

theorem Node.withAnchor_aliasTarget (n : Node) (a : String) :
    (n.withAnchor a).aliasTarget = n.aliasTarget := by
  cases n; rfl

theorem Node.withAliasTarget_id (n : Node) (t : Option Node) :
    (n.withAliasTarget t).id = n.id := by
  cases n; rfl

theorem Node.withAliasTarget_kind (n : Node) (t : Option Node) :
    (n.withAliasTarget t).kind = n.kind := by
  cases n; rfl

theorem Node.withAliasTarget_content (n : Node) (t : Option Node) :
    (n.withAliasTarget t).content = n.content := by
  cases n; rfl

theorem Node.withAliasTarget_aliasTarget (n : Node) (t : Option Node) :
    (n.withAliasTarget t).aliasTarget = t := by
  cases n; rfl

theorem Node.withContent_id (n : Node) (c : List Node) : (n.withContent c).id = n.id := by
  cases n; rfl

theorem Node.withContent_kind (n : Node) (c : List Node) :
    (n.withContent c).kind = n.kind := by
  cases n; rfl

theorem Node.withContent_content (n : Node) (c : List Node) :
    (n.withContent c).content = c := by
  cases n; rfl

theorem Node.withContent_anchor (n : Node) (c : List Node) :
    (n.withContent c).anchor = n.anchor := by
  cases n; rfl

theorem Node.withContent_aliasTarget (n : Node) (c : List Node) :
    (n.withContent c).aliasTarget = n.aliasTarget := by
  cases n; rfl

theorem pnode_fst_id (st : PState) (k : Kind) (dt t v : String) (l c : Nat) :
    (pnode st k dt t v l c).1.id = st.nextId := rfl

theorem pnode_fst_kind (st : PState) (k : Kind) (dt t v : String) (l c : Nat) :
    (pnode st k dt t v l c).1.kind = k := rfl

theorem pnode_fst_content (st : PState) (k : Kind) (dt t v : String) (l c : Nat) :
    (pnode st k dt t v l c).1.content = [] := rfl

theorem pnode_fst_anchor (st : PState) (k : Kind) (dt t v : String) (l c : Nat) :
    (pnode st k dt t v l c).1.anchor = "" := rfl

theorem pnode_fst_aliasTarget (st : PState) (k : Kind) (dt t v : String) (l c : Nat) :
    (pnode st k dt t v l c).1.aliasTarget = none := rfl

theorem pnode_snd (st : PState) (k : Kind) (dt t v : String) (l c : Nat) :
    (pnode st k dt t v l c).2 = { st with nextId := st.nextId + 1 } := rfl

theorem heapLookup_mono (st stq : PState) (pre : List (Nat × Node))
    (h : stq.heap = pre ++ st.heap) (j : Nat)
    (hj : (heapLookup st j).isSome = true) : (heapLookup stq j).isSome = true := by
  rw [heapLookup] at hj ⊢
  rw [h, List.find?_append, option_map_or]
  cases hfind : (pre.find? fun e => e.1 == j) with
  | none => exact hj
  | some p => rfl

theorem lookupAnchor_extend (st stq : PState) (pre : List (String × Nat))
    (h : stq.anchors = pre ++ st.anchors) (b : String) (j : Nat)
    (hj : lookupAnchor stq b = some j) :
    (∃ p ∈ pre, p.1 = b ∧ p.2 = j) ∨ lookupAnchor st b = some j := by
  rw [lookupAnchor, h, List.find?_append, option_map_or] at hj
  cases hfind : (pre.find? fun e => e.1 == b) with
  | none =>
    rw [hfind] at hj
    exact .inr hj
  | some p =>
    rw [hfind] at hj
    have hpj : p.2 = j := Option.some.inj hj
    have hpb : p.1 = b := by simpa using List.find?_some hfind
    exact .inl ⟨p, List.mem_of_find?_eq_some hfind, hpb, hpj⟩

theorem ComposerExtends.rfl (st : PState) : ComposerExtends st st :=
  ⟨le_refl _, ⟨[], Eq.refl _, by simp⟩, ⟨[], Eq.refl _, by simp⟩, fun b hb => .inl hb⟩

theorem ComposerExtends.ctrans {st st1 st2 : PState}
    (h1 : ComposerExtends st st1) (h2 : ComposerExtends st1 st2) :
    ComposerExtends st st2 := by
  obtain ⟨n1, ⟨ph1, hh1, hf1⟩, ⟨pa1, ha1, hr1⟩, pp1⟩ := h1
  obtain ⟨n2, ⟨ph2, hh2, hf2⟩, ⟨pa2, ha2, hr2⟩, pp2⟩ := h2
  refine ⟨le_trans n1 n2, ⟨ph2 ++ ph1, by rw [hh2, hh1, List.append_assoc], ?_⟩,
    ⟨pa2 ++ pa1, by rw [ha2, ha1, List.append_assoc], ?_⟩, ?_⟩
  · intro p hp
    rcases List.mem_append.1 hp with h | h
    · exact le_trans n1 (hf2 p h)
    · exact hf1 p h
  · intro p hp
    rcases List.mem_append.1 hp with h | h
    · exact ⟨le_trans n1 (hr2 p h).1, (hr2 p h).2⟩
    · exact ⟨(hr1 p h).1, heapLookup_mono st1 st2 ph2 hh2 p.2 (hr1 p h).2⟩
  · intro b hb
    rcases pp1 b hb with h | h
    · exact pp2 b h
    · refine .inr fun j hj => ?_
      rcases lookupAnchor_extend st1 st2 pa2 ha2 b j hj with ⟨p, hp, _, rfl⟩ | hj1
      · exact (hr2 p hp).2
      · exact heapLookup_mono st1 st2 ph2 hh2 j (h j hj1)

theorem BannedOpen.mono {banned : List Nat} {st stq : PState}
    (hb : BannedOpen banned st) (he : ComposerExtends st stq) :
    BannedOpen banned stq := by
  obtain ⟨hn, ⟨preh, hh, hf⟩, _, _⟩ := he
  intro i hi
  obtain ⟨h1, h2⟩ := hb i hi
  refine ⟨lt_of_lt_of_le h1 hn, ?_⟩
  rw [hh, List.map_append]
  intro hmem
  rcases List.mem_append.1 hmem with h | h
  · obtain ⟨p, hp, rfl⟩ := List.mem_map.1 h
    exact absurd (hf p hp) (by omega)
  · exact h2 h

-- What one scalar step does to the state: fresh id, parent anchors
-- untouched, anchored scalars registered and completed immediately.
theorem composeF_scalar_spec (f : Nat) (st : PState) (anchor : Option String)
    (tag value : String) (style l c : Nat) (rest : List Event) (n : Node) (st2 : PState)
    (rest2 : List Event)
    (hok : composeF (f+1) st (.scalar anchor tag value style l c :: rest) =
      .ok (n, st2, rest2)) :
    n.kind = .scalarNode ∧ n.content = [] ∧ n.aliasTarget = none ∧ n.id = st.nextId ∧
    rest2 = rest ∧ st2.parentAnchors = st.parentAnchors ∧ st2.nextId = st.nextId + 1 ∧
    ((st2.anchors = st.anchors ∧ st2.heap = st.heap) ∨
     (∃ a, anchor = some a ∧ st2.anchors = (a, st.nextId) :: st.anchors ∧
        st2.heap = (st.nextId, n) :: st.heap)) := by
  cases anchor with
  | none =>
    simp only [composeF, panchor, Option.isSome_none, Bool.false_eq_true, if_false,
      Except.ok.injEq, Prod.mk.injEq] at hok
    obtain ⟨h1, h2, h3⟩ := hok
    subst h1
    subst h3
    rw [← h2]
    refine ⟨?_, ?_, ?_, ?_, rfl, rfl, rfl, .inl ⟨rfl, rfl⟩⟩
    · rw [Node.withStyle_kind, pnode_fst_kind]
    · rw [Node.withStyle_content, pnode_fst_content]
    · rw [Node.withStyle_aliasTarget, pnode_fst_aliasTarget]
    · rw [Node.withStyle_id, pnode_fst_id]
  | some a =>
    simp only [composeF, panchor, Option.isSome_some, if_true,
      Except.ok.injEq, Prod.mk.injEq] at hok
    obtain ⟨h1, h2, h3⟩ := hok
    subst h1
    subst h3
    rw [← h2]
    have hid : ((pnode st Kind.scalarNode
        (if (if style &&& DoubleQuotedStyle ≠ 0 then DoubleQuotedStyle
          else if style &&& SingleQuotedStyle ≠ 0 then SingleQuotedStyle
          else if style &&& LiteralStyle ≠ 0 then LiteralStyle
          else if style &&& FoldedStyle ≠ 0 then FoldedStyle else 0) = 0 then
            (if value = "<<" then mergeTag else "") else strTag)
        tag value l c).1).id = st.nextId := pnode_fst_id st _ _ _ _ _ _
    refine ⟨?_, ?_, ?_, ?_, rfl, rfl, rfl, ?_⟩
    · rw [Node.withAnchor_kind, Node.withStyle_kind, pnode_fst_kind]
    · rw [Node.withAnchor_content, Node.withStyle_content, pnode_fst_content]
    · rw [Node.withAnchor_aliasTarget, Node.withStyle_aliasTarget, pnode_fst_aliasTarget]
    · rw [Node.withAnchor_id, Node.withStyle_id, pnode_fst_id]
    · refine .inr ⟨a, rfl, ?_, ?_⟩ <;>
        simp only [pnode_snd, Node.withAnchor_id, Node.withStyle_id, pnode_fst_id]

-- What a successful alias step requires and produces: the name passed the
-- active-path check, resolved in the anchor table, and the target is the
-- heap entry of the resolved id; the state only advances its counter.
theorem composeF_alias_spec (f : Nat) (st : PState) (name : String) (l c : Nat)
    (rest : List Event) (n : Node) (st2 : PState) (rest2 : List Event)
    (hok : composeF (f+1) st (.alias name l c :: rest) = .ok (n, st2, rest2)) :
    n.kind = .aliasNode ∧ n.content = [] ∧ n.id = st.nextId ∧ rest2 = rest ∧
    st2 = { st with nextId := st.nextId + 1 } ∧
    name ∉ st.parentAnchors ∧
    ∃ tid, lookupAnchor st name = some tid ∧ n.aliasTarget = heapLookup st tid := by
  simp only [composeF] at hok
  by_cases hpa : name ∈ st.parentAnchors
  · rw [if_pos (by exact hpa)] at hok
    cases hok
  · rw [if_neg (by exact hpa)] at hok
    cases hlook : lookupAnchor { st with nextId := st.nextId + 1 } name with
    | none =>
      rw [pnode_snd] at hok
      rw [hlook] at hok
      cases hok
    | some tid =>
      rw [pnode_snd] at hok
      rw [hlook] at hok
      simp only [Except.ok.injEq, Prod.mk.injEq] at hok
      obtain ⟨h1, h2, h3⟩ := hok
      subst h1
      subst h3
      refine ⟨?_, ?_, ?_, rfl, h2.symm, hpa, tid, hlook, ?_⟩
      · rw [Node.withAliasTarget_kind, pnode_fst_kind]
      · rw [Node.withAliasTarget_content, pnode_fst_content]
      · rw [Node.withAliasTarget_id, pnode_fst_id]
      · rw [Node.withAliasTarget_aliasTarget]
        rfl

-- What a successful sequence step is made of: children composed by the
-- items loop from a state holding the fresh registration (anchor table and
-- active-path set first), and the close undoing the active-path entry and
-- completing the node into the heap.
theorem composeF_seqStart_spec (f : Nat) (st : PState) (anchor : Option String)
    (tag : String) (flow : Bool) (l c : Nat) (rest : List Event) (n : Node)
    (st2 : PState) (rest2 : List Event)
    (hwf : anchor ≠ some "")
    (hok : composeF (f+1) st (.seqStart anchor tag flow l c :: rest) =
      .ok (n, st2, rest2)) :
    ∃ st3 children st4,
      composeItemsF f st3 [] false rest = .ok (children, st4, rest2) ∧
      n.kind = .sequenceNode ∧ n.content = children ∧ n.aliasTarget = none ∧
      n.id = st.nextId ∧ st3.nextId = st.nextId + 1 ∧ st3.heap = st.heap ∧
      ((anchor = none ∧ st3.anchors = st.anchors ∧
          st3.parentAnchors = st.parentAnchors ∧ st2 = st4) ∨
       (∃ a, anchor = some a ∧ a ≠ "" ∧ n.anchor = a ∧
          st3.anchors = (a, st.nextId) :: st.anchors ∧
          st3.parentAnchors = insertPA st.parentAnchors a ∧
          st2 = { st4 with parentAnchors := removePA st4.parentAnchors a,
                           heap := (st.nextId, n) :: st4.heap })) := by
  cases anchor with
  | none =>
    cases flow <;>
    · simp only [composeF, panchor, Bool.false_eq_true, Bool.true_eq_false, if_false,
        if_true] at hok
      rw [if_neg (by simp [Node.withStyle_anchor, pnode_fst_anchor])] at hok
      split at hok
      · cases hok
      · next children st4 rest3 heq =>
        rw [if_neg (by simp [Node.withContent_anchor, Node.withStyle_anchor,
          pnode_fst_anchor])] at hok
        rw [if_neg (by simp [Node.withContent_anchor, Node.withStyle_anchor,
          pnode_fst_anchor])] at hok
        simp only [Except.ok.injEq, Prod.mk.injEq] at hok
        obtain ⟨h1, h2, h3⟩ := hok
        subst h3
        refine ⟨_, children, st4, heq, ?_⟩
        rw [← h1, ← h2]
        refine ⟨?_, ?_, ?_, ?_, rfl, rfl, .inl ⟨rfl, rfl, rfl, rfl⟩⟩ <;>
          simp [Node.withContent_kind, Node.withContent_content,
            Node.withContent_aliasTarget, Node.withContent_id,
            Node.withStyle_kind, Node.withStyle_content, Node.withStyle_aliasTarget,
            Node.withStyle_id, pnode_fst_kind, pnode_fst_content,
            pnode_fst_aliasTarget, pnode_fst_id]
  | some a =>
    have ha : a ≠ "" := fun h => hwf (by rw [h])
    cases flow <;>
    · simp only [composeF, panchor, Bool.false_eq_true, Bool.true_eq_false, if_false,
        if_true] at hok
      rw [if_pos (by simp [Node.withAnchor_anchor]; exact ha)] at hok
      split at hok
      · cases hok
      · next children st4 rest3 heq =>
        rw [if_pos (by simp [Node.withContent_anchor, Node.withAnchor_anchor]; exact ha)] at hok
        rw [if_pos (by simp [Node.withContent_anchor, Node.withAnchor_anchor]; exact ha)] at hok
        simp only [Except.ok.injEq, Prod.mk.injEq] at hok
        obtain ⟨h1, h2, h3⟩ := hok
        subst h3
        refine ⟨_, children, st4, heq, ?_⟩
        rw [← h1, ← h2]
        refine ⟨?_, ?_, ?_, ?_, rfl, rfl, .inr ⟨a, rfl, ha, ?_, ?_, ?_, ?_⟩⟩ <;>
          simp [Node.withContent_kind, Node.withContent_content,
            Node.withContent_aliasTarget, Node.withContent_id, Node.withContent_anchor,
            Node.withAnchor_kind, Node.withAnchor_content, Node.withAnchor_aliasTarget,
            Node.withAnchor_id, Node.withAnchor_anchor,
            Node.withStyle_kind, Node.withStyle_content, Node.withStyle_aliasTarget,
            Node.withStyle_id, Node.withStyle_anchor, pnode_fst_kind, pnode_fst_content,
            pnode_fst_aliasTarget, pnode_fst_id, pnode_fst_anchor, pnode_snd]

-- Mapping analogue of the sequence step decomposition.
theorem composeF_mapStart_spec (f : Nat) (st : PState) (anchor : Option String)
    (tag : String) (flow : Bool) (l c : Nat) (rest : List Event) (n : Node)
    (st2 : PState) (rest2 : List Event)
    (hwf : anchor ≠ some "")
    (hok : composeF (f+1) st (.mapStart anchor tag flow l c :: rest) =
      .ok (n, st2, rest2)) :
    ∃ st3 children st4,
      composeItemsF f st3 [] true rest = .ok (children, st4, rest2) ∧
      n.kind = .mappingNode ∧ n.content = children ∧ n.aliasTarget = none ∧
      n.id = st.nextId ∧ st3.nextId = st.nextId + 1 ∧ st3.heap = st.heap ∧
      ((anchor = none ∧ st3.anchors = st.anchors ∧
          st3.parentAnchors = st.parentAnchors ∧ st2 = st4) ∨
       (∃ a, anchor = some a ∧ a ≠ "" ∧ n.anchor = a ∧
          st3.anchors = (a, st.nextId) :: st.anchors ∧
          st3.parentAnchors = insertPA st.parentAnchors a ∧
          st2 = { st4 with parentAnchors := removePA st4.parentAnchors a,
                           heap := (st.nextId, n) :: st4.heap })) := by
  cases anchor with
  | none =>
    cases flow <;>
    · simp only [composeF, panchor, Bool.false_eq_true, Bool.true_eq_false, if_false,
        if_true] at hok
      rw [if_neg (by simp [Node.withStyle_anchor, pnode_fst_anchor])] at hok
      split at hok
      · cases hok
      · next children st4 rest3 heq =>
        rw [if_neg (by simp [Node.withContent_anchor, Node.withStyle_anchor,
          pnode_fst_anchor])] at hok
        rw [if_neg (by simp [Node.withContent_anchor, Node.withStyle_anchor,
          pnode_fst_anchor])] at hok
        simp only [Except.ok.injEq, Prod.mk.injEq] at hok
        obtain ⟨h1, h2, h3⟩ := hok
        subst h3
        refine ⟨_, children, st4, heq, ?_⟩
        rw [← h1, ← h2]
        refine ⟨?_, ?_, ?_, ?_, rfl, rfl, .inl ⟨rfl, rfl, rfl, rfl⟩⟩ <;>
          simp [Node.withContent_kind, Node.withContent_content,
            Node.withContent_aliasTarget, Node.withContent_id,
            Node.withStyle_kind, Node.withStyle_content, Node.withStyle_aliasTarget,
            Node.withStyle_id, pnode_fst_kind, pnode_fst_content,
            pnode_fst_aliasTarget, pnode_fst_id]
  | some a =>
    have ha : a ≠ "" := fun h => hwf (by rw [h])
    cases flow <;>
    · simp only [composeF, panchor, Bool.false_eq_true, Bool.true_eq_false, if_false,
        if_true] at hok
      rw [if_pos (by simp [Node.withAnchor_anchor]; exact ha)] at hok
      split at hok
      · cases hok
      · next children st4 rest3 heq =>
        rw [if_pos (by simp [Node.withContent_anchor, Node.withAnchor_anchor]; exact ha)] at hok
        rw [if_pos (by simp [Node.withContent_anchor, Node.withAnchor_anchor]; exact ha)] at hok
        simp only [Except.ok.injEq, Prod.mk.injEq] at hok
        obtain ⟨h1, h2, h3⟩ := hok
        subst h3
        refine ⟨_, children, st4, heq, ?_⟩
        rw [← h1, ← h2]
        refine ⟨?_, ?_, ?_, ?_, rfl, rfl, .inr ⟨a, rfl, ha, ?_, ?_, ?_, ?_⟩⟩ <;>
          simp [Node.withContent_kind, Node.withContent_content,
            Node.withContent_aliasTarget, Node.withContent_id, Node.withContent_anchor,
            Node.withAnchor_kind, Node.withAnchor_content, Node.withAnchor_aliasTarget,
            Node.withAnchor_id, Node.withAnchor_anchor,
            Node.withStyle_kind, Node.withStyle_content, Node.withStyle_aliasTarget,
            Node.withStyle_id, Node.withStyle_anchor, pnode_fst_kind, pnode_fst_content,
            pnode_fst_aliasTarget, pnode_fst_id, pnode_fst_anchor, pnode_snd]

theorem mem_insertPA_iff (s : List String) (a b : String) :
    b ∈ insertPA s a ↔ b = a ∨ b ∈ s := by
  unfold insertPA
  by_cases h : a ∈ s
  · rw [if_pos h]
    constructor
    · exact fun hb => .inr hb
    · rintro (rfl | hb)
      · exact h
      · exact hb
  · rw [if_neg h]
    exact List.mem_cons

theorem mem_removePA_iff (s : List String) (a b : String) :
    b ∈ removePA s a ↔ b ∈ s ∧ b ≠ a := by
  unfold removePA
  rw [List.mem_filter]
  simp

theorem lookupAnchor_cons (st stq : PState) (a : String) (i : Nat)
    (h : stq.anchors = (a, i) :: st.anchors) (b : String) :
    lookupAnchor stq b = if a = b then some i else lookupAnchor st b := by
  by_cases hab : a = b
  · subst hab
    simp [lookupAnchor, h, List.find?_cons]
  · rw [if_neg hab]
    simp only [lookupAnchor, h, List.find?_cons]
    rw [beq_eq_false_iff_ne.2 hab]

theorem heapLookup_cons (st stq : PState) (i : Nat) (n : Node)
    (h : stq.heap = (i, n) :: st.heap) (j : Nat) :
    heapLookup stq j = if i = j then some n else heapLookup st j := by
  by_cases hij : i = j
  · subst hij
    simp [heapLookup, h, List.find?_cons]
  · rw [if_neg hij]
    simp only [heapLookup, h, List.find?_cons]
    rw [beq_eq_false_iff_ne.2 hij]

theorem heapLookup_some_mem (st : PState) (j : Nat) (t : Node)
    (h : heapLookup st j = some t) : (j, t) ∈ st.heap := by
  rw [heapLookup] at h
  cases hfind : st.heap.find? fun e => e.1 == j with
  | none => rw [hfind] at h; cases h
  | some e =>
    rw [hfind] at h
    have he2 : e.2 = t := Option.some.inj h
    have he1 : e.1 = j := by simpa using List.find?_some hfind
    have := List.mem_of_find?_eq_some hfind
    rw [← he1, ← he2]
    exact this

-- State transitions that only advance the allocation counter.
theorem inv_counter (st stq : PState) (hinv : ComposerInv st)
    (ha : stq.anchors = st.anchors) (hh : stq.heap = st.heap)
    (hp : stq.parentAnchors = st.parentAnchors) (hn : st.nextId ≤ stq.nextId) :
    ComposerInv stq ∧ ComposerExtends st stq := by
  have hla : ∀ b, lookupAnchor stq b = lookupAnchor st b := by
    intro b; rw [lookupAnchor, lookupAnchor, ha]
  have hlh : ∀ j, heapLookup stq j = heapLookup st j := by
    intro j; rw [heapLookup, heapLookup, hh]
  refine ⟨⟨?_, ?_, ?_, ?_⟩, ?_, ⟨[], by simp [hh], by simp⟩, ⟨[], by simp [ha], by simp⟩, ?_⟩
  · intro b tid hb
    rw [hla] at hb
    rcases hinv.anchorsResolve b tid hb with h | h
    · exact .inl (by rw [hlh]; exact h)
    · exact .inr (by rw [hp]; exact h)
  · intro p hp2
    rw [hh] at hp2
    exact ⟨(hinv.heapIds p hp2).1, lt_of_lt_of_le (hinv.heapIds p hp2).2 hn⟩
  · intro p hp2
    rw [ha] at hp2
    exact lt_of_lt_of_le (hinv.idsBound p hp2) hn
  · intro b hb
    rw [hp] at hb
    rw [hla]
    exact hinv.paSub b hb
  · exact hn
  · intro b hb
    exact .inl (by rw [hp]; exact hb)

-- An anchored scalar step: register and complete in one stroke.
theorem inv_scalar_anchored (st stq : PState) (n : Node) (a : String)
    (hinv : ComposerInv st)
    (ha : stq.anchors = (a, st.nextId) :: st.anchors)
    (hh : stq.heap = (st.nextId, n) :: st.heap)
    (hp : stq.parentAnchors = st.parentAnchors)
    (hn : stq.nextId = st.nextId + 1)
    (hid : n.id = st.nextId) :
    ComposerInv stq ∧ ComposerExtends st stq := by
  have hheapn : (heapLookup stq st.nextId).isSome = true := by
    rw [heapLookup_cons st stq st.nextId n hh, if_pos rfl]
    rfl
  refine ⟨⟨?_, ?_, ?_, ?_⟩, by omega, ⟨[(st.nextId, n)], hh, by simp⟩,
    ⟨[(a, st.nextId)], ha, by simp [hheapn]⟩, ?_⟩
  · intro b tid hb
    rw [lookupAnchor_cons st stq a st.nextId ha] at hb
    by_cases hab : a = b
    · rw [if_pos hab] at hb
      exact .inl (Option.some.inj hb ▸ hheapn)
    · rw [if_neg hab] at hb
      rcases hinv.anchorsResolve b tid hb with h | h
      · refine .inl ?_
        rw [heapLookup_cons st stq st.nextId n hh]
        split
        · rfl
        · exact h
      · exact .inr (by rw [hp]; exact h)
  · intro p hp2
    rw [hh] at hp2
    rcases List.mem_cons.1 hp2 with rfl | hp3
    · exact ⟨hid, by omega⟩
    · exact ⟨(hinv.heapIds p hp3).1, by have := (hinv.heapIds p hp3).2; omega⟩
  · intro p hp2
    rw [ha] at hp2
    rcases List.mem_cons.1 hp2 with rfl | hp3
    · simp; omega
    · have := hinv.idsBound p hp3; omega
  · intro b hb
    rw [hp] at hb
    rw [lookupAnchor_cons st stq a st.nextId ha]
    split
    · rfl
    · exact hinv.paSub b hb
  · intro b hb
    exact .inl (by rw [hp]; exact hb)

-- Opening an anchored collection: the fresh registration enters the anchor
-- table and the active-path set before any child composes.
theorem inv_open (st st3 : PState) (a : String)
    (hinv : ComposerInv st)
    (ha : st3.anchors = (a, st.nextId) :: st.anchors)
    (hp : st3.parentAnchors = insertPA st.parentAnchors a)
    (hh : st3.heap = st.heap)
    (hn : st3.nextId = st.nextId + 1) :
    ComposerInv st3 := by
  have hlh : ∀ j, heapLookup st3 j = heapLookup st j := by
    intro j; rw [heapLookup, heapLookup, hh]
  refine ⟨?_, ?_, ?_, ?_⟩
  · intro b tid hb
    rw [lookupAnchor_cons st st3 a st.nextId ha] at hb
    by_cases hab : a = b
    · refine .inr ?_
      rw [hp, ← hab, mem_insertPA_iff]
      exact .inl rfl
    · rw [if_neg hab] at hb
      rcases hinv.anchorsResolve b tid hb with h | h
      · exact .inl (by rw [hlh]; exact h)
      · exact .inr (by rw [hp, mem_insertPA_iff]; exact .inr h)
  · intro p hp2
    rw [hh] at hp2
    exact ⟨(hinv.heapIds p hp2).1, by have := (hinv.heapIds p hp2).2; omega⟩
  · intro p hp2
    rw [ha] at hp2
    rcases List.mem_cons.1 hp2 with rfl | hp3
    · simp; omega
    · have := hinv.idsBound p hp3; omega
  · intro b hb
    rw [lookupAnchor_cons st st3 a st.nextId ha]
    split
    · rfl
    · rw [hp, mem_insertPA_iff] at hb
      rcases hb with rfl | hb2
      · simp at *
      · exact hinv.paSub b hb2

-- Closing an anchored collection: remove the name from the active-path set
-- and complete the node into the heap; every anchor entry naming it now
-- resolves (to the node itself, or to a shadowing child registration).
theorem inv_close (st st3 st4 st2 : PState) (a : String) (n : Node)
    (hinv : ComposerInv st) (hinv4 : ComposerInv st4)
    (hext : ComposerExtends st3 st4)
    (h3a : st3.anchors = (a, st.nextId) :: st.anchors)
    (h3p : st3.parentAnchors = insertPA st.parentAnchors a)
    (h3h : st3.heap = st.heap)
    (h3n : st3.nextId = st.nextId + 1)
    (h2 : st2 = { st4 with parentAnchors := removePA st4.parentAnchors a,
                           heap := (st.nextId, n) :: st4.heap })
    (hid : n.id = st.nextId) :
    ComposerInv st2 ∧ ComposerExtends st st2 := by
  obtain ⟨hnn, ⟨preh, hph, hfh⟩, ⟨prea, hpa, hra⟩, hpp⟩ := hext
  have h2a : st2.anchors = st4.anchors := by rw [h2]
  have h2h : st2.heap = (st.nextId, n) :: st4.heap := by rw [h2]
  have h2p : st2.parentAnchors = removePA st4.parentAnchors a := by rw [h2]
  have h2n : st2.nextId = st4.nextId := by rw [h2]
  have hl2 : ∀ b, lookupAnchor st2 b = lookupAnchor st4 b := by
    intro b; rw [lookupAnchor, lookupAnchor, h2a]
  have hh2 : ∀ j, heapLookup st2 j = if st.nextId = j then some n else heapLookup st4 j :=
    heapLookup_cons st4 st2 st.nextId n h2h
  have hmono2 : ∀ j, (heapLookup st4 j).isSome = true → (heapLookup st2 j).isSome = true := by
    intro j hj
    rw [hh2]
    split
    · rfl
    · exact hj
  have hself : (heapLookup st2 st.nextId).isSome = true := by
    rw [hh2, if_pos rfl]
    rfl
  -- every current lookup of `a` resolves in st2
  have haRes : ∀ j, lookupAnchor st4 a = some j → (heapLookup st2 j).isSome = true := by
    intro j hj
    rcases lookupAnchor_extend st3 st4 prea hpa a j hj with ⟨p, hp, _, rfl⟩ | hj3
    · exact hmono2 p.2 (hra p hp).2
    · rw [lookupAnchor_cons st st3 a st.nextId h3a, if_pos rfl] at hj3
      have : st.nextId = j := Option.some.inj hj3
      rw [← this]
      exact hself
  refine ⟨⟨?_, ?_, ?_, ?_⟩, ?_, ?_, ?_, ?_⟩
  · -- anchorsResolve
    intro b tid hb
    rw [hl2] at hb
    by_cases hab : a = b
    · exact .inl (haRes tid (hab ▸ hb))
    · rcases lookupAnchor_extend st3 st4 prea hpa b tid hb with ⟨p, hp, _, rfl⟩ | hb3
      · exact .inl (hmono2 p.2 (hra p hp).2)
      · rw [lookupAnchor_cons st st3 a st.nextId h3a, if_neg hab] at hb3
        rcases hinv.anchorsResolve b tid hb3 with h | h
        · refine .inl (hmono2 tid ?_)
          exact heapLookup_mono st3 st4 preh hph tid (by rw [heapLookup, h3h]; exact h)
        · have hb3p : b ∈ st3.parentAnchors := by
            rw [h3p, mem_insertPA_iff]; exact .inr h
          rcases hpp b hb3p with h4 | h4
          · refine .inr ?_
            rw [h2p, mem_removePA_iff]
            exact ⟨h4, fun hba => hab hba.symm⟩
          · exact .inl (hmono2 tid (h4 tid hb))
  · -- heapIds
    intro p hp2
    rw [h2h] at hp2
    rcases List.mem_cons.1 hp2 with rfl | hp3
    · exact ⟨hid, by rw [h2n]; omega⟩
    · exact ⟨(hinv4.heapIds p hp3).1, by rw [h2n]; exact (hinv4.heapIds p hp3).2⟩
  · -- idsBound
    intro p hp2
    rw [h2a] at hp2
    rw [h2n]
    exact hinv4.idsBound p hp2
  · -- paSub
    intro b hb
    rw [h2p, mem_removePA_iff] at hb
    rw [hl2]
    exact hinv4.paSub b hb.1
  · rw [h2n]; omega
  · -- heap extension
    refine ⟨(st.nextId, n) :: preh, ?_, ?_⟩
    · rw [h2h, hph, h3h]
      rfl
    · intro p hp2
      rcases List.mem_cons.1 hp2 with rfl | hp3
      · exact le_refl _
      · have := hfh p hp3; omega
  · -- anchors extension
    refine ⟨prea ++ [(a, st.nextId)], ?_, ?_⟩
    · rw [h2a, hpa, h3a, List.append_assoc]
      rfl
    · intro p hp2
      rcases List.mem_append.1 hp2 with hp3 | hp3
      · exact ⟨by have := (hra p hp3).1; omega, hmono2 p.2 (hra p hp3).2⟩
      · simp only [List.mem_singleton] at hp3
        rw [hp3]
        exact ⟨le_refl _, hself⟩
  · -- parent anchors
    intro b hb
    by_cases hab : a = b
    · refine .inr fun j hj => ?_
      rw [hl2] at hj
      exact haRes j (hab ▸ hj)
    · have hb3 : b ∈ st3.parentAnchors := by
        rw [h3p, mem_insertPA_iff]; exact .inr hb
      rcases hpp b hb3 with h4 | h4
      · refine .inl ?_
        rw [h2p, mem_removePA_iff]
        exact ⟨h4, fun hba => hab hba.symm⟩
      · refine .inr fun j hj => ?_
        rw [hl2] at hj
        exact hmono2 j (h4 j hj)

theorem aliasfree_leaf (banned : List Nat) (n : Node)
    (hcont : n.content = []) (htgt : n.aliasTarget = none) : AliasFree banned n := by
  refine .intro banned n ?_ ?_
  · intro t _ ht
    rw [htgt] at ht
    cases ht
  · intro c hc
    rw [hcont] at hc
    cases hc

theorem aliasfree_collection (banned : List Nat) (n : Node)
    (hkind : n.kind ≠ .aliasNode)
    (hch : ∀ c ∈ n.content, AliasFree (n.id :: banned) c) : AliasFree banned n := by
  refine .intro banned n ?_ hch
  intro t hk _
  exact absurd hk hkind

-- A composed alias: its target was found in the heap (the active-path
-- check passed, so the anchor entry resolves to a completed node), whose
-- id is neither the alias's own fresh id nor any open ancestor's.
theorem aliasfree_alias (st : PState) (n : Node) (banned : List Nat)
    (hinv : ComposerInv st) (hb : BannedOpen banned st)
    (hcont : n.content = []) (hid : n.id = st.nextId)
    (name : String) (tid : Nat) (hpa : name ∉ st.parentAnchors)
    (hlook : lookupAnchor st name = some tid)
    (htgt : n.aliasTarget = heapLookup st tid) :
    AliasFree banned n := by
  have hres : (heapLookup st tid).isSome = true := by
    rcases hinv.anchorsResolve name tid hlook with h | h
    · exact h
    · exact absurd h hpa
  obtain ⟨tgt, htg⟩ := Option.isSome_iff_exists.1 hres
  have hmem := heapLookup_some_mem st tid tgt htg
  have hids := hinv.heapIds (tid, tgt) hmem
  refine .intro banned n ?_ ?_
  · intro t _ ht
    rw [htgt, htg] at ht
    obtain rfl : tgt = t := Option.some.inj ht
    constructor
    · intro hin
      refine (hb tgt.id hin).2 ?_
      rw [hids.1]
      exact List.mem_map_of_mem Prod.fst hmem
    · rw [hids.1, hid]
      have := hids.2
      omega
  · intro c hc
    rw [hcont] at hc
    cases hc

theorem bannedOpen_child (st st3 : PState) (banned : List Nat)
    (hb : BannedOpen banned st) (hinv : ComposerInv st)
    (h3h : st3.heap = st.heap) (h3n : st3.nextId = st.nextId + 1) :
    BannedOpen (st.nextId :: banned) st3 := by
  intro i hi
  rcases List.mem_cons.1 hi with rfl | hi2
  · refine ⟨by omega, ?_⟩
    rw [h3h]
    intro hmem
    obtain ⟨p, hp, hpe⟩ := List.mem_map.1 hmem
    have := (hinv.heapIds p hp).2
    omega
  · obtain ⟨a1, a2⟩ := hb i hi2
    exact ⟨by omega, by rw [h3h]; exact a2⟩

theorem composeF_nil (f : Nat) (st : PState) : ∃ e, composeF f st [] = .error e := by
  cases f <;> exact ⟨_, rfl⟩

-- The composer invariant, the state-extension relation, the
-- stream-consumption shape, and ancestor-freeness of composed aliases,
-- proved simultaneously over the mutual recursion.
theorem composer_ok : ∀ fuel : Nat,
    (∀ st evs n st2 rest, ComposerInv st → EventsWF evs →
      composeF fuel st evs = .ok (n, st2, rest) →
      ComposerInv st2 ∧ ComposerExtends st st2 ∧ (∃ pr, evs = pr ++ rest) ∧
      ∀ banned, BannedOpen banned st → AliasFree banned n) ∧
    (∀ st acc isMap evs ch st2 rest, ComposerInv st → EventsWF evs →
      composeItemsF fuel st acc isMap evs = .ok (ch, st2, rest) →
      ComposerInv st2 ∧ ComposerExtends st st2 ∧ (∃ pr, evs = pr ++ rest) ∧
      ∀ banned, BannedOpen banned st → (∀ c ∈ acc, AliasFree banned c) →
        ∀ c ∈ ch, AliasFree banned c) := by
  intro fuel
  induction fuel with
  | zero =>
    constructor
    · intro st evs n st2 rest _ _ hok
      simp [composeF] at hok
    · intro st acc isMap evs ch st2 rest _ _ hok
      simp [composeItemsF] at hok
  | succ f ih =>
    obtain ⟨ihF, ihI⟩ := ih
    constructor
    · intro st evs n st2 rest hinv hwf hok
      cases evs with
      | nil => simp [composeF] at hok
      | cons e rest0 =>
        have hwf0 : EventsWF rest0 := fun x hx => hwf x (List.mem_cons_of_mem e hx)
        cases e
        -- scalar
        next anchor tag value style l c =>
          obtain ⟨hkind, hcont, htgt, hid, hrest, hpp, hnn, hcase⟩ :=
            composeF_scalar_spec f st anchor tag value style l c rest0 n st2 rest hok
          subst hrest
          have hIE : ComposerInv st2 ∧ ComposerExtends st st2 := by
            rcases hcase with ⟨ha, hh⟩ | ⟨a, _, ha, hh⟩
            · exact inv_counter st st2 hinv ha hh hpp (by omega)
            · exact inv_scalar_anchored st st2 n a hinv ha hh hpp hnn hid
          exact ⟨hIE.1, hIE.2, ⟨[_], rfl⟩,
            fun banned _ => aliasfree_leaf banned n hcont htgt⟩
        -- alias
        next name l c =>
          obtain ⟨hkind, hcont, hid, hrest, hst2, hpa, tid, hlook, htgt⟩ :=
            composeF_alias_spec f st name l c rest0 n st2 rest hok
          subst hrest
          have hIE : ComposerInv st2 ∧ ComposerExtends st st2 := by
            rw [hst2]
            exact inv_counter st _ hinv rfl rfl rfl (Nat.le_succ _)
          exact ⟨hIE.1, hIE.2, ⟨[_], rfl⟩, fun banned hb =>
            aliasfree_alias st n banned hinv hb hcont hid name tid hpa hlook htgt⟩
        -- seqStart
        next anchor tag flow l c =>
          have hwfe : anchor ≠ some "" := hwf _ (List.mem_cons_self _ _)
          obtain ⟨st3, children, st4, hitems, hkind, hcont, htgt, hid, h3n, h3h, hcase⟩ :=
            composeF_seqStart_spec f st anchor tag flow l c rest0 n st2 rest hwfe hok
          rcases hcase with ⟨hanone, h3a, h3p, hst2⟩ |
            ⟨a, hasome, hane, hna, h3a, h3p, hst2⟩
          · obtain ⟨hinv3, hext3⟩ := inv_counter st st3 hinv h3a h3h h3p (by omega)
            obtain ⟨hinv4, hext4, ⟨pr2, hpr2⟩, hchAF⟩ :=
              ihI st3 [] false rest0 children st4 rest hinv3 hwf0 hitems
            subst hst2
            refine ⟨hinv4, hext3.ctrans hext4, ⟨_ :: pr2, by rw [hpr2]; rfl⟩, ?_⟩
            intro banned hb
            refine aliasfree_collection banned n (by rw [hkind]; decide) ?_
            rw [hcont, hid]
            exact hchAF (st.nextId :: banned)
              (bannedOpen_child st st3 banned hb hinv h3h h3n)
              (by intro x hx; cases hx)
          · obtain hinv3 := inv_open st st3 a hinv h3a h3p h3h h3n
            obtain ⟨hinv4, hext4, ⟨pr2, hpr2⟩, hchAF⟩ :=
              ihI st3 [] false rest0 children st4 rest hinv3 hwf0 hitems
            obtain ⟨hinv2, hext2⟩ :=
              inv_close st st3 st4 st2 a n hinv hinv4 hext4 h3a h3p h3h h3n hst2 hid
            refine ⟨hinv2, hext2, ⟨_ :: pr2, by rw [hpr2]; rfl⟩, ?_⟩
            intro banned hb
            refine aliasfree_collection banned n (by rw [hkind]; decide) ?_
            rw [hcont, hid]
            exact hchAF (st.nextId :: banned)
              (bannedOpen_child st st3 banned hb hinv h3h h3n)
              (by intro x hx; cases hx)
        -- seqEnd
        next =>
          simp [composeF] at hok
        -- mapStart
        next anchor tag flow l c =>
          have hwfe : anchor ≠ some "" := hwf _ (List.mem_cons_self _ _)
          obtain ⟨st3, children, st4, hitems, hkind, hcont, htgt, hid, h3n, h3h, hcase⟩ :=
            composeF_mapStart_spec f st anchor tag flow l c rest0 n st2 rest hwfe hok
          rcases hcase with ⟨hanone, h3a, h3p, hst2⟩ |
            ⟨a, hasome, hane, hna, h3a, h3p, hst2⟩
          · obtain ⟨hinv3, hext3⟩ := inv_counter st st3 hinv h3a h3h h3p (by omega)
            obtain ⟨hinv4, hext4, ⟨pr2, hpr2⟩, hchAF⟩ :=
              ihI st3 [] true rest0 children st4 rest hinv3 hwf0 hitems
            subst hst2
            refine ⟨hinv4, hext3.ctrans hext4, ⟨_ :: pr2, by rw [hpr2]; rfl⟩, ?_⟩
            intro banned hb
            refine aliasfree_collection banned n (by rw [hkind]; decide) ?_
            rw [hcont, hid]
            exact hchAF (st.nextId :: banned)
              (bannedOpen_child st st3 banned hb hinv h3h h3n)
              (by intro x hx; cases hx)
          · obtain hinv3 := inv_open st st3 a hinv h3a h3p h3h h3n
            obtain ⟨hinv4, hext4, ⟨pr2, hpr2⟩, hchAF⟩ :=
              ihI st3 [] true rest0 children st4 rest hinv3 hwf0 hitems
            obtain ⟨hinv2, hext2⟩ :=
              inv_close st st3 st4 st2 a n hinv hinv4 hext4 h3a h3p h3h h3n hst2 hid
            refine ⟨hinv2, hext2, ⟨_ :: pr2, by rw [hpr2]; rfl⟩, ?_⟩
            intro banned hb
            refine aliasfree_collection banned n (by rw [hkind]; decide) ?_
            rw [hcont, hid]
            exact hchAF (st.nextId :: banned)
              (bannedOpen_child st st3 banned hb hinv h3h h3n)
              (by intro x hx; cases hx)
        -- mapEnd
        next =>
          simp [composeF] at hok
    · intro st acc isMap evs ch st2 rest hinv hwf hok
      cases evs with
      | nil =>
        obtain ⟨e0, he0⟩ := composeF_nil f st
        cases isMap <;> simp [composeItemsF, he0] at hok
      | cons e rest0 =>
        have hwf0 : EventsWF rest0 := fun x hx => hwf x (List.mem_cons_of_mem e hx)
        cases isMap with
        | false =>
          cases e
          case seqEnd =>
            simp only [composeItemsF, Except.ok.injEq, Prod.mk.injEq] at hok
            obtain ⟨h1, h2, h3⟩ := hok
            subst h3
            rw [← h1, ← h2]
            exact ⟨hinv, ComposerExtends.rfl st, ⟨[_], rfl⟩,
              fun banned _ hacc => hacc⟩
          all_goals
            simp only [composeItemsF] at hok
            split at hok
            · cases hok
            · next c0 st1 rest1 heq =>
              obtain ⟨hinv1, hext1, ⟨pr1, hpr1⟩, hAF1⟩ :=
                ihF st _ c0 st1 rest1 hinv hwf heq
              have hwf1 : EventsWF rest1 := fun x hx =>
                hwf x (by rw [hpr1]; exact List.mem_append_right pr1 hx)
              obtain ⟨hinv2, hext2, ⟨pr2, hpr2⟩, hAF2⟩ :=
                ihI st1 (acc ++ [c0]) false rest1 ch st2 rest hinv1 hwf1 hok
              refine ⟨hinv2, hext1.ctrans hext2, ⟨pr1 ++ pr2, ?_⟩, ?_⟩
              · rw [hpr1, hpr2, List.append_assoc]
              · intro banned hb hacc
                refine hAF2 banned (BannedOpen.mono hb hext1) ?_
                intro x hx
                rcases List.mem_append.1 hx with hx1 | hx1
                · exact hacc x hx1
                · simp only [List.mem_singleton] at hx1
                  rw [hx1]
                  exact hAF1 banned hb
        | true =>
          cases e
          case mapEnd =>
            simp only [composeItemsF, Except.ok.injEq, Prod.mk.injEq] at hok
            obtain ⟨h1, h2, h3⟩ := hok
            subst h3
            rw [← h1, ← h2]
            exact ⟨hinv, ComposerExtends.rfl st, ⟨[_], rfl⟩,
              fun banned _ hacc => hacc⟩
          all_goals
            simp only [composeItemsF] at hok
            split at hok
            · cases hok
            · next k0 st1 rest1 heq =>
              split at hok
              · cases hok
              · next v0 st15 rest15 heq2 =>
                obtain ⟨hinv1, hext1, ⟨pr1, hpr1⟩, hAF1⟩ :=
                  ihF st _ k0 st1 rest1 hinv hwf heq
                have hwf1 : EventsWF rest1 := fun x hx =>
                  hwf x (by rw [hpr1]; exact List.mem_append_right pr1 hx)
                obtain ⟨hinv15, hext15, ⟨pr15, hpr15⟩, hAF15⟩ :=
                  ihF st1 _ v0 st15 rest15 hinv1 hwf1 heq2
                have hwf15 : EventsWF rest15 := fun x hx =>
                  hwf1 x (by rw [hpr15]; exact List.mem_append_right pr15 hx)
                obtain ⟨hinv2, hext2, ⟨pr2, hpr2⟩, hAF2⟩ :=
                  ihI st15 (acc ++ [k0, v0]) true rest15 ch st2 rest hinv15 hwf15 hok
                refine ⟨hinv2, (hext1.ctrans hext15).ctrans hext2,
                  ⟨pr1 ++ (pr15 ++ pr2), ?_⟩, ?_⟩
                · rw [hpr1, hpr15, hpr2]
                  simp [List.append_assoc]
                · intro banned hb hacc
                  refine hAF2 banned
                    (BannedOpen.mono (BannedOpen.mono hb hext1) hext15) ?_
                  intro x hx
                  rcases List.mem_append.1 hx with hx1 | hx1
                  · exact hacc x hx1
                  · rcases List.mem_cons.1 hx1 with rfl | hx2
                    · exact hAF1 banned hb
                    · simp only [List.mem_singleton] at hx2
                      rw [hx2]
                      exact hAF15 banned (BannedOpen.mono hb hext1)

/-- C3 counterexample: in the stream `&a [ &a [], *a ]` the alias to `a`
occurs while the children of the outer sequence anchored `a` are still
being composed, yet composition succeeds (the claim requires an "anchor
contains itself" rejection there): the inner same-named anchor's end
event removed `a` from the active-path set early, and the alias binds to
the completed inner node. -/
theorem C3_counterexample_nested_anchor_shadowing :
    ∃ n st rest, compose [Event.seqStart (some "a") "" false 0 0,
        Event.seqStart (some "a") "" false 1 2, Event.seqEnd,
        Event.alias "a" 2 2, Event.seqEnd] = .ok (n, st, rest) ∧
      n.anchor = "a" ∧ n.kind = .sequenceNode ∧
      ∃ c ∈ n.content, c.kind = .aliasNode ∧ c.value = "a" ∧
        ∃ tgt, c.aliasTarget = some tgt ∧ tgt.id ≠ n.id := by
  refine ⟨_, _, _, rfl, rfl, rfl,
    Node.mk 2 .aliasNode 0 "" "a" ""
      (some (Node.mk 1 .sequenceNode 0 "!!seq" "" "a" none [] 2 3)) [] 3 3,
    List.mem_cons_of_mem _ (List.mem_cons_self _ _), rfl, rfl,
    Node.mk 1 .sequenceNode 0 "!!seq" "" "a" none [] 2 3, rfl, by decide⟩

/-- C3, amended: on an anchored sequence or mapping start the fresh node
is registered in the anchor table and its name inserted into the
active-path set before any of its children are composed, and the name is
removed again at the matching end event — but not "exactly while" the
children are composed: insertion is idempotent and removal strips every
occurrence, so a nested same-named anchor's end removes the name early
(see the counterexample).  An alias whose anchor name is in the
active-path set is rejected with an "anchor contains itself" failure,
and no composed alias node has itself or one of its ancestors as its
target — every alias binds to an already-completed node. -/
theorem C3_amended_anchor_window :
    (∀ (f : Nat) (st : PState) (a tag : String) (flow : Bool) (l c : Nat)
        (rest : List Event) (n : Node) (st2 : PState) (rest2 : List Event),
      a ≠ "" →
      composeF (f+1) st (.seqStart (some a) tag flow l c :: rest) = .ok (n, st2, rest2) →
      ∃ st3 children st4, composeItemsF f st3 [] false rest = .ok (children, st4, rest2) ∧
        n.content = children ∧ n.id = st.nextId ∧ n.anchor = a ∧
        st3.anchors = (a, st.nextId) :: st.anchors ∧
        a ∈ st3.parentAnchors ∧
        a ∉ st2.parentAnchors ∧ st2.parentAnchors = removePA st4.parentAnchors a) ∧
    (∀ (f : Nat) (st : PState) (a tag : String) (flow : Bool) (l c : Nat)
        (rest : List Event) (n : Node) (st2 : PState) (rest2 : List Event),
      a ≠ "" →
      composeF (f+1) st (.mapStart (some a) tag flow l c :: rest) = .ok (n, st2, rest2) →
      ∃ st3 children st4, composeItemsF f st3 [] true rest = .ok (children, st4, rest2) ∧
        n.content = children ∧ n.id = st.nextId ∧ n.anchor = a ∧
        st3.anchors = (a, st.nextId) :: st.anchors ∧
        a ∈ st3.parentAnchors ∧
        a ∉ st2.parentAnchors ∧ st2.parentAnchors = removePA st4.parentAnchors a) ∧
    (∀ (f : Nat) (st : PState) (name : String) (l c : Nat) (rest : List Event),
      name ∈ st.parentAnchors →
      composeF (f+1) st (.alias name l c :: rest) =
        .error (unmarshalErrf
          (some (Node.mk st.nextId .aliasNode 0 "" name "" none [] (l+1) (c+1))) none
          ("anchor " ++ quoteName name ++ " value contains itself"))) ∧
    (∀ (evs : List Event) (n : Node) (st2 : PState) (rest : List Event),
      EventsWF evs → compose evs = .ok (n, st2, rest) → AliasFree [] n) := by
  refine ⟨?_, ?_, ?_, ?_⟩
  · intro f st a tag flow l c rest n st2 rest2 ha hok
    obtain ⟨st3, children, st4, hitems, hkind, hcont, htgt, hid, h3n, h3h, hcase⟩ :=
      composeF_seqStart_spec f st (some a) tag flow l c rest n st2 rest2
        (fun h => ha (Option.some.inj h)) hok
    rcases hcase with ⟨hanone, _⟩ | ⟨a2, hasome, _, hna, h3a, h3p, hst2⟩
    · cases hanone
    · obtain rfl : a2 = a := (Option.some.inj hasome).symm
      refine ⟨st3, children, st4, hitems, hcont, hid, hna, h3a, ?_, ?_, ?_⟩
      · rw [h3p, mem_insertPA_iff]; exact .inl rfl
      · rw [hst2]
        simp only [mem_removePA_iff]
        rintro ⟨-, hne⟩
        exact hne rfl
      · rw [hst2]
  · intro f st a tag flow l c rest n st2 rest2 ha hok
    obtain ⟨st3, children, st4, hitems, hkind, hcont, htgt, hid, h3n, h3h, hcase⟩ :=
      composeF_mapStart_spec f st (some a) tag flow l c rest n st2 rest2
        (fun h => ha (Option.some.inj h)) hok
    rcases hcase with ⟨hanone, _⟩ | ⟨a2, hasome, _, hna, h3a, h3p, hst2⟩
    · cases hanone
    · obtain rfl : a2 = a := (Option.some.inj hasome).symm
      refine ⟨st3, children, st4, hitems, hcont, hid, hna, h3a, ?_, ?_, ?_⟩
      · rw [h3p, mem_insertPA_iff]; exact .inl rfl
      · rw [hst2]
        simp only [mem_removePA_iff]
        rintro ⟨-, hne⟩
        exact hne rfl
      · rw [hst2]
  · intro f st name l c rest hmem
    simp only [composeF, pnode_snd]
    rw [if_pos (by exact hmem)]
    simp [pnode]
  · intro evs n st2 rest hwf hok
    have hinv0 : ComposerInv initPState := by
      refine ⟨?_, ?_, ?_, ?_⟩
      · intro b tid hb
        simp [lookupAnchor, initPState] at hb
      · intro p hp
        simp [initPState] at hp
      · intro p hp
        simp [initPState] at hp
      · intro a hp
        simp [initPState] at hp
    obtain ⟨_, _, _, hAF⟩ := (composer_ok (2 * evs.length + 2)).1 initPState evs n st2 rest
      hinv0 hwf hok
    exact hAF [] (by intro i hi; cases hi)

/-- C3 witness: the amended clauses at concrete inputs — the anchored
sequence `&a [x]` registers `a` before its child composes and clears the
window at its end event, an alias meets the contains-itself rejection
from a state whose active path holds `a`, and `&a [x]`'s composition is
ancestor-free. -/
theorem C3_amended_anchor_window_witness :
    (∃ st3 children st4,
      composeItemsF 9 st3 [] false [.scalar none "" "x" 0 1 2, .seqEnd] =
        .ok (children, st4, []) ∧
      c3outer.content = children ∧ c3outer.id = initPState.nextId ∧
      c3outer.anchor = "a" ∧
      st3.anchors = ("a", initPState.nextId) :: initPState.anchors ∧
      "a" ∈ st3.parentAnchors ∧
      "a" ∉ c3endState.parentAnchors ∧
      c3endState.parentAnchors = removePA st4.parentAnchors "a") ∧
    (composeF 3 c3paState [.alias "a" 2 2] =
      .error (unmarshalErrf
        (some (Node.mk 1 .aliasNode 0 "" "a" "" none [] 3 3)) none
        ("anchor " ++ quoteName "a" ++ " value contains itself"))) ∧
    AliasFree [] c3outer :=
  ⟨C3_amended_anchor_window.1 9 initPState "a" "" false 0 0
      [.scalar none "" "x" 0 1 2, .seqEnd] c3outer c3endState [] (by decide) rfl,
   C3_amended_anchor_window.2.2.1 2 c3paState "a" 2 2 [] (by decide),
   C3_amended_anchor_window.2.2.2
      [.seqStart (some "a") "" false 0 0, .scalar none "" "x" 0 1 2, .seqEnd]
      c3outer c3endState [] (by decide) rfl⟩

end Yaml
